import Mathlib

/-!
FixedResource and DynArray.

A shallow embedding of `include/fixed_resource.hpp` (a fixed-capacity memory
resource with a bump pointer and two block lists) and of
`include/dyn_array.hpp` (a growable array that takes its storage from such a
resource).

Conventions of the embedding.

* `size_t` is the 64-bit unsigned type: values are naturals below `SIZE_MOD`,
  and every `+`, `-`, `*`, `~` of the source is reduced modulo `SIZE_MOD`.
* `void*` and `T*` are natural numbers (flat addresses);
  `static_cast<char*>(buf_) + k` is `buf_ + k`, and `data_ + i` on a `T*` is
  `data_ + i * sizeof(T)`.
* A `throw` is the result `none` (or the flag `false`); a function that can
  throw returns the object state at the point of the throw next to it.
* `std::list<Block>` is `List Block`, `push_back` appends at the end and
  `erase(it)` removes the element the iterator points at.
* The elements of all arrays live in one storage (`Memory`), which holds the
  objects of the element type by the address of their first byte. A block is
  nothing but a range of addresses, so two blocks that meet share their
  objects, and constructing an object overwrites every object it meets.
* The two assignment operators of `DynArray` have no embedding: both contain
  `alloc_ = o.alloc_`, and `std::pmr::polymorphic_allocator` declares its copy
  assignment deleted, so neither member function can be instantiated.
-/

/-- Number of values of `size_t`. -/
def SIZE_MOD : Nat := 2 ^ 64

/-- Unsigned `a + b` on `size_t`. -/
def uadd (a b : Nat) : Nat := (a + b) % SIZE_MOD

/-- Unsigned `a - b` on `size_t` (for operands below `SIZE_MOD`). -/
def usub (a b : Nat) : Nat := (a + SIZE_MOD - b) % SIZE_MOD

/-- Unsigned `a * b` on `size_t`. -/
def umul (a b : Nat) : Nat := (a * b) % SIZE_MOD

/-- Bitwise complement `~a` on `size_t` (for an operand below `SIZE_MOD`). -/
def unot (a : Nat) : Nat := SIZE_MOD - 1 - a

/-- The record `struct Block { void* p; size_t sz; size_t al; }`. -/
structure FixedResource.Block where
  p : Nat
  sz : Nat
  al : Nat
deriving DecidableEq, Repr

/-- The data members of `class FixedResource`. -/
structure FixedResource where
  buf_ : Nat
  cap_ : Nat
  off_ : Nat
  used_ : List FixedResource.Block
  free_ : List FixedResource.Block
  own_ : Bool
deriving DecidableEq, Repr

namespace FixedResource

/-- The loop shape shared by `do_allocate` and `do_deallocate`: walk the list
from `begin()`, stop at the first element satisfying the test, and hand back
that element together with the list after `erase(it)`. -/
def take_first (test : Block → Bool) : List Block → Option (Block × List Block)
  | [] => none
  | b :: rest =>
    if test b then some (b, rest)
    else
      match take_first test rest with
      | none => none
      | some (x, rest') => some (x, b :: rest')

/-- The source function `align_up`: `(n + a - 1) & ~(a - 1)` on `size_t`. -/
def align_up (n a : Nat) : Nat :=
  usub (uadd n a) 1 &&& unot (usub a 1)

/-- The test `it->sz >= bytes && it->al >= alignment` of the free-list scan. -/
def fits (bytes alignment : Nat) (b : Block) : Bool :=
  decide (b.sz ≥ bytes) && decide (b.al ≥ alignment)

/-- The source function `do_allocate`. The first component is the returned
pointer, or `none` for `throw bad_alloc()`; the second is the object after the
call. -/
def do_allocate (r : FixedResource) (bytes alignment : Nat) : Option Nat × FixedResource :=
  match take_first (fits bytes alignment) r.free_ with
  | some (b, rest) => (some b.p, { r with used_ := r.used_ ++ [b], free_ := rest })
  | none =>
    let aligned_off := align_up r.off_ alignment
    if uadd aligned_off bytes > r.cap_ then (none, r)
    else
      let p := r.buf_ + aligned_off
      (some p, { r with off_ := uadd aligned_off bytes,
                        used_ := r.used_ ++ [⟨p, bytes, alignment⟩] })

/-- The source function `do_deallocate`; `bytes` and `alignment` are not read. -/
def do_deallocate (r : FixedResource) (p _bytes _alignment : Nat) : FixedResource :=
  match take_first (fun b => decide (b.p = p)) r.used_ with
  | some (b, rest) => { r with free_ := r.free_ ++ [b], used_ := rest }
  | none => r

/-- Both constructors: `buffer` is the address of the storage (obtained from
`::operator new(size)` when `own` is true, supplied by the caller otherwise). -/
def create (buffer size : Nat) (own : Bool) : FixedResource :=
  { buf_ := buffer, cap_ := size, off_ := 0, used_ := [], free_ := [], own_ := own }

/-- The accessor `used_count()`. -/
def used_count (r : FixedResource) : Nat := r.used_.length

/-- The accessor `free_count()`. -/
def free_count (r : FixedResource) : Nat := r.free_.length

/-- One call on the public interface of the resource. -/
inductive Op where
  | allocate (bytes alignment : Nat)
  | deallocate (p bytes alignment : Nat)
deriving DecidableEq, Repr

/-- The object after one call; a throwing `allocate` is caught by the caller. -/
def apply_op (r : FixedResource) : Op → FixedResource
  | .allocate bytes alignment => (do_allocate r bytes alignment).2
  | .deallocate p bytes alignment => do_deallocate r p bytes alignment

/-- Whether the call is an `allocate` that returns a pointer. -/
def op_succeeds (r : FixedResource) : Op → Bool
  | .allocate bytes alignment => (do_allocate r bytes alignment).1.isSome
  | .deallocate _ _ _ => false

/-- The object after a sequence of calls. -/
def run (r : FixedResource) : List Op → FixedResource
  | [] => r
  | op :: ops => run (apply_op r op) ops

/-- The number of `allocate` calls of the sequence that return a pointer. -/
def successes (r : FixedResource) : List Op → Nat
  | [] => 0
  | op :: ops => (if op_succeeds r op then 1 else 0) + successes (apply_op r op) ops

/-- Whether the call is an `allocate` that finds no fitting freed block and
returns a pointer to a new block at the bump offset. -/
def op_bumps (r : FixedResource) : Op → Bool
  | .allocate bytes alignment =>
    (take_first (fits bytes alignment) r.free_).isNone && (do_allocate r bytes alignment).1.isSome
  | .deallocate _ _ _ => false

/-- The number of `allocate` calls of the sequence served by the bump pointer. -/
def bump_successes (r : FixedResource) : List Op → Nat
  | [] => 0
  | op :: ops => (if op_bumps r op then 1 else 0) + bump_successes (apply_op r op) ops

/-- Rounding `n` up to a multiple of `a`, as the specification words it (the
least multiple of `a` that is at least `n`), on unbounded naturals. -/
def roundup (n a : Nat) : Nat := (n + a - 1) / a * a

/-- A power-of-two alignment representable in `size_t`. -/
def pow2 (a : Nat) : Prop := ∃ k, k < 64 ∧ a = 2 ^ k

instance (a : Nat) : Decidable (pow2 a) :=
  inferInstanceAs (Decidable (∃ k, k < 64 ∧ a = 2 ^ k))

/-- The bump computation of `do_allocate` on `r` stays inside `size_t`:
neither `off_ + alignment - 1` nor `aligned_off + bytes` exceeds `SIZE_MAX`. -/
def no_wrap (r : FixedResource) (bytes alignment : Nat) : Prop :=
  r.off_ + alignment ≤ SIZE_MOD ∧ roundup r.off_ alignment + bytes < SIZE_MOD

instance (r : FixedResource) (bytes alignment : Nat) : Decidable (no_wrap r bytes alignment) :=
  inferInstanceAs (Decidable (_ ∧ _))

/-- Admissible call on state `r`: an `allocate` has a power-of-two alignment
and, when it is served by the bump pointer, its arithmetic does not wrap. -/
def op_ok (r : FixedResource) : Op → Bool
  | .allocate bytes alignment =>
    decide (pow2 alignment) &&
      ((take_first (fits bytes alignment) r.free_).isSome || decide (no_wrap r bytes alignment))
  | .deallocate _ _ _ => true

/-- Every call of the sequence is admissible on the state it is applied to. -/
def ops_ok (r : FixedResource) : List Op → Bool
  | [] => true
  | op :: ops => op_ok r op && ops_ok (apply_op r op) ops

/-- The call has sizes small enough: an `allocate` has a power-of-two
alignment and, when it is served by the bump pointer, the rounded offset plus
the size does not exceed `SIZE_MAX`. -/
def op_sum_ok (r : FixedResource) : Op → Bool
  | .allocate bytes alignment =>
    decide (pow2 alignment) &&
      ((take_first (fits bytes alignment) r.free_).isSome ||
        decide (roundup r.off_ alignment + bytes < SIZE_MOD))
  | .deallocate _ _ _ => true

/-- Every call of the sequence has sizes small enough on the state it is
applied to. -/
def ops_sum_ok (r : FixedResource) : List Op → Bool
  | [] => true
  | op :: ops => op_sum_ok r op && ops_sum_ok (apply_op r op) ops

/-- The call does not request zero bytes. -/
def op_positive : Op → Bool
  | .allocate bytes _ => decide (0 < bytes)
  | .deallocate _ _ _ => true

/-- The sum of the recorded sizes of a block list. -/
def total_size (l : List Block) : Nat := (l.map (fun b => b.sz)).sum

/-- The addresses recorded in a block list. -/
def addresses (l : List Block) : List Nat := l.map (fun b => b.p)

/-- Bump offset within the capacity, and the recorded sizes of all blocks
(used and free) within the bump offset. -/
def bounded (r : FixedResource) : Prop :=
  r.off_ ≤ r.cap_ ∧ total_size (r.used_ ++ r.free_) ≤ r.off_

/-- Every recorded address lies below the bump address, and no two block
records (used or free) have the same address. -/
def distinct (r : FixedResource) : Prop :=
  (∀ b ∈ r.used_ ++ r.free_, b.p < r.buf_ + r.off_) ∧ (addresses (r.used_ ++ r.free_)).Nodup

/-- The byte ranges `[p, p + sz)` recorded by two blocks do not meet. -/
def ranges_disjoint (b c : Block) : Prop := b.p + b.sz ≤ c.p ∨ c.p + c.sz ≤ b.p

/-- Every recorded range lies inside the part of the buffer below the bump
offset, and the ranges of any two records (used or free) do not meet. -/
def separated (r : FixedResource) : Prop :=
  (∀ b ∈ r.used_ ++ r.free_, r.buf_ ≤ b.p ∧ b.p + b.sz ≤ r.buf_ + r.off_) ∧
  (r.used_ ++ r.free_).Pairwise ranges_disjoint

/-- The buffer pointer is not null and every recorded address lies at or
after the start of the buffer. -/
def arena_ok (r : FixedResource) : Prop :=
  0 < r.buf_ ∧ ∀ b ∈ r.used_ ++ r.free_, r.buf_ ≤ b.p

/-- The call respects the precondition of `memory_resource::allocate`: the
alignment is a power of two. -/
def op_pow2 : Op → Bool
  | .allocate _ alignment => decide (pow2 alignment)
  | .deallocate _ _ _ => true

/-- Every record has a power-of-two alignment and an offset from the start
of the buffer that is a multiple of it. -/
def aligned_blocks (r : FixedResource) : Prop :=
  ∀ b ∈ r.used_ ++ r.free_, pow2 b.al ∧ r.buf_ ≤ b.p ∧ b.al ∣ (b.p - r.buf_)


end FixedResource

/-! DynArray -/

/-- The member function `std::pmr::polymorphic_allocator<T>::allocate(n)` of
the standard library: it throws when `n > SIZE_MAX / sizeof(T)` and otherwise
asks the resource for `n * sizeof(T)` bytes aligned to `alignof(T)`. -/
def polymorphic_allocate (res : FixedResource) (sizeof_T alignof_T n : Nat) :
    Option Nat × FixedResource :=
  if n > (SIZE_MOD - 1) / sizeof_T then (none, res)
  else res.do_allocate (umul n sizeof_T) alignof_T

/-- The member function `std::pmr::polymorphic_allocator<T>::deallocate(p, n)`
of the standard library. -/
def polymorphic_deallocate (res : FixedResource) (sizeof_T alignof_T p n : Nat) :
    FixedResource :=
  res.do_deallocate p (umul n sizeof_T) alignof_T

namespace FixedResource

/-- A resource in working order: a non-null buffer of at most `2^62` bytes,
the bump offset within the capacity, and block records (used and free) that
lie inside the handed-out part of the buffer and do not meet. -/
def sane (r : FixedResource) : Prop :=
  0 < r.buf_ ∧ r.off_ ≤ r.cap_ ∧ r.cap_ ≤ 2 ^ 62 ∧ separated r

end FixedResource

/-- The objects of type `T` in the storage of the program, by the address of
their first byte: `some v` for a constructed object with value `v`, `none`
where no object of type `T` lives. An object occupies `sizeof(T)` bytes. All
arrays and all blocks of all resources share this one storage. -/
abbrev Memory (T : Type) := Nat → Option T

namespace Memory

variable {T : Type}

/-- The call `allocator_traits::construct(alloc_, p, src)`: an object is
constructed in the `sizeof(T)` bytes at `p`. `c` is what the construction reads
from its argument: `some v` for a live object with value `v`, `none` when the
argument is no live object. Every other object with a byte in
`[p, p + sizeof(T))` is overwritten and lives no longer. -/
def construct (sizeof_T : Nat) (mem : Memory T) (p : Nat) (c : Option T) : Memory T :=
  fun q => if q = p then c else if q < p + sizeof_T ∧ p < q + sizeof_T then none else mem q

/-- The call `allocator_traits::destroy(alloc_, p)`: the object at `p` lives
no longer. -/
def destroy (mem : Memory T) (p : Nat) : Memory T :=
  fun q => if q = p then none else mem q

end Memory

/-- The data members of `class DynArray<T>`. `alloc_` names the memory
resource the allocator points to; the resource itself is passed to every
operation that uses it. `data_` is the address of the storage block, `0` for
`nullptr`; the element `data_[i]` is the object at `data_ + i * sizeof(T)` of
the shared storage. -/
structure DynArray (T : Type) where
  alloc_ : Nat
  data_ : Nat
  sz_ : Nat
  cap_ : Nat
deriving DecidableEq, Repr

namespace DynArray

variable {T : Type}

/-- What a call of a member function leaves behind: whether it returned
normally (`false`: it threw), the resource, the storage and the array. -/
structure Outcome (T : Type) where
  ok : Bool
  res : FixedResource
  mem : Memory T
  arr : DynArray T

/-- The constructor `DynArray(allocator_type alloc)`. -/
def create (alloc : Nat) : DynArray T :=
  { alloc_ := alloc, data_ := 0, sz_ := 0, cap_ := 0 }

/-- The unchecked access `operator[]`: the object at `data_ + i`, if one lives
there. -/
def index (sizeof_T : Nat) (mem : Memory T) (a : DynArray T) (i : Nat) : Option T :=
  mem (a.data_ + i * sizeof_T)

/-- The accessor `size()`. -/
def size (a : DynArray T) : Nat := a.sz_

/-- The accessor `capacity()`. -/
def capacity (a : DynArray T) : Nat := a.cap_

/-- The accessor `empty()`. -/
def empty (a : DynArray T) : Bool := decide (a.sz_ = 0)

/-- The relocation loop of `reserve`, at index `i` with `k` rounds to go:
construct `nd[i]` from `std::move(data_[i])`, then destroy `data_[i]`. Both
blocks are ranges of the one storage, so a round writes over whatever lives at
`nd + i`, an element of the old block included. -/
def relocate (sizeof_T data nd : Nat) : Nat → Nat → Memory T → Memory T
  | _, 0, mem => mem
  | i, k + 1, mem =>
    relocate sizeof_T data nd (i + 1) k
      (Memory.destroy
        (Memory.construct sizeof_T mem (nd + i * sizeof_T) (mem (data + i * sizeof_T)))
        (data + i * sizeof_T))

/-- The member function `reserve(n)`. -/
def reserve (sizeof_T alignof_T : Nat) (res : FixedResource) (mem : Memory T) (a : DynArray T)
    (n : Nat) : Outcome T :=
  if n > a.cap_ then
    match polymorphic_allocate res sizeof_T alignof_T n with
    | (none, res1) => ⟨false, res1, mem, a⟩
    | (some nd, res1) =>
      let mem1 := relocate sizeof_T a.data_ nd 0 a.sz_ mem
      let res2 :=
        if a.data_ ≠ 0 then polymorphic_deallocate res1 sizeof_T alignof_T a.data_ a.cap_
        else res1
      ⟨true, res2, mem1, { a with data_ := nd, cap_ := n }⟩
  else ⟨true, res, mem, a⟩

/-- The private member function `grow()`. -/
def grow (sizeof_T alignof_T : Nat) (res : FixedResource) (mem : Memory T) (a : DynArray T) :
    Outcome T :=
  reserve sizeof_T alignof_T res mem a (if a.cap_ = 0 then 1 else umul a.cap_ 2)

/-- The statement `if (sz_ >= cap_) grow();` that opens `push_back` and
`emplace_back`. -/
def grow_if_full (sizeof_T alignof_T : Nat) (res : FixedResource) (mem : Memory T)
    (a : DynArray T) : Outcome T :=
  if a.sz_ ≥ a.cap_ then grow sizeof_T alignof_T res mem a else ⟨true, res, mem, a⟩

/-- The body shared by both `push_back` overloads and `emplace_back`. The
argument is a reference: `src` is what the construction reads from it, in the
storage as it is when the element is constructed, that is, after `grow()`. -/
def push_back_ref (sizeof_T alignof_T : Nat) (res : FixedResource) (mem : Memory T)
    (a : DynArray T) (src : Memory T → Option T) : Outcome T :=
  let grown := grow_if_full sizeof_T alignof_T res mem a
  if grown.ok then
    { grown with
      mem := Memory.construct sizeof_T grown.mem (grown.arr.data_ + grown.arr.sz_ * sizeof_T)
        (src grown.mem),
      arr := { grown.arr with sz_ := uadd grown.arr.sz_ 1 } }
  else grown

/-- The member functions `push_back(const T&)` and `push_back(T&&)`, called
with an object of value `v` that is not an element of an array. -/
def push_back (sizeof_T alignof_T : Nat) (res : FixedResource) (mem : Memory T)
    (a : DynArray T) (v : T) : Outcome T :=
  push_back_ref sizeof_T alignof_T res mem a (fun _ => some v)

/-- The member function `emplace_back(args...)`, with `v` the object that
`T(args...)` constructs; the returned reference `data_[sz_++]` is given as the
index of the new element (`none` when the call threw). -/
def emplace_back (sizeof_T alignof_T : Nat) (res : FixedResource) (mem : Memory T)
    (a : DynArray T) (v : T) : Option Nat × Outcome T :=
  let grown := grow_if_full sizeof_T alignof_T res mem a
  if grown.ok then
    (some grown.arr.sz_,
     { grown with
       mem := Memory.construct sizeof_T grown.mem (grown.arr.data_ + grown.arr.sz_ * sizeof_T)
         (some v),
       arr := { grown.arr with sz_ := uadd grown.arr.sz_ 1 } })
  else (none, grown)

/-- The loop `for (...) arr.push_back(v)` over the values of a list; it stops
at the first call that throws. -/
def push_all (sizeof_T alignof_T : Nat) :
    FixedResource → Memory T → DynArray T → List T → Outcome T
  | res, mem, a, [] => ⟨true, res, mem, a⟩
  | res, mem, a, v :: vs =>
    let r := push_back sizeof_T alignof_T res mem a v
    if r.ok then push_all sizeof_T alignof_T r.res r.mem r.arr vs else r

/-- The sequence read by `for (it = begin(); it != end(); ++it) *it`: the
objects at `data_`, ..., `data_ + sz_ - 1` in this order. -/
def iterate (sizeof_T : Nat) (mem : Memory T) (a : DynArray T) : List (Option T) :=
  (List.range a.sz_).map (index sizeof_T mem a)

/-- The capacity that the policy of `grow()` (`cap_ == 0 ? 1 : cap_ * 2`, applied
when `sz_ >= cap_`) gives after `k` pushes into an empty array. -/
def cap_after : Nat → Nat
  | 0 => 0
  | k + 1 =>
    if k < cap_after k then cap_after k
    else if cap_after k = 0 then 1 else 2 * cap_after k

/-- The growth events of a capacity trace: the capacities that differ from
the one observed just before (`prev` before the first entry). -/
def growth_events (prev : Nat) : List Nat → List Nat
  | [] => []
  | c :: cs => if c = prev then growth_events c cs else c :: growth_events c cs

/-- The loop of `clear()`, at index `i` with `k` rounds to go: destroy the
object at `data_ + i`. -/
def destroy_cells (sizeof_T data : Nat) : Nat → Nat → Memory T → Memory T
  | _, 0, mem => mem
  | i, k + 1, mem =>
    destroy_cells sizeof_T data (i + 1) k (Memory.destroy mem (data + i * sizeof_T))

/-- The member function `clear()`: the storage and the array afterwards. -/
def clear (sizeof_T : Nat) (mem : Memory T) (a : DynArray T) : Memory T × DynArray T :=
  (destroy_cells sizeof_T a.data_ 0 a.sz_ mem, { a with sz_ := 0 })

/-- The member function `pop_back()`: the storage and the array afterwards. -/
def pop_back (sizeof_T : Nat) (mem : Memory T) (a : DynArray T) : Memory T × DynArray T :=
  if a.sz_ > 0 then
    (Memory.destroy mem (a.data_ + (a.sz_ - 1) * sizeof_T), { a with sz_ := a.sz_ - 1 })
  else (mem, a)

/-- The member function `at(i)` (the source name is a reserved word here):
`none` for `throw std::out_of_range`, otherwise the object at `data_ + i`; the
storage and the array are handed back next to the result. -/
def at_ (sizeof_T : Nat) (mem : Memory T) (a : DynArray T) (i : Nat) :
    Option (Option T) × Memory T × DynArray T :=
  if i ≥ a.sz_ then (none, mem, a) else (some (index sizeof_T mem a i), mem, a)

/-- The private member function `dealloc()`. It does not touch the objects
in the storage. -/
def dealloc (sizeof_T alignof_T : Nat) (res : FixedResource) (a : DynArray T) :
    FixedResource × DynArray T :=
  if a.data_ ≠ 0 then
    (polymorphic_deallocate res sizeof_T alignof_T a.data_ a.cap_,
     { a with data_ := 0, cap_ := 0 })
  else (res, a)

/-- The destructor `~DynArray() { clear(); dealloc(); }`: the resource and the
storage after the array is gone. -/
def destroy (sizeof_T alignof_T : Nat) (res : FixedResource) (mem : Memory T)
    (a : DynArray T) : FixedResource × Memory T :=
  ((dealloc sizeof_T alignof_T res (clear sizeof_T mem a).2).1, (clear sizeof_T mem a).1)

/-- One call of a mutating member function on an array. -/
inductive AOp (T : Type) where
  | push_back (v : T)
  | emplace_back (v : T)
  | pop_back
  | clear
  | reserve (n : Nat)

/-- Whether the call leaves the array with a storage block whatever it had
before: an appending call, or `reserve(n)` with `n > 0`. -/
def AOp.takes_storage : AOp T → Bool
  | .push_back _ => true
  | .emplace_back _ => true
  | .reserve n => decide (0 < n)
  | .pop_back => false
  | .clear => false

/-- The call `op` on the array `a` backed by the resource `res`. -/
def apply_aop (sizeof_T alignof_T : Nat) (res : FixedResource) (mem : Memory T)
    (a : DynArray T) : AOp T → Outcome T
  | .push_back v => push_back sizeof_T alignof_T res mem a v
  | .emplace_back v =>
    { (emplace_back sizeof_T alignof_T res mem a v).2 with
      ok := (emplace_back sizeof_T alignof_T res mem a v).1.isSome }
  | .pop_back => ⟨true, res, (pop_back sizeof_T mem a).1, (pop_back sizeof_T mem a).2⟩
  | .clear => ⟨true, res, (clear sizeof_T mem a).1, (clear sizeof_T mem a).2⟩
  | .reserve n => reserve sizeof_T alignof_T res mem a n

/-- A sequence of calls on one array, with no other client of the resource in
between; it stops at the first call that throws. -/
def run_array (sizeof_T alignof_T : Nat) :
    FixedResource → Memory T → DynArray T → List (AOp T) → Outcome T
  | res, mem, a, [] => ⟨true, res, mem, a⟩
  | res, mem, a, op :: ops =>
    let r := apply_aop sizeof_T alignof_T res mem a op
    if r.ok then run_array sizeof_T alignof_T r.res r.mem r.arr ops else r

/-- The constructor `DynArray(n, alloc)`, with `d` the value `T{}`. -/
def construct_n (sizeof_T alignof_T : Nat) (res : FixedResource) (mem : Memory T)
    (alloc n : Nat) (d : T) : Outcome T :=
  let r := reserve sizeof_T alignof_T res mem (create alloc) n
  if r.ok then push_all sizeof_T alignof_T r.res r.mem r.arr (List.replicate n d) else r

/-- The loop `for (i = 0; i < o.sz_; ++i) push_back(o.data_[i])` of the copy
constructor, at index `i` with `k` rounds to go. The argument of each call is
the element `o.data_[i]` of the source, read from the storage when the copy is
constructed. -/
def copy_elems (sizeof_T alignof_T : Nat) (o : DynArray T) :
    Nat → Nat → FixedResource → Memory T → DynArray T → Outcome T
  | _, 0, res, mem, a => ⟨true, res, mem, a⟩
  | i, k + 1, res, mem, a =>
    let r := push_back_ref sizeof_T alignof_T res mem a (fun m => m (o.data_ + i * sizeof_T))
    if r.ok then copy_elems sizeof_T alignof_T o (i + 1) k r.res r.mem r.arr else r

/-- The copy constructor `DynArray(const DynArray& o)`; `res` is the resource
that `o.alloc_` points to. The source `o` is not written to as an object; its
elements live in the storage that is handed back. -/
def copy_construct (sizeof_T alignof_T : Nat) (res : FixedResource) (mem : Memory T)
    (o : DynArray T) : Outcome T :=
  let r := reserve sizeof_T alignof_T res mem
    { alloc_ := o.alloc_, data_ := 0, sz_ := 0, cap_ := 0 } o.sz_
  if r.ok then copy_elems sizeof_T alignof_T o 0 o.sz_ r.res r.mem r.arr else r

/-- The move constructor `DynArray(DynArray&& o)`: the new array and the
moved-from `o`. It calls no allocator and touches no element; resource and
storage are handed back as they came. -/
def move_construct (res : FixedResource) (mem : Memory T) (o : DynArray T) :
    FixedResource × Memory T × DynArray T × DynArray T :=
  (res, mem,
   { alloc_ := o.alloc_, data_ := o.data_, sz_ := o.sz_, cap_ := o.cap_ },
   { o with data_ := 0, sz_ := 0, cap_ := 0 })

/-- The representation invariant of an array: live elements inside the
block, and a null pointer exactly when the capacity is zero. -/
def inv (a : DynArray T) : Prop :=
  a.sz_ ≤ a.cap_ ∧ (a.cap_ = 0 ↔ a.data_ = 0)

/-- The array states that arise from a constructor by calls of `push_back`,
`emplace_back`, `pop_back`, `clear` and `reserve` and by the copy and move
constructors, every call returning normally. Each call may find its resource
in any state with a non-null buffer whose records point into the buffer, and
the storage with any content; an array that is pushed to holds fewer than
`2^63` elements.

The two assignment operators add no rule. Both contain the statement
`alloc_ = o.alloc_`, and the copy assignment of
`std::pmr::polymorphic_allocator` is deleted, so neither operator can be
instantiated and no program calls one. The states their remaining statements
describe are covered all the same: `clear(); dealloc();` leaves the state of
`create`, copying into it is `copy_construct`, and taking over the members of
the source is `move_construct`. -/
inductive Reachable (sizeof_T alignof_T : Nat) : DynArray T → Prop where
  | create (alloc : Nat) : Reachable sizeof_T alignof_T (create alloc)
  | construct_n (res : FixedResource) (mem : Memory T) (alloc n : Nat) (d : T) :
      res.arena_ok → n ≤ 2 ^ 63 →
      (construct_n sizeof_T alignof_T res mem alloc n d).ok = true →
      Reachable sizeof_T alignof_T (construct_n sizeof_T alignof_T res mem alloc n d).arr
  | push_back (res : FixedResource) (mem : Memory T) (a : DynArray T) (v : T) :
      Reachable sizeof_T alignof_T a → res.arena_ok → 2 * a.sz_ < SIZE_MOD →
      (push_back sizeof_T alignof_T res mem a v).ok = true →
      Reachable sizeof_T alignof_T (push_back sizeof_T alignof_T res mem a v).arr
  | emplace_back (res : FixedResource) (mem : Memory T) (a : DynArray T) (v : T) :
      Reachable sizeof_T alignof_T a → res.arena_ok → 2 * a.sz_ < SIZE_MOD →
      (emplace_back sizeof_T alignof_T res mem a v).1.isSome = true →
      Reachable sizeof_T alignof_T (emplace_back sizeof_T alignof_T res mem a v).2.arr
  | pop_back (mem : Memory T) (a : DynArray T) :
      Reachable sizeof_T alignof_T a → Reachable sizeof_T alignof_T (pop_back sizeof_T mem a).2
  | clear (mem : Memory T) (a : DynArray T) :
      Reachable sizeof_T alignof_T a → Reachable sizeof_T alignof_T (clear sizeof_T mem a).2
  | reserve (res : FixedResource) (mem : Memory T) (a : DynArray T) (n : Nat) :
      Reachable sizeof_T alignof_T a → res.arena_ok →
      (reserve sizeof_T alignof_T res mem a n).ok = true →
      Reachable sizeof_T alignof_T (reserve sizeof_T alignof_T res mem a n).arr
  | copy_construct (res : FixedResource) (mem : Memory T) (o : DynArray T) :
      Reachable sizeof_T alignof_T o → res.arena_ok →
      (copy_construct sizeof_T alignof_T res mem o).ok = true →
      Reachable sizeof_T alignof_T (copy_construct sizeof_T alignof_T res mem o).arr
  | move_construct_new (res : FixedResource) (mem : Memory T) (o : DynArray T) :
      Reachable sizeof_T alignof_T o →
      Reachable sizeof_T alignof_T (move_construct res mem o).2.2.1
  | move_construct_old (res : FixedResource) (mem : Memory T) (o : DynArray T) :
      Reachable sizeof_T alignof_T o →
      Reachable sizeof_T alignof_T (move_construct res mem o).2.2.2

/-- The array `a` and its resource `res`, where `u0` records were in the used
list before the array was constructed: either the array has no block and the
count is `u0`, or it has one, that block is in the used list, and the count is
`u0 + 1`. -/
def backed (u0 : Nat) (res : FixedResource) (a : DynArray T) : Prop :=
  res.arena_ok ∧
  ((a.cap_ = 0 ∧ a.data_ = 0 ∧ res.used_count = u0) ∨
   (0 < a.cap_ ∧ a.data_ ≠ 0 ∧ (∃ b ∈ res.used_, b.p = a.data_) ∧ res.used_count = u0 + 1))

/-- A realisable array state: the live elements lie inside the storage block
and their number is below `2^63` (they occupy distinct bytes of one object). -/
def wf (a : DynArray T) : Prop :=
  a.sz_ ≤ a.cap_ ∧ 2 * a.sz_ < SIZE_MOD

/-- The array holds its block: either it has no cells, or the used list of its
resource has a record at the address `data_` that covers all `cap_` cells. -/
def owns (sizeof_T : Nat) (res : FixedResource) (a : DynArray T) : Prop :=
  a.cap_ = 0 ∨ ∃ b ∈ res.used_, b.p = a.data_ ∧ a.cap_ * sizeof_T ≤ b.sz

end DynArray

namespace FixedResource

/-! Arithmetic of `align_up` -/

theorem and_high_mask (x k : Nat) (hk : k ≤ 64) (hx : x < 2 ^ 64) :
    x &&& (2 ^ 64 - 2 ^ k) = x / 2 ^ k * 2 ^ k := by
  apply Nat.eq_of_testBit_eq
  intro i
  have hm : 2 ^ 64 - 2 ^ k = (2 ^ (64 - k) - 1) <<< k := by
    rw [Nat.shiftLeft_eq, Nat.sub_mul, ← pow_add, Nat.sub_add_cancel hk, one_mul]
  have hr : x / 2 ^ k * 2 ^ k = (x >>> k) <<< k := by
    rw [Nat.shiftLeft_eq, Nat.shiftRight_eq_div_pow]
  rw [Nat.testBit_and, hm, hr, Nat.testBit_shiftLeft, Nat.testBit_shiftLeft,
    Nat.testBit_shiftRight, Nat.testBit_two_pow_sub_one]
  by_cases hik : k ≤ i
  · have e : k + (i - k) = i := by omega
    rw [e]
    by_cases hi : i < 64
    · have : i - k < 64 - k := by omega
      simp [hik, this]
    · have hxi : x.testBit i = false := by
        apply Nat.testBit_lt_two_pow
        calc x < 2 ^ 64 := hx
          _ ≤ 2 ^ i := Nat.pow_le_pow_right (by norm_num) (by omega)
      simp [hxi]
  · simp [hik]

theorem pow2_pos {a : Nat} (h : pow2 a) : 0 < a := by
  obtain ⟨k, _, rfl⟩ := h
  exact Nat.pos_pow_of_pos k (by norm_num)

theorem pow2_lt {a : Nat} (h : pow2 a) : a < SIZE_MOD := by
  obtain ⟨k, hk, rfl⟩ := h
  exact Nat.pow_lt_pow_right (by norm_num) hk

/-- Without wrap-around and for a power-of-two alignment, the bit trick of
`align_up` is rounding up to a multiple. -/
theorem align_up_eq_roundup (n a : Nat) (hp : pow2 a) (hn : n + a ≤ SIZE_MOD) :
    align_up n a = roundup n a := by
  have ha := pow2_pos hp
  have hlt := pow2_lt hp
  obtain ⟨k, hk, rfl⟩ := hp
  have h1 : usub (uadd n (2 ^ k)) 1 = n + 2 ^ k - 1 := by
    unfold usub uadd
    unfold SIZE_MOD at hn hlt ⊢
    omega
  have h2 : unot (usub (2 ^ k) 1) = 2 ^ 64 - 2 ^ k := by
    unfold unot usub
    unfold SIZE_MOD at hn hlt ⊢
    omega
  unfold align_up roundup
  rw [h1, h2]
  apply and_high_mask _ k (by omega)
  unfold SIZE_MOD at hn
  omega

theorem roundup_ge (n a : Nat) (ha : 0 < a) : n ≤ roundup n a := by
  unfold roundup
  have h := Nat.div_add_mod (n + a - 1) a
  have hm := Nat.mod_lt (n + a - 1) ha
  rw [Nat.mul_comm] at h
  omega

theorem roundup_lt (n a : Nat) (ha : 0 < a) : roundup n a < n + a := by
  unfold roundup
  have h := Nat.div_mul_le_self (n + a - 1) a
  omega

theorem roundup_dvd (n a : Nat) : a ∣ roundup n a :=
  Dvd.intro_left _ rfl

theorem roundup_least (n a m : Nat) (ha : 0 < a) (hdvd : a ∣ m) (hle : n ≤ m) :
    roundup n a ≤ m := by
  obtain ⟨q, rfl⟩ := hdvd
  unfold roundup
  rw [Nat.mul_comm a q]
  apply Nat.mul_le_mul_right
  rw [Nat.div_le_iff_le_mul_add_pred ha]
  rw [Nat.mul_comm] at hle
  rw [Nat.mul_comm a q]
  omega

/-! The scanning loop -/

theorem take_first_append (test : Block → Bool) (pre post : List Block) (b : Block)
    (hpre : ∀ x ∈ pre, test x = false) (hb : test b = true) :
    take_first test (pre ++ b :: post) = some (b, pre ++ post) := by
  induction pre with
  | nil => simp [take_first, hb]
  | cons x xs ih =>
    have hx : test x = false := hpre x (List.mem_cons_self x xs)
    have hxs : ∀ y ∈ xs, test y = false := fun y hy => hpre y (List.mem_cons_of_mem x hy)
    simp [take_first, hx, ih hxs]

theorem take_first_none (test : Block → Bool) (l : List Block)
    (h : ∀ x ∈ l, test x = false) : take_first test l = none := by
  induction l with
  | nil => rfl
  | cons x xs ih =>
    have hx : test x = false := h x (List.mem_cons_self x xs)
    have hxs : ∀ y ∈ xs, test y = false := fun y hy => h y (List.mem_cons_of_mem x hy)
    simp [take_first, hx, ih hxs]

theorem exists_first_split (test : Block → Bool) (l : List Block)
    (h : ∃ x ∈ l, test x = true) :
    ∃ pre b post, l = pre ++ b :: post ∧ (∀ x ∈ pre, test x = false) ∧ test b = true := by
  induction l with
  | nil => obtain ⟨x, hx, _⟩ := h; cases hx
  | cons y ys ih =>
    by_cases hy : test y = true
    · exact ⟨[], y, ys, rfl, by simp, hy⟩
    · have hy' : test y = false := by simpa using hy
      obtain ⟨x, hx, hxt⟩ := h
      have hx' : x ∈ ys := by
        rcases List.mem_cons.mp hx with rfl | hmem
        · rw [hxt] at hy'; cases hy'
        · exact hmem
      obtain ⟨pre, b, post, hl, hpre, hb⟩ := ih ⟨x, hx', hxt⟩
      refine ⟨y :: pre, b, post, by simp [hl], ?_, hb⟩
      intro z hz
      rcases List.mem_cons.mp hz with rfl | hmem
      · exact hy'
      · exact hpre z hmem

theorem take_first_some_split (test : Block → Bool) (l : List Block) (b : Block)
    (rest : List Block) (h : take_first test l = some (b, rest)) :
    ∃ pre post, l = pre ++ b :: post ∧ rest = pre ++ post ∧
      (∀ x ∈ pre, test x = false) ∧ test b = true := by
  by_cases hex : ∃ x ∈ l, test x = true
  · obtain ⟨pre, c, post, hl, hpre, hc⟩ := exists_first_split test l hex
    rw [hl, take_first_append test pre post c hpre hc] at h
    simp only [Option.some.injEq, Prod.mk.injEq] at h
    obtain ⟨rfl, rfl⟩ := h
    exact ⟨pre, post, hl, rfl, hpre, hc⟩
  · have hall : ∀ x ∈ l, test x = false := by
      intro x hx
      by_cases hx' : test x = true
      · exact absurd ⟨x, hx, hx'⟩ hex
      · simpa using hx'
    rw [take_first_none test l hall] at h
    cases h

theorem fits_iff (bytes alignment : Nat) (b : Block) :
    fits bytes alignment b = true ↔ (b.sz ≥ bytes ∧ b.al ≥ alignment) := by
  simp [fits]

theorem fits_false_iff (bytes alignment : Nat) (b : Block) :
    fits bytes alignment b = false ↔ ¬ (b.sz ≥ bytes ∧ b.al ≥ alignment) := by
  rw [← fits_iff]; simp

/-! Case analysis of the two operations -/

theorem take_first_eq_none_iff (test : Block → Bool) (l : List Block) :
    take_first test l = none ↔ ∀ x ∈ l, test x = false := by
  constructor
  · intro h x hx
    by_cases hx' : test x = true
    · obtain ⟨pre, b, post, hl, hpre, hb⟩ := exists_first_split test l ⟨x, hx, hx'⟩
      rw [hl, take_first_append test pre post b hpre hb] at h
      cases h
    · simpa using hx'
  · exact take_first_none test l

/-- The three exits of `do_allocate`: reuse of the first fitting freed block,
`throw bad_alloc()`, or a fresh block at the aligned bump offset. -/
theorem do_allocate_cases (r : FixedResource) (bytes alignment : Nat) :
    (∃ pre b post, r.free_ = pre ++ b :: post ∧
        (∀ x ∈ pre, fits bytes alignment x = false) ∧ fits bytes alignment b = true ∧
        do_allocate r bytes alignment =
          (some b.p, { r with used_ := r.used_ ++ [b], free_ := pre ++ post })) ∨
    ((∀ x ∈ r.free_, fits bytes alignment x = false) ∧
        uadd (align_up r.off_ alignment) bytes > r.cap_ ∧
        do_allocate r bytes alignment = (none, r)) ∨
    ((∀ x ∈ r.free_, fits bytes alignment x = false) ∧
        uadd (align_up r.off_ alignment) bytes ≤ r.cap_ ∧
        do_allocate r bytes alignment =
          (some (r.buf_ + align_up r.off_ alignment),
           { r with off_ := uadd (align_up r.off_ alignment) bytes,
                    used_ := r.used_ ++
                      [⟨r.buf_ + align_up r.off_ alignment, bytes, alignment⟩] })) := by
  cases hscan : take_first (fits bytes alignment) r.free_ with
  | some res =>
    obtain ⟨b, rest⟩ := res
    obtain ⟨pre, post, hl, hrest, hpre, hb⟩ := take_first_some_split _ _ _ _ hscan
    left
    refine ⟨pre, b, post, hl, hpre, hb, ?_⟩
    unfold do_allocate
    rw [hscan, hrest]
  | none =>
    right
    have hall := (take_first_eq_none_iff _ _).mp hscan
    by_cases hcap : uadd (align_up r.off_ alignment) bytes > r.cap_
    · left
      refine ⟨hall, hcap, ?_⟩
      unfold do_allocate
      rw [hscan]
      simp [hcap]
    · right
      refine ⟨hall, Nat.le_of_not_gt hcap, ?_⟩
      unfold do_allocate
      rw [hscan]
      simp [hcap]

/-- The two exits of `do_deallocate`: the first used block with address `p`
is moved to the end of the free list, or nothing happens. -/
theorem do_deallocate_cases (r : FixedResource) (p bytes alignment : Nat) :
    (∃ pre b post, r.used_ = pre ++ b :: post ∧ (∀ x ∈ pre, x.p ≠ p) ∧ b.p = p ∧
        do_deallocate r p bytes alignment =
          { r with free_ := r.free_ ++ [b], used_ := pre ++ post }) ∨
    ((∀ x ∈ r.used_, x.p ≠ p) ∧ do_deallocate r p bytes alignment = r) := by
  cases hscan : take_first (fun b => decide (b.p = p)) r.used_ with
  | some res =>
    obtain ⟨b, rest⟩ := res
    obtain ⟨pre, post, hl, hrest, hpre, hb⟩ := take_first_some_split _ _ _ _ hscan
    left
    refine ⟨pre, b, post, hl, ?_, by simpa using hb, ?_⟩
    · intro x hx
      simpa using hpre x hx
    · unfold do_deallocate
      rw [hscan, hrest]
  | none =>
    right
    have hall := (take_first_eq_none_iff _ _).mp hscan
    refine ⟨?_, ?_⟩
    · intro x hx
      simpa using hall x hx
    · unfold do_deallocate
      rw [hscan]

/-! Allocation from the free list -/

/-- The reuse path of `do_allocate`, taken as soon as some freed block fits. -/
theorem do_allocate_reuse (r : FixedResource) (bytes alignment : Nat)
    (h : ∃ b ∈ r.free_, b.sz ≥ bytes ∧ b.al ≥ alignment) :
    ∃ pre b post, r.free_ = pre ++ b :: post ∧
      (∀ x ∈ pre, ¬ (x.sz ≥ bytes ∧ x.al ≥ alignment)) ∧
      (b.sz ≥ bytes ∧ b.al ≥ alignment) ∧
      do_allocate r bytes alignment =
        (some b.p, { r with used_ := r.used_ ++ [b], free_ := pre ++ post }) := by
  have h' : ∃ b ∈ r.free_, fits bytes alignment b = true := by
    obtain ⟨b, hb, hfit⟩ := h
    exact ⟨b, hb, (fits_iff bytes alignment b).mpr hfit⟩
  obtain ⟨pre, b, post, hl, hpre, hb⟩ := exists_first_split _ r.free_ h'
  refine ⟨pre, b, post, hl, ?_, (fits_iff bytes alignment b).mp hb, ?_⟩
  · intro x hx
    exact (fits_false_iff bytes alignment x).mp (hpre x hx)
  · unfold do_allocate
    rw [hl, take_first_append _ pre post b hpre hb]

/-- C1. First-fit reuse: when some freed block has recorded size at least
`bytes` and recorded alignment at least `alignment`, `do_allocate` returns the
address of the first such block of the free list, erases exactly that block
from the free list, appends it unchanged to the used list, and changes nothing
else (bump offset, buffer, capacity, every other block). -/
theorem do_allocate_first_fit (r : FixedResource) (bytes alignment : Nat)
    (h : ∃ b ∈ r.free_, b.sz ≥ bytes ∧ b.al ≥ alignment) :
    ∃ pre b post, r.free_ = pre ++ b :: post ∧
      (∀ x ∈ pre, ¬ (x.sz ≥ bytes ∧ x.al ≥ alignment)) ∧
      (b.sz ≥ bytes ∧ b.al ≥ alignment) ∧
      do_allocate r bytes alignment =
        (some b.p, { r with used_ := r.used_ ++ [b], free_ := pre ++ post }) ∧
      (do_allocate r bytes alignment).2.off_ = r.off_ ∧
      used_count (do_allocate r bytes alignment).2 = used_count r + 1 ∧
      free_count (do_allocate r bytes alignment).2 + 1 = free_count r := by
  obtain ⟨pre, b, post, hl, hpre, hb, heq⟩ := do_allocate_reuse r bytes alignment h
  refine ⟨pre, b, post, hl, hpre, hb, heq, ?_, ?_, ?_⟩
  · rw [heq]
  · rw [heq]; simp [used_count]
  · rw [heq]; simp [free_count, hl]; omega

/-- C1 at a concrete state: the free list holds a block that is too small, then
two that fit; the request is served from the first fitting one. -/
theorem do_allocate_first_fit_witness :
    (∃ b ∈ ([⟨4096, 16, 8⟩, ⟨4112, 64, 8⟩, ⟨4176, 64, 16⟩] : List Block),
        b.sz ≥ 32 ∧ b.al ≥ 8) ∧
    ∃ pre b post,
      ([⟨4096, 16, 8⟩, ⟨4112, 64, 8⟩, ⟨4176, 64, 16⟩] : List Block) = pre ++ b :: post ∧
      (∀ x ∈ pre, ¬ (x.sz ≥ 32 ∧ x.al ≥ 8)) ∧ (b.sz ≥ 32 ∧ b.al ≥ 8) ∧
      do_allocate ⟨4096, 1024, 144, [⟨4240, 8, 8⟩],
          [⟨4096, 16, 8⟩, ⟨4112, 64, 8⟩, ⟨4176, 64, 16⟩], true⟩ 32 8 =
        (some b.p, ⟨4096, 1024, 144, [⟨4240, 8, 8⟩] ++ [b], pre ++ post, true⟩) ∧
      (do_allocate ⟨4096, 1024, 144, [⟨4240, 8, 8⟩],
          [⟨4096, 16, 8⟩, ⟨4112, 64, 8⟩, ⟨4176, 64, 16⟩], true⟩ 32 8).2.off_ = 144 ∧
      used_count (do_allocate ⟨4096, 1024, 144, [⟨4240, 8, 8⟩],
          [⟨4096, 16, 8⟩, ⟨4112, 64, 8⟩, ⟨4176, 64, 16⟩], true⟩ 32 8).2 = 1 + 1 ∧
      free_count (do_allocate ⟨4096, 1024, 144, [⟨4240, 8, 8⟩],
          [⟨4096, 16, 8⟩, ⟨4112, 64, 8⟩, ⟨4176, 64, 16⟩], true⟩ 32 8).2 + 1 = 3 :=
  ⟨⟨⟨4112, 64, 8⟩, by decide, by decide⟩,
   do_allocate_first_fit
     ⟨4096, 1024, 144, [⟨4240, 8, 8⟩], [⟨4096, 16, 8⟩, ⟨4112, 64, 8⟩, ⟨4176, 64, 16⟩], true⟩
     32 8 ⟨⟨4112, 64, 8⟩, by decide, by decide⟩⟩

/-! The bump path -/

/-- The bump path when the arithmetic stays inside `size_t`: with a
power-of-two alignment and no fitting freed block, the call throws exactly when
the rounded offset plus the size exceeds the capacity, and otherwise hands out
the block at the rounded offset. -/
theorem do_allocate_bump (r : FixedResource) (bytes alignment : Nat) (hp : pow2 alignment)
    (hfree : ∀ b ∈ r.free_, ¬ (b.sz ≥ bytes ∧ b.al ≥ alignment))
    (hw : no_wrap r bytes alignment) :
    ((do_allocate r bytes alignment).1 = none ↔ roundup r.off_ alignment + bytes > r.cap_) ∧
    (roundup r.off_ alignment + bytes > r.cap_ → (do_allocate r bytes alignment).2 = r) ∧
    (roundup r.off_ alignment + bytes ≤ r.cap_ →
      do_allocate r bytes alignment =
        (some (r.buf_ + roundup r.off_ alignment),
         { r with off_ := roundup r.off_ alignment + bytes,
                  used_ := r.used_ ++ [⟨r.buf_ + roundup r.off_ alignment, bytes, alignment⟩] })) := by
  have hal : align_up r.off_ alignment = roundup r.off_ alignment :=
    align_up_eq_roundup _ _ hp hw.1
  have hadd : uadd (roundup r.off_ alignment) bytes = roundup r.off_ alignment + bytes := by
    unfold uadd
    exact Nat.mod_eq_of_lt hw.2
  have hnofit : ∀ pre b post, r.free_ = pre ++ b :: post → fits bytes alignment b = true → False := by
    intro pre b post hl hb
    exact hfree b (by rw [hl]; simp) ((fits_iff bytes alignment b).mp hb)
  rcases do_allocate_cases r bytes alignment with
    ⟨pre, b, post, hl, _, hb, _⟩ | ⟨_, hcap, heq⟩ | ⟨_, hcap, heq⟩
  · exact (hnofit pre b post hl hb).elim
  · rw [hal, hadd] at hcap
    rw [heq]
    exact ⟨⟨fun _ => hcap, fun _ => rfl⟩, fun _ => rfl,
      fun h => absurd hcap (Nat.not_lt.mpr h)⟩
  · rw [hal, hadd] at hcap
    rw [hal, hadd] at heq
    rw [heq]
    refine ⟨⟨fun h => ?_, fun h => absurd h (Nat.not_lt.mpr hcap)⟩,
      fun h => absurd h (Nat.not_lt.mpr hcap), fun _ => rfl⟩
    simp at h

/-- C2 at a failing input. On a 1024-byte resource that has handed out one
64-byte block, no freed block exists and the request `(2^64 - 64, 8)` has
rounded offset plus size `2^64 > 1024`, yet `do_allocate` returns the address
`buf_ + 64`, records a block of `2^64 - 64` bytes and sets the bump offset to
`0`: the sum `aligned_off + bytes` wrapped around in `size_t`. -/
theorem do_allocate_bump_wraps :
    (run (create 4096 1024 true) [.allocate 64 8]).free_ = [] ∧
    (run (create 4096 1024 true) [.allocate 64 8]).off_ = 64 ∧
    pow2 8 ∧ roundup 64 8 + (2 ^ 64 - 64) > 1024 ∧
    do_allocate (run (create 4096 1024 true) [.allocate 64 8]) (2 ^ 64 - 64) 8 =
      (some (4096 + 64),
       ⟨4096, 1024, 0, [⟨4096, 64, 8⟩, ⟨4160, 2 ^ 64 - 64, 8⟩], [], true⟩) := by
  decide

/-! Conservation of block records -/

theorem count_apply_op (r : FixedResource) (op : Op) :
    used_count (apply_op r op) + free_count (apply_op r op) =
      used_count r + free_count r + (if op_bumps r op then 1 else 0) := by
  cases op with
  | allocate bytes alignment =>
    simp only [apply_op, op_bumps]
    rcases do_allocate_cases r bytes alignment with
      ⟨pre, b, post, hl, hpre, hb, heq⟩ | ⟨hall, _, heq⟩ | ⟨hall, _, heq⟩
    · have hscan := take_first_append _ pre post b hpre hb
      simp only [heq, hl, hscan, used_count, free_count]
      simp
      omega
    · simp [heq, used_count, free_count]
    · have hscan := take_first_none _ _ hall
      simp only [heq, hscan, used_count, free_count]
      simp
      omega
  | deallocate p bytes alignment =>
    simp only [apply_op, op_bumps]
    rcases do_deallocate_cases r p bytes alignment with ⟨pre, b, post, hl, _, _, heq⟩ | ⟨_, heq⟩
    · simp only [heq, used_count, free_count, hl]
      simp
      omega
    · simp [heq]

theorem count_run (r : FixedResource) (ops : List Op) :
    used_count (run r ops) + free_count (run r ops) =
      used_count r + free_count r + bump_successes r ops := by
  induction ops generalizing r with
  | nil => simp [run, bump_successes]
  | cons op ops ih =>
    simp only [run, bump_successes]
    rw [ih (apply_op r op), count_apply_op r op]
    omega

/-- C3 as stated fails. On a fresh 1024-byte resource the calls
`allocate(64, 8)`, `deallocate(p, 64, 8)`, `allocate(32, 8)` contain two
successful allocates, but the second one reuses the freed record, so
`used_count() + free_count()` is `1`. -/
theorem conservation_counterexample :
    successes (create 4096 1024 true)
        [.allocate 64 8, .deallocate 4096 64 8, .allocate 32 8] = 2 ∧
    used_count (run (create 4096 1024 true)
        [.allocate 64 8, .deallocate 4096 64 8, .allocate 32 8]) +
      free_count (run (create 4096 1024 true)
        [.allocate 64 8, .deallocate 4096 64 8, .allocate 32 8]) = 1 := by
  decide

/-- C3, amended. After any finite sequence of `allocate` and `deallocate`
calls with arbitrary arguments (throwing allocates and deallocates of unknown
addresses included) on a freshly constructed resource, `used_count()` plus
`free_count()` is the number of `allocate` calls that were served by the bump
pointer; a call served from the free list moves a record and creates none. -/
theorem conservation (buffer size : Nat) (own : Bool) (ops : List Op) :
    used_count (run (create buffer size own) ops) +
        free_count (run (create buffer size own) ops) =
      bump_successes (create buffer size own) ops := by
  rw [count_run]
  simp [create, used_count, free_count]

/-! Allocate, deallocate, allocate again -/

/-- C4 as stated fails, in two ways. First, on a resource whose free list
already holds a 32-byte block at `4096`, `allocate(64, 8)` returns `4128`, and
after `deallocate(4128, 64, 8)` the call `allocate(32, 8)` returns `4096`: the
older freed block comes first in the free list. Second, after a zero-size
allocation at `4096`, `allocate(64, 1)` returns `4096` again, `deallocate`
moves the zero-size record, and `allocate(32, 1)` returns `4160`. -/
theorem reuse_after_free_counterexample :
    ((32 ≤ 64 ∧ 8 ≤ 8) ∧
      (do_allocate (run (create 4096 1024 true) [.allocate 32 8, .deallocate 4096 32 8])
        64 8).1 = some 4128 ∧
      (do_allocate (do_deallocate
        (do_allocate (run (create 4096 1024 true) [.allocate 32 8, .deallocate 4096 32 8])
          64 8).2 4128 64 8) 32 8).1 = some 4096) ∧
    ((32 ≤ 64 ∧ 1 ≤ 1) ∧
      (do_allocate (run (create 4096 1024 true) [.allocate 0 1]) 64 1).1 = some 4096 ∧
      (do_allocate (do_deallocate
        (do_allocate (run (create 4096 1024 true) [.allocate 0 1]) 64 1).2 4096 64 1)
          32 1).1 = some 4160) := by
  decide

/-- C4, amended. Let `allocate(s, a)` return `p` on a state in which no
outstanding block already has address `p` and every freed block that satisfies
`(s', a')` has address `p`. Then for `s' ≤ s` and `a' ≤ a`, `deallocate(p, s, a)`
followed immediately by `allocate(s', a')` returns `p` again. -/
theorem reuse_after_free (r : FixedResource) (s a s' a' p : Nat) (hs : s' ≤ s) (ha : a' ≤ a)
    (hused : ∀ b ∈ r.used_, b.p ≠ p)
    (hfree : ∀ b ∈ r.free_, b.sz ≥ s' → b.al ≥ a' → b.p = p)
    (h : (do_allocate r s a).1 = some p) :
    (do_allocate (do_deallocate (do_allocate r s a).2 p s a) s' a').1 = some p := by
  -- the block recorded by the first call, and the lists it leaves behind
  have key : ∃ blk fr, blk.p = p ∧ blk.sz ≥ s ∧ blk.al ≥ a ∧ (∀ x ∈ fr, x ∈ r.free_) ∧
      (do_allocate r s a).2 = { r with used_ := r.used_ ++ [blk], free_ := fr,
                                       off_ := (do_allocate r s a).2.off_ } := by
    rcases do_allocate_cases r s a with
      ⟨pre, b, post, hl, _, hb, heq⟩ | ⟨_, _, heq⟩ | ⟨_, _, heq⟩
    · rw [heq] at h ⊢
      refine ⟨b, pre ++ post, by simpa using h, ((fits_iff s a b).mp hb).1,
        ((fits_iff s a b).mp hb).2, ?_, rfl⟩
      intro x hx
      rw [hl]
      rcases List.mem_append.mp hx with hx | hx
      · exact List.mem_append_left _ hx
      · exact List.mem_append_right _ (List.mem_cons_of_mem _ hx)
    · rw [heq] at h
      simp at h
    · rw [heq] at h ⊢
      exact ⟨_, r.free_, by simpa using h, le_refl _, le_refl _, fun x hx => hx, rfl⟩
  obtain ⟨blk, fr, hp, hsz, hal, hfr, hstate⟩ := key
  have hscan : take_first (fun b => decide (b.p = p)) (r.used_ ++ [blk]) = some (blk, r.used_) := by
    have := take_first_append (fun b => decide (b.p = p)) r.used_ [] blk
      (fun x hx => by simpa using hused x hx) (by simpa using hp)
    simpa using this
  have hdealloc : do_deallocate (do_allocate r s a).2 p s a =
      { r with used_ := r.used_, free_ := fr ++ [blk], off_ := (do_allocate r s a).2.off_ } := by
    rw [hstate]
    unfold do_deallocate
    simp only [hscan]
  rw [hdealloc]
  have hex : ∃ x ∈ fr ++ [blk], x.sz ≥ s' ∧ x.al ≥ a' :=
    ⟨blk, by simp, le_trans hs hsz, le_trans ha hal⟩
  obtain ⟨pre, c, post, hl, _, hc, heq⟩ := do_allocate_reuse
    { r with used_ := r.used_, free_ := fr ++ [blk], off_ := (do_allocate r s a).2.off_ }
    s' a' hex
  rw [heq]
  have hcmem : c ∈ fr ++ [blk] := by
    have : c ∈ pre ++ c :: post := by simp
    simpa [← hl] using this
  have hcp : c.p = p := by
    rcases List.mem_append.mp hcmem with hc' | hc'
    · exact hfree c (hfr c hc') hc.1 hc.2
    · have : c = blk := by simpa using hc'
      rw [this]; exact hp
  simp [hcp]

/-- C4, amended, on the reuse scenario of the tests: `allocate(64, 8)` after
one earlier allocation, then `deallocate`, then `allocate(32, 8)`. -/
theorem reuse_after_free_witness :
    (do_allocate (do_deallocate
      (do_allocate (run (create 4096 1024 true) [.allocate 64 8]) 64 8).2 4160 64 8)
        32 8).1 = some 4160 :=
  reuse_after_free (run (create 4096 1024 true) [.allocate 64 8]) 64 8 32 8 4160
    (by decide) (by decide) (by decide) (by decide) (by decide)

/-! Exhaustion and failure -/

/-- C5 at a failing input. A 1024-byte resource with an empty free list and
bump offset `1` receives a request of `2^64 - 1 > 1024` bytes with alignment
`1`; the sum `aligned_off + bytes` wraps to `0`, the test against `cap_`
passes, and the call returns `buf_ + 1` instead of throwing. -/
theorem exhaustion_wraps :
    (run (create 4096 1024 true) [.allocate 1 1]).free_ = [] ∧
    (run (create 4096 1024 true) [.allocate 1 1]).off_ = 1 ∧
    (run (create 4096 1024 true) [.allocate 1 1]).cap_ = 1024 ∧
    1024 < 2 ^ 64 - 1 ∧ 2 ^ 64 - 1 < SIZE_MOD ∧ pow2 1 ∧
    (do_allocate (run (create 4096 1024 true) [.allocate 1 1]) (2 ^ 64 - 1) 1).1 =
      some 4097 := by
  decide

/-- C6. Failure atomicity: a call of `do_allocate` that throws leaves the
object exactly as it was (bump offset, used list, free list), hence also
`used_count()` and `free_count()`; and on a fresh resource of capacity 1024
the request `(2048, 8)` does throw, with `used_count()` still `0`. -/
theorem do_allocate_failure_atomic (r : FixedResource) (bytes alignment : Nat)
    (h : (do_allocate r bytes alignment).1 = none) :
    (do_allocate r bytes alignment).2 = r ∧
    used_count (do_allocate r bytes alignment).2 = used_count r ∧
    free_count (do_allocate r bytes alignment).2 = free_count r ∧
    ∀ buffer own, (do_allocate (create buffer 1024 own) 2048 8).1 = none ∧
      used_count (do_allocate (create buffer 1024 own) 2048 8).2 = 0 := by
  have hstate : (do_allocate r bytes alignment).2 = r := by
    rcases do_allocate_cases r bytes alignment with
      ⟨pre, b, post, _, _, _, heq⟩ | ⟨_, _, heq⟩ | ⟨_, _, heq⟩
    · rw [heq] at h; simp at h
    · rw [heq]
    · rw [heq] at h; simp at h
  refine ⟨hstate, by rw [hstate], by rw [hstate], ?_⟩
  intro buffer own
  have hcap : uadd (align_up 0 8) 2048 > 1024 := by decide
  simp [do_allocate, create, take_first, used_count, hcap]

/-- C6 on the fresh 1024-byte resource and the request `(2048, 8)`. -/
theorem do_allocate_failure_atomic_witness :
    (do_allocate (create 4096 1024 true) 2048 8).1 = none ∧
    (do_allocate (create 4096 1024 true) 2048 8).2 = create 4096 1024 true ∧
    used_count (do_allocate (create 4096 1024 true) 2048 8).2 = 0 :=
  ⟨by decide,
   (do_allocate_failure_atomic (create 4096 1024 true) 2048 8 (by decide)).1,
   by decide⟩

/-! Deallocation -/

/-- C7. `do_deallocate` looks at the address only. If some used block has
address `p`, the first such block of the used list is erased from it and
appended, with its recorded address, size and alignment, to the free list
(`used_count()` drops by one, `free_count()` grows by one); if none has, the
object is unchanged. The `bytes` and `alignment` arguments never matter, and
buffer, capacity and bump offset are never changed. -/
theorem do_deallocate_move_or_noop (r : FixedResource) (p bytes alignment : Nat) :
    ((∃ b ∈ r.used_, b.p = p) →
      ∃ pre b post, r.used_ = pre ++ b :: post ∧ (∀ x ∈ pre, x.p ≠ p) ∧ b.p = p ∧
        do_deallocate r p bytes alignment =
          { r with used_ := pre ++ post, free_ := r.free_ ++ [b] } ∧
        used_count (do_deallocate r p bytes alignment) + 1 = used_count r ∧
        free_count (do_deallocate r p bytes alignment) = free_count r + 1) ∧
    ((∀ b ∈ r.used_, b.p ≠ p) → do_deallocate r p bytes alignment = r) ∧
    (∀ bytes' alignment', do_deallocate r p bytes' alignment' =
      do_deallocate r p bytes alignment) ∧
    (do_deallocate r p bytes alignment).off_ = r.off_ ∧
    (do_deallocate r p bytes alignment).buf_ = r.buf_ ∧
    (do_deallocate r p bytes alignment).cap_ = r.cap_ := by
  rcases do_deallocate_cases r p bytes alignment with ⟨pre, b, post, hl, hpre, hb, heq⟩ | ⟨hall, heq⟩
  · refine ⟨fun _ => ⟨pre, b, post, hl, hpre, hb, heq, ?_, ?_⟩, ?_, fun _ _ => rfl, ?_, ?_, ?_⟩
    · rw [heq]; simp [used_count, hl]; omega
    · rw [heq]; simp [free_count]
    · intro hnone
      exact absurd hb (hnone b (by rw [hl]; simp))
    · rw [heq]
    · rw [heq]
    · rw [heq]
  · refine ⟨fun hex => ?_, fun _ => heq, fun _ _ => rfl, by rw [heq], by rw [heq], by rw [heq]⟩
    obtain ⟨b, hb, hbp⟩ := hex
    exact absurd hbp (hall b hb)

/-- C7 on a used list with two blocks at the same address, released with
size and alignment arguments that match neither record, and on an address
that is not in the used list. -/
theorem do_deallocate_move_or_noop_witness :
    (∃ pre b post,
      ([⟨4160, 8, 8⟩, ⟨4096, 0, 1⟩, ⟨4096, 64, 1⟩] : List Block) = pre ++ b :: post ∧
      (∀ x ∈ pre, x.p ≠ 4096) ∧ b.p = 4096 ∧
      do_deallocate
          ⟨4096, 1024, 64, [⟨4160, 8, 8⟩, ⟨4096, 0, 1⟩, ⟨4096, 64, 1⟩], [⟨4200, 8, 8⟩], true⟩
          4096 7 4 =
        ⟨4096, 1024, 64, pre ++ post, [⟨4200, 8, 8⟩] ++ [b], true⟩ ∧
      used_count (do_deallocate
          ⟨4096, 1024, 64, [⟨4160, 8, 8⟩, ⟨4096, 0, 1⟩, ⟨4096, 64, 1⟩], [⟨4200, 8, 8⟩], true⟩
          4096 7 4) + 1 = 3 ∧
      free_count (do_deallocate
          ⟨4096, 1024, 64, [⟨4160, 8, 8⟩, ⟨4096, 0, 1⟩, ⟨4096, 64, 1⟩], [⟨4200, 8, 8⟩], true⟩
          4096 7 4) = 1 + 1) ∧
    do_deallocate ⟨4096, 1024, 64, [⟨4160, 8, 8⟩], [⟨4200, 8, 8⟩], true⟩ 4200 8 8 =
      ⟨4096, 1024, 64, [⟨4160, 8, 8⟩], [⟨4200, 8, 8⟩], true⟩ :=
  ⟨(do_deallocate_move_or_noop
      ⟨4096, 1024, 64, [⟨4160, 8, 8⟩, ⟨4096, 0, 1⟩, ⟨4096, 64, 1⟩], [⟨4200, 8, 8⟩], true⟩
      4096 7 4).1 ⟨⟨4096, 0, 1⟩, by decide, rfl⟩,
   (do_deallocate_move_or_noop
      ⟨4096, 1024, 64, [⟨4160, 8, 8⟩], [⟨4200, 8, 8⟩], true⟩ 4200 8 8).2.1 (by decide)⟩

/-! Invariants of reachable states -/

theorem reuse_perm (used pre post : List Block) (b : Block) :
    ((used ++ [b]) ++ (pre ++ post)).Perm (used ++ (pre ++ b :: post)) := by
  have h : (used ++ [b]) ++ (pre ++ post) = used ++ (b :: (pre ++ post)) := by simp
  rw [h]
  exact List.Perm.append_left used List.perm_middle.symm

theorem release_perm (free pre post : List Block) (b : Block) :
    ((pre ++ post) ++ (free ++ [b])).Perm ((pre ++ b :: post) ++ free) := by
  have h1 : (pre ++ post) ++ (free ++ [b]) = (pre ++ (post ++ free)) ++ [b] := by simp
  have h2 : (pre ++ b :: post) ++ free = pre ++ b :: (post ++ free) := by simp
  rw [h1, h2]
  exact (List.perm_append_singleton b _).trans List.perm_middle.symm

theorem bump_perm (used free : List Block) (b : Block) :
    ((used ++ [b]) ++ free).Perm (b :: (used ++ free)) := by
  have e : (used ++ [b]) ++ free = used ++ (b :: free) := by simp
  rw [e]
  exact List.perm_middle

theorem total_size_perm {l₁ l₂ : List Block} (h : l₁.Perm l₂) :
    total_size l₁ = total_size l₂ :=
  (h.map _).sum_eq

theorem addresses_nodup_perm {l₁ l₂ : List Block} (h : l₁.Perm l₂) :
    (addresses l₁).Nodup ↔ (addresses l₂).Nodup :=
  (h.map _).nodup_iff

/-- The exits of `do_allocate` for an admissible request, with the bump path
written in unbounded arithmetic. -/
theorem do_allocate_cases_ok (r : FixedResource) (bytes alignment : Nat)
    (hok : op_ok r (.allocate bytes alignment) = true) :
    (∃ pre b post, r.free_ = pre ++ b :: post ∧
        do_allocate r bytes alignment =
          (some b.p, { r with used_ := r.used_ ++ [b], free_ := pre ++ post })) ∨
    (do_allocate r bytes alignment = (none, r)) ∨
    (0 < alignment ∧ roundup r.off_ alignment + bytes ≤ r.cap_ ∧
        do_allocate r bytes alignment =
          (some (r.buf_ + roundup r.off_ alignment),
           { r with off_ := roundup r.off_ alignment + bytes,
                    used_ := r.used_ ++
                      [⟨r.buf_ + roundup r.off_ alignment, bytes, alignment⟩] })) := by
  simp only [op_ok, Bool.and_eq_true, Bool.or_eq_true, decide_eq_true_eq] at hok
  obtain ⟨hp, hpath⟩ := hok
  rcases do_allocate_cases r bytes alignment with
    ⟨pre, b, post, hl, _, _, heq⟩ | ⟨_, _, heq⟩ | ⟨hall, hcap, heq⟩
  · exact Or.inl ⟨pre, b, post, hl, heq⟩
  · exact Or.inr (Or.inl heq)
  · have hw : no_wrap r bytes alignment := by
      rcases hpath with hsome | hw
      · rw [take_first_none _ _ hall] at hsome
        simp at hsome
      · exact hw
    have hal : align_up r.off_ alignment = roundup r.off_ alignment :=
      align_up_eq_roundup _ _ hp hw.1
    have hadd : uadd (roundup r.off_ alignment) bytes = roundup r.off_ alignment + bytes := by
      unfold uadd
      exact Nat.mod_eq_of_lt hw.2
    rw [hal, hadd] at hcap heq
    exact Or.inr (Or.inr ⟨pow2_pos hp, hcap, heq⟩)

theorem bounded_apply_op (r : FixedResource) (op : Op) (hok : op_ok r op = true)
    (h : bounded r) : bounded (apply_op r op) := by
  obtain ⟨hoff, hsum⟩ := h
  cases op with
  | allocate bytes alignment =>
    simp only [apply_op]
    rcases do_allocate_cases_ok r bytes alignment hok with
      ⟨pre, b, post, hl, heq⟩ | heq | ⟨hpos, hcap, heq⟩
    · rw [heq]
      refine ⟨hoff, ?_⟩
      show total_size ((r.used_ ++ [b]) ++ (pre ++ post)) ≤ r.off_
      rw [total_size_perm (reuse_perm r.used_ pre post b), ← hl]
      exact hsum
    · rw [heq]
      exact ⟨hoff, hsum⟩
    · rw [heq]
      refine ⟨hcap, ?_⟩
      show total_size ((r.used_ ++ [⟨_, bytes, alignment⟩]) ++ r.free_) ≤
        roundup r.off_ alignment + bytes
      have hge := roundup_ge r.off_ alignment hpos
      have hexp : total_size ((r.used_ ++ [⟨r.buf_ + roundup r.off_ alignment, bytes,
          alignment⟩]) ++ r.free_) = total_size (r.used_ ++ r.free_) + bytes := by
        simp [total_size]
        omega
      rw [hexp]
      omega
  | deallocate p bytes alignment =>
    simp only [apply_op]
    rcases do_deallocate_cases r p bytes alignment with ⟨pre, b, post, hl, _, _, heq⟩ | ⟨_, heq⟩
    · rw [heq]
      refine ⟨hoff, ?_⟩
      show total_size ((pre ++ post) ++ (r.free_ ++ [b])) ≤ r.off_
      rw [total_size_perm (release_perm r.free_ pre post b), ← hl]
      exact hsum
    · rw [heq]
      exact ⟨hoff, hsum⟩

theorem bounded_run (r : FixedResource) (ops : List Op) (hok : ops_ok r ops = true)
    (h : bounded r) : bounded (run r ops) := by
  induction ops generalizing r with
  | nil => exact h
  | cons op ops ih =>
    simp only [ops_ok, Bool.and_eq_true] at hok
    exact ih (apply_op r op) hok.2 (bounded_apply_op r op hok.1 h)

theorem distinct_apply_op (r : FixedResource) (op : Op) (hok : op_ok r op = true)
    (hsize : op_positive op = true) (h : distinct r) : distinct (apply_op r op) := by
  obtain ⟨hlt, hnd⟩ := h
  cases op with
  | allocate bytes alignment =>
    simp only [op_positive, decide_eq_true_eq] at hsize
    simp only [apply_op]
    rcases do_allocate_cases_ok r bytes alignment hok with
      ⟨pre, b, post, hl, heq⟩ | heq | ⟨hpos, hcap, heq⟩
    · rw [heq]
      have hperm := reuse_perm r.used_ pre post b
      rw [← hl] at hperm
      refine ⟨?_, ?_⟩
      · intro x hx
        exact hlt x (hperm.mem_iff.mp hx)
      · exact (addresses_nodup_perm hperm).mpr hnd
    · rw [heq]
      exact ⟨hlt, hnd⟩
    · rw [heq]
      have hge := roundup_ge r.off_ alignment hpos
      have hperm := bump_perm r.used_ r.free_ ⟨r.buf_ + roundup r.off_ alignment, bytes, alignment⟩
      refine ⟨?_, ?_⟩
      · intro x hx
        rcases List.mem_cons.mp (hperm.mem_iff.mp hx) with rfl | hx'
        · show r.buf_ + roundup r.off_ alignment < r.buf_ + (roundup r.off_ alignment + bytes)
          omega
        · have := hlt x hx'
          show x.p < r.buf_ + (roundup r.off_ alignment + bytes)
          omega
      · refine (addresses_nodup_perm hperm).mpr ?_
        show (addresses (_ :: (r.used_ ++ r.free_))).Nodup
        simp only [addresses, List.map_cons, List.nodup_cons]
        refine ⟨?_, hnd⟩
        intro hmem
        obtain ⟨x, hx, hxp⟩ := List.mem_map.mp hmem
        have := hlt x hx
        omega
  | deallocate p bytes alignment =>
    simp only [apply_op]
    rcases do_deallocate_cases r p bytes alignment with ⟨pre, b, post, hl, _, _, heq⟩ | ⟨_, heq⟩
    · rw [heq]
      have hperm := release_perm r.free_ pre post b
      rw [← hl] at hperm
      refine ⟨?_, ?_⟩
      · intro x hx
        exact hlt x (hperm.mem_iff.mp hx)
      · exact (addresses_nodup_perm hperm).mpr hnd
    · rw [heq]
      exact ⟨hlt, hnd⟩

theorem distinct_run (r : FixedResource) (ops : List Op) (hok : ops_ok r ops = true)
    (hsize : ∀ op ∈ ops, op_positive op = true) (h : distinct r) : distinct (run r ops) := by
  induction ops generalizing r with
  | nil => exact h
  | cons op ops ih =>
    simp only [ops_ok, Bool.and_eq_true] at hok
    exact ih (apply_op r op) hok.2 (fun o ho => hsize o (List.mem_cons_of_mem op ho))
      (distinct_apply_op r op hok.1 (hsize op (List.mem_cons_self op ops)) h)

/-- C8 as stated fails. Two zero-size allocations on a fresh resource both
return `buf_`; releasing one of them leaves the address `buf_` (indeed the same
record) in the used list and in the free list. The same happens with positive
sizes once the bump arithmetic wraps: after `allocate(8, 8)` and
`allocate(2^64 - 8, 8)` the bump offset is `0` again, a third `allocate(8, 8)`
returns `buf_` a second time, and one `deallocate(buf_)` splits the two records
over the two lists. -/
theorem address_uniqueness_counterexample :
    (run (create 4096 1024 true) [.allocate 0 1, .allocate 0 1, .deallocate 4096 0 1] =
        ⟨4096, 1024, 0, [⟨4096, 0, 1⟩], [⟨4096, 0, 1⟩], true⟩ ∧
      4096 ∈ addresses (run (create 4096 1024 true)
        [.allocate 0 1, .allocate 0 1, .deallocate 4096 0 1]).used_ ∧
      4096 ∈ addresses (run (create 4096 1024 true)
        [.allocate 0 1, .allocate 0 1, .deallocate 4096 0 1]).free_) ∧
    (run (create 4096 1024 true)
        [.allocate 8 8, .allocate (2 ^ 64 - 8) 8, .allocate 8 8, .deallocate 4096 8 8] =
        ⟨4096, 1024, 8, [⟨4104, 2 ^ 64 - 8, 8⟩, ⟨4096, 8, 8⟩], [⟨4096, 8, 8⟩], true⟩ ∧
      4096 ∈ addresses (run (create 4096 1024 true)
        [.allocate 8 8, .allocate (2 ^ 64 - 8) 8, .allocate 8 8, .deallocate 4096 8 8]).used_ ∧
      4096 ∈ addresses (run (create 4096 1024 true)
        [.allocate 8 8, .allocate (2 ^ 64 - 8) 8, .allocate 8 8, .deallocate 4096 8 8]).free_) := by
  decide

/-- C8, amended. In every state reached from a freshly constructed resource by
`allocate` and `deallocate` calls in which every `allocate` asks for at least
one byte with a power-of-two alignment and no bump computation wraps around in
`size_t`, all block records of the two lists have pairwise different
addresses; in particular no address occurs in both the used and the free list,
and every record sits in exactly one list, once. -/
theorem address_uniqueness (buffer size : Nat) (own : Bool) (ops : List Op)
    (hok : ops_ok (create buffer size own) ops = true)
    (hsize : ∀ op ∈ ops, op_positive op = true) :
    (addresses ((run (create buffer size own) ops).used_ ++
        (run (create buffer size own) ops).free_)).Nodup ∧
    (∀ b ∈ (run (create buffer size own) ops).used_,
      ∀ c ∈ (run (create buffer size own) ops).free_, b.p ≠ c.p) ∧
    (∀ b, ¬ (b ∈ (run (create buffer size own) ops).used_ ∧
      b ∈ (run (create buffer size own) ops).free_)) := by
  have h0 : distinct (create buffer size own) := by
    simp [distinct, create, addresses]
  have hnd := (distinct_run _ ops hok hsize h0).2
  have hdisj : ∀ b ∈ (run (create buffer size own) ops).used_,
      ∀ c ∈ (run (create buffer size own) ops).free_, b.p ≠ c.p := by
    intro b hb c hc hbc
    simp only [addresses, List.map_append] at hnd
    have hcm : b.p ∈ List.map (fun x : Block => x.p) (run (create buffer size own) ops).free_ := by
      rw [hbc]
      exact List.mem_map_of_mem _ hc
    exact (List.nodup_append.mp hnd).2.2 (List.mem_map_of_mem _ hb) hcm
  exact ⟨hnd, hdisj, fun b hb => hdisj b hb.1 b hb.2 rfl⟩

/-- C8, amended, on the reuse scenario: two allocations, one release, one
reusing allocation. -/
theorem address_uniqueness_witness :
    (addresses ((run (create 4096 1024 true)
        [.allocate 64 8, .allocate 64 8, .deallocate 4096 64 8, .allocate 32 8]).used_ ++
      (run (create 4096 1024 true)
        [.allocate 64 8, .allocate 64 8, .deallocate 4096 64 8, .allocate 32 8]).free_)).Nodup :=
  (address_uniqueness 4096 1024 true
    [.allocate 64 8, .allocate 64 8, .deallocate 4096 64 8, .allocate 32 8]
    (by decide) (by decide)).1

theorem off_le_cap_apply_op (r : FixedResource) (op : Op) (h : r.off_ ≤ r.cap_) :
    (apply_op r op).off_ ≤ (apply_op r op).cap_ := by
  cases op with
  | allocate bytes alignment =>
    simp only [apply_op]
    rcases do_allocate_cases r bytes alignment with
      ⟨pre, b, post, _, _, _, heq⟩ | ⟨_, _, heq⟩ | ⟨_, hcap, heq⟩
    · rw [heq]; exact h
    · rw [heq]; exact h
    · rw [heq]; exact hcap
  | deallocate p bytes alignment =>
    simp only [apply_op]
    rcases do_deallocate_cases r p bytes alignment with ⟨pre, b, post, _, _, _, heq⟩ | ⟨_, heq⟩
    · rw [heq]; exact h
    · rw [heq]; exact h

/-- The bump offset never exceeds the capacity, whatever the calls. -/
theorem off_le_cap_run (r : FixedResource) (ops : List Op) (h : r.off_ ≤ r.cap_) :
    (run r ops).off_ ≤ (run r ops).cap_ := by
  induction ops generalizing r with
  | nil => exact h
  | cons op ops ih => exact ih (apply_op r op) (off_le_cap_apply_op r op h)

/-- The capacity invariant when no bump computation wraps: the bump offset is
at most the capacity and the recorded sizes of the used blocks sum to at most
the capacity. -/
theorem capacity_invariant (buffer size : Nat) (own : Bool) (ops : List Op)
    (hok : ops_ok (create buffer size own) ops = true) :
    (run (create buffer size own) ops).off_ ≤ (run (create buffer size own) ops).cap_ ∧
    total_size (run (create buffer size own) ops).used_ ≤
      (run (create buffer size own) ops).cap_ := by
  have h0 : bounded (create buffer size own) := by
    simp [bounded, create, total_size]
  obtain ⟨hoff, hsum⟩ := bounded_run _ ops hok h0
  refine ⟨hoff, ?_⟩
  have : total_size (run (create buffer size own) ops).used_ ≤
      total_size ((run (create buffer size own) ops).used_ ++
        (run (create buffer size own) ops).free_) := by
    simp [total_size]
  omega

/-- C9 at a failing input. On a fresh 1024-byte resource, `allocate(8, 8)`
followed by `allocate(2^64 - 8, 8)` (both with power-of-two alignment) both
return a pointer, because `8 + (2^64 - 8)` wraps to `0` in the capacity test;
the used list then records `8 + (2^64 - 8) = 2^64` bytes, far more than the
capacity. -/
theorem capacity_invariant_wraps :
    pow2 8 ∧ 2 ^ 64 - 8 < SIZE_MOD ∧
    (run (create 4096 1024 true) [.allocate 8 8, .allocate (2 ^ 64 - 8) 8]).used_ =
      [⟨4096, 8, 8⟩, ⟨4104, 2 ^ 64 - 8, 8⟩] ∧
    (run (create 4096 1024 true) [.allocate 8 8, .allocate (2 ^ 64 - 8) 8]).cap_ = 1024 ∧
    total_size (run (create 4096 1024 true) [.allocate 8 8, .allocate (2 ^ 64 - 8) 8]).used_ =
      2 ^ 64 := by
  decide

end FixedResource

namespace FixedResource

/-- A call of `do_allocate` that returns `p` appends exactly one record with
address `p`, covering the request, to the used list; buffer and capacity stay. -/
theorem do_allocate_some (r : FixedResource) (bytes alignment p : Nat) (r' : FixedResource)
    (h : do_allocate r bytes alignment = (some p, r')) :
    ∃ nb : Block, nb.p = p ∧ nb.sz ≥ bytes ∧ nb.al ≥ alignment ∧
      r'.used_ = r.used_ ++ [nb] ∧ r'.buf_ = r.buf_ ∧ r'.cap_ = r.cap_ ∧
      ((r'.free_ = r.free_ ∧ p = r.buf_ + align_up r.off_ alignment) ∨
        (∃ pre post, r.free_ = pre ++ nb :: post ∧ r'.free_ = pre ++ post ∧
          r'.off_ = r.off_)) := by
  rcases do_allocate_cases r bytes alignment with
    ⟨pre, b, post, hl, _, hb, heq⟩ | ⟨_, _, heq⟩ | ⟨_, _, heq⟩
  · rw [heq] at h
    simp only [Prod.mk.injEq, Option.some.injEq] at h
    obtain ⟨hp, hr⟩ := h
    subst hr
    exact ⟨b, hp, ((fits_iff _ _ b).mp hb).1, ((fits_iff _ _ b).mp hb).2, rfl, rfl, rfl,
      Or.inr ⟨pre, post, hl, rfl, rfl⟩⟩
  · rw [heq] at h
    simp at h
  · rw [heq] at h
    simp only [Prod.mk.injEq, Option.some.injEq] at h
    obtain ⟨hp, hr⟩ := h
    subst hr
    exact ⟨⟨r.buf_ + align_up r.off_ alignment, bytes, alignment⟩, hp, le_refl _, le_refl _,
      rfl, rfl, rfl, Or.inl ⟨rfl, hp.symm⟩⟩

/-- Releasing an address that some record of `used` carries, after one more
record has been appended to the used list: the first matching record of
`used` is the one that moves. -/
theorem do_deallocate_after_append (r : FixedResource) (used : List Block) (nb : Block)
    (p bytes alignment : Nat) (hused : r.used_ = used ++ [nb])
    (hex : ∃ b ∈ used, b.p = p) :
    ∃ pre b post, used = pre ++ b :: post ∧ (∀ x ∈ pre, x.p ≠ p) ∧ b.p = p ∧
      do_deallocate r p bytes alignment =
        { r with used_ := pre ++ post ++ [nb], free_ := r.free_ ++ [b] } := by
  have hex' : ∃ x ∈ used, (fun b : Block => decide (b.p = p)) x = true := by
    obtain ⟨b, hb, hbp⟩ := hex
    exact ⟨b, hb, by simpa using hbp⟩
  obtain ⟨pre, b, post, hl, hpre, hb⟩ := exists_first_split _ used hex'
  refine ⟨pre, b, post, hl, fun x hx => by simpa using hpre x hx, by simpa using hb, ?_⟩
  have hsplit : r.used_ = pre ++ b :: (post ++ [nb]) := by
    rw [hused, hl]; simp
  unfold do_deallocate
  rw [hsplit, take_first_append _ pre (post ++ [nb]) b hpre hb]
  simp

end FixedResource

namespace FixedResource

/-- The storage handed out by an admissible call on a separated state does
not meet the recorded range of any block that was already in the used list. -/
theorem allocate_no_overlap (r : FixedResource) (bytes alignment p : Nat)
    (hsep : separated r) (hok : op_ok r (.allocate bytes alignment) = true)
    (h : (do_allocate r bytes alignment).1 = some p) :
    ∀ c ∈ r.used_, p + bytes ≤ c.p ∨ c.p + c.sz ≤ p := by
  obtain ⟨hin, hpw⟩ := hsep
  intro c hc
  rcases do_allocate_cases r bytes alignment with
    ⟨pre, b, post, hl, _, hb, heq⟩ | ⟨_, _, heq⟩ | ⟨hall, _, heq⟩
  · rw [heq] at h
    have hp : b.p = p := by simpa using h
    have hbfree : b ∈ r.free_ := by rw [hl]; simp
    have hdis : ranges_disjoint c b := (List.pairwise_append.mp hpw).2.2 c hc b hbfree
    have hsz := ((fits_iff _ _ b).mp hb).1
    unfold ranges_disjoint at hdis
    rcases hdis with h1 | h1
    · right; omega
    · left; omega
  · rw [heq] at h
    simp at h
  · rcases do_allocate_cases_ok r bytes alignment hok with
      ⟨pre, b, post, hl, heq1⟩ | heq' | ⟨hpos, _, heq'⟩
    · rw [heq] at heq1
      have hlen := congrArg (fun s : Option Nat × FixedResource => s.2.free_.length) heq1
      simp [hl] at hlen
    · rw [heq'] at h
      simp at h
    · rw [heq'] at h
      have hp : r.buf_ + roundup r.off_ alignment = p := by simpa using h
      have hge := roundup_ge r.off_ alignment hpos
      have := (hin c (List.mem_append_left _ hc)).2
      right
      omega

end FixedResource

namespace FixedResource

theorem arena_ok_allocate (r : FixedResource) (bytes alignment : Nat) (h : arena_ok r) :
    arena_ok (do_allocate r bytes alignment).2 ∧
    (do_allocate r bytes alignment).2.buf_ = r.buf_ ∧
    ∀ p, (do_allocate r bytes alignment).1 = some p → r.buf_ ≤ p := by
  obtain ⟨hbuf, hblocks⟩ := h
  rcases do_allocate_cases r bytes alignment with
    ⟨pre, b, post, hl, _, _, heq⟩ | ⟨_, _, heq⟩ | ⟨_, _, heq⟩
  · rw [heq]
    have hperm := reuse_perm r.used_ pre post b
    rw [← hl] at hperm
    refine ⟨⟨hbuf, fun x hx => hblocks x (hperm.mem_iff.mp hx)⟩, rfl, ?_⟩
    intro p hp
    have : b.p = p := by simpa using hp
    rw [← this]
    exact hblocks b (List.mem_append_right _ (by rw [hl]; simp))
  · rw [heq]
    exact ⟨⟨hbuf, hblocks⟩, rfl, fun p hp => by simp at hp⟩
  · rw [heq]
    refine ⟨⟨hbuf, ?_⟩, rfl, ?_⟩
    · intro x hx
      rcases List.mem_cons.mp ((bump_perm r.used_ r.free_ _).mem_iff.mp hx) with rfl | hx'
      · exact Nat.le_add_right _ _
      · exact hblocks x hx'
    · intro p hp
      have : r.buf_ + align_up r.off_ alignment = p := by simpa using hp
      omega

theorem arena_ok_deallocate (r : FixedResource) (p bytes alignment : Nat) (h : arena_ok r) :
    arena_ok (do_deallocate r p bytes alignment) := by
  obtain ⟨hbuf, hblocks⟩ := h
  rcases do_deallocate_cases r p bytes alignment with ⟨pre, b, post, hl, _, _, heq⟩ | ⟨_, heq⟩
  · rw [heq]
    have hperm := release_perm r.free_ pre post b
    rw [← hl] at hperm
    exact ⟨hbuf, fun x hx => hblocks x (hperm.mem_iff.mp hx)⟩
  · rw [heq]
    exact ⟨hbuf, hblocks⟩

end FixedResource

namespace FixedResource

/-! Disjoint ranges -/

theorem ranges_disjoint_symm {b c : Block} (h : ranges_disjoint b c) : ranges_disjoint c b :=
  Or.symm h

theorem separated_perm (r r' : FixedResource) (hbuf : r'.buf_ = r.buf_) (hoff : r.off_ ≤ r'.off_)
    (hperm : (r'.used_ ++ r'.free_).Perm (r.used_ ++ r.free_)) (h : separated r) :
    separated r' := by
  obtain ⟨hin, hpw⟩ := h
  refine ⟨?_, (hperm.pairwise_iff ranges_disjoint_symm).mpr hpw⟩
  intro b hb
  have := hin b (hperm.mem_iff.mp hb)
  rw [hbuf]
  omega

theorem separated_apply_op (r : FixedResource) (op : Op) (hok : op_ok r op = true)
    (h : separated r) : separated (apply_op r op) := by
  cases op with
  | allocate bytes alignment =>
    simp only [apply_op]
    rcases do_allocate_cases_ok r bytes alignment hok with
      ⟨pre, b, post, hl, heq⟩ | heq | ⟨hpos, _, heq⟩
    · rw [heq]
      have hperm := reuse_perm r.used_ pre post b
      rw [← hl] at hperm
      exact separated_perm r _ rfl (Nat.le_refl _) hperm h
    · rw [heq]
      exact h
    · rw [heq]
      obtain ⟨hin, hpw⟩ := h
      have hge := roundup_ge r.off_ alignment hpos
      have hperm := bump_perm r.used_ r.free_
        ⟨r.buf_ + roundup r.off_ alignment, bytes, alignment⟩
      refine ⟨?_, ?_⟩
      · intro x hx
        rcases List.mem_cons.mp (hperm.mem_iff.mp hx) with rfl | hx'
        · show r.buf_ ≤ r.buf_ + roundup r.off_ alignment ∧
            r.buf_ + roundup r.off_ alignment + bytes ≤
              r.buf_ + (roundup r.off_ alignment + bytes)
          omega
        · have := hin x hx'
          show r.buf_ ≤ x.p ∧ x.p + x.sz ≤ r.buf_ + (roundup r.off_ alignment + bytes)
          omega
      · refine (hperm.pairwise_iff ranges_disjoint_symm).mpr ?_
        refine List.pairwise_cons.mpr ⟨?_, hpw⟩
        intro c hc
        have := hin c hc
        right
        show c.p + c.sz ≤ r.buf_ + roundup r.off_ alignment
        omega
  | deallocate p bytes alignment =>
    simp only [apply_op]
    rcases do_deallocate_cases r p bytes alignment with ⟨pre, b, post, hl, _, _, heq⟩ | ⟨_, heq⟩
    · rw [heq]
      have hperm := release_perm r.free_ pre post b
      rw [← hl] at hperm
      exact separated_perm r _ rfl (Nat.le_refl _) hperm h
    · rw [heq]
      exact h

theorem separated_run (r : FixedResource) (ops : List Op) (hok : ops_ok r ops = true)
    (h : separated r) : separated (run r ops) := by
  induction ops generalizing r with
  | nil => exact h
  | cons op ops ih =>
    simp only [ops_ok, Bool.and_eq_true] at hok
    exact ih (apply_op r op) hok.2 (separated_apply_op r op hok.1 h)

theorem buf_cap_apply_op (r : FixedResource) (op : Op) :
    (apply_op r op).buf_ = r.buf_ ∧ (apply_op r op).cap_ = r.cap_ := by
  cases op with
  | allocate bytes alignment =>
    simp only [apply_op]
    rcases do_allocate_cases r bytes alignment with
      ⟨pre, b, post, _, _, _, heq⟩ | ⟨_, _, heq⟩ | ⟨_, _, heq⟩ <;> rw [heq] <;> exact ⟨rfl, rfl⟩
  | deallocate p bytes alignment =>
    simp only [apply_op]
    rcases do_deallocate_cases r p bytes alignment with ⟨pre, b, post, _, _, _, heq⟩ | ⟨_, heq⟩ <;>
      rw [heq] <;> exact ⟨rfl, rfl⟩

theorem buf_cap_run (r : FixedResource) (ops : List Op) :
    (run r ops).buf_ = r.buf_ ∧ (run r ops).cap_ = r.cap_ := by
  induction ops generalizing r with
  | nil => exact ⟨rfl, rfl⟩
  | cons op ops ih =>
    obtain ⟨h1, h2⟩ := ih (apply_op r op)
    obtain ⟨h3, h4⟩ := buf_cap_apply_op r op
    exact ⟨h1.trans h3, h2.trans h4⟩

/-- When the rounded offset plus the size fits `size_t`, the rounding itself
does not wrap either. -/
theorem no_wrap_of_sum (n a bytes : Nat) (hp : pow2 a)
    (h : roundup n a + bytes < SIZE_MOD) : n + a ≤ SIZE_MOD := by
  have hpos := pow2_pos hp
  obtain ⟨k, hk, rfl⟩ := hp
  have hge := roundup_ge n (2 ^ k) hpos
  obtain ⟨q, hq⟩ := roundup_dvd n (2 ^ k)
  have hM : SIZE_MOD = 2 ^ k * 2 ^ (64 - k) := by
    unfold SIZE_MOD
    rw [← pow_add]
    congr 1
    omega
  have hlt : 2 ^ k * q < 2 ^ k * 2 ^ (64 - k) := by
    rw [← hq, ← hM]; omega
  have hq' : q < 2 ^ (64 - k) := Nat.lt_of_mul_lt_mul_left hlt
  have hle : 2 ^ k * (q + 1) ≤ 2 ^ k * 2 ^ (64 - k) := Nat.mul_le_mul_left _ hq'
  rw [Nat.mul_add, Nat.mul_one, ← hq, ← hM] at hle
  omega

theorem op_ok_of_sum (r : FixedResource) (op : Op) (h : op_sum_ok r op = true) :
    op_ok r op = true := by
  cases op with
  | allocate bytes alignment =>
    simp only [op_sum_ok, Bool.and_eq_true, Bool.or_eq_true, decide_eq_true_eq] at h
    simp only [op_ok, Bool.and_eq_true, Bool.or_eq_true, decide_eq_true_eq]
    refine ⟨h.1, ?_⟩
    rcases h.2 with hfit | hsum
    · exact Or.inl hfit
    · exact Or.inr ⟨no_wrap_of_sum _ _ bytes h.1 hsum, hsum⟩
  | deallocate p bytes alignment => rfl

theorem ops_ok_of_sum (r : FixedResource) (ops : List Op) (h : ops_sum_ok r ops = true) :
    ops_ok r ops = true := by
  induction ops generalizing r with
  | nil => rfl
  | cons op ops ih =>
    simp only [ops_sum_ok, Bool.and_eq_true] at h
    simp only [ops_ok, Bool.and_eq_true]
    exact ⟨op_ok_of_sum r op h.1, ih _ h.2⟩

/-- C19. No two blocks overlap. In every state reached from a freshly
constructed resource by `allocate` and `deallocate` calls with power-of-two
alignments and sizes small enough that rounded offset plus size does not wrap
around, every record of the used and the free list covers a byte range
`[offset, offset + size)` inside `[0, bump offset)`, the ranges of any two
records do not meet, and the storage handed out by a further such `allocate`
does not meet the recorded range of any block that is already in use. -/
theorem no_overlap (buffer size : Nat) (own : Bool) (ops : List Op)
    (hok : ops_sum_ok (create buffer size own) ops = true) :
    (∀ b ∈ (run (create buffer size own) ops).used_ ++ (run (create buffer size own) ops).free_,
      buffer ≤ b.p ∧ (b.p - buffer) + b.sz ≤ (run (create buffer size own) ops).off_) ∧
    ((run (create buffer size own) ops).used_ ++
      (run (create buffer size own) ops).free_).Pairwise ranges_disjoint ∧
    (∀ bytes alignment p,
      op_sum_ok (run (create buffer size own) ops) (.allocate bytes alignment) = true →
      (do_allocate (run (create buffer size own) ops) bytes alignment).1 = some p →
      ∀ c ∈ (run (create buffer size own) ops).used_, p + bytes ≤ c.p ∨ c.p + c.sz ≤ p) := by
  have h0 : separated (create buffer size own) := by
    simp [separated, create]
  have hsep := separated_run _ ops (ops_ok_of_sum _ ops hok) h0
  have hbuf : (run (create buffer size own) ops).buf_ = buffer :=
    (buf_cap_run (create buffer size own) ops).1
  refine ⟨?_, hsep.2, fun bytes alignment p hop hres =>
    allocate_no_overlap _ bytes alignment p hsep (op_ok_of_sum _ _ hop) hres⟩
  intro b hb
  have := hsep.1 b hb
  rw [hbuf] at this
  omega

/-- C19 on a run with a reuse, a zero-size request and differently aligned
requests. -/
theorem no_overlap_witness :
    ((run (create 4096 1024 true)
        [.allocate 64 8, .allocate 3 1, .deallocate 4096 64 8, .allocate 0 1,
         .allocate 32 8, .allocate 16 16]).used_ ++
      (run (create 4096 1024 true)
        [.allocate 64 8, .allocate 3 1, .deallocate 4096 64 8, .allocate 0 1,
         .allocate 32 8, .allocate 16 16]).free_).Pairwise ranges_disjoint :=
  (no_overlap 4096 1024 true
    [.allocate 64 8, .allocate 3 1, .deallocate 4096 64 8, .allocate 0 1,
     .allocate 32 8, .allocate 16 16] (by decide)).2.1

end FixedResource

namespace FixedResource

/-! Alignment -/

theorem align_up_dvd (n a : Nat) (hp : pow2 a) : a ∣ align_up n a := by
  have hlt := pow2_lt hp
  obtain ⟨k, hk, rfl⟩ := hp
  have h2 : unot (usub (2 ^ k) 1) = 2 ^ 64 - 2 ^ k := by
    have hpos : 0 < 2 ^ k := Nat.pos_pow_of_pos k (by norm_num)
    unfold unot usub
    unfold SIZE_MOD at hlt ⊢
    omega
  have hx : usub (uadd n (2 ^ k)) 1 < 2 ^ 64 := by
    unfold usub
    exact Nat.mod_lt _ (by unfold SIZE_MOD; norm_num)
  unfold align_up
  rw [h2, and_high_mask _ k (by omega) hx]
  exact Dvd.intro_left _ rfl

theorem pow2_dvd_of_le {a b : Nat} (ha : pow2 a) (hb : pow2 b) (h : a ≤ b) : a ∣ b := by
  obtain ⟨i, _, rfl⟩ := ha
  obtain ⟨j, _, rfl⟩ := hb
  have hij : i ≤ j := by
    by_contra hcon
    have : 2 ^ j < 2 ^ i := Nat.pow_lt_pow_right (by norm_num) (Nat.lt_of_not_ge hcon)
    omega
  exact pow_dvd_pow 2 hij

theorem aligned_blocks_perm (r r' : FixedResource) (hbuf : r'.buf_ = r.buf_)
    (hperm : (r'.used_ ++ r'.free_).Perm (r.used_ ++ r.free_)) (h : aligned_blocks r) :
    aligned_blocks r' := by
  intro b hb
  have := h b (hperm.mem_iff.mp hb)
  rw [hbuf]
  exact this

theorem aligned_blocks_apply_op (r : FixedResource) (op : Op) (hop : op_pow2 op = true)
    (h : aligned_blocks r) : aligned_blocks (apply_op r op) := by
  cases op with
  | allocate bytes alignment =>
    simp only [op_pow2, decide_eq_true_eq] at hop
    simp only [apply_op]
    rcases do_allocate_cases r bytes alignment with
      ⟨pre, b, post, hl, _, _, heq⟩ | ⟨_, _, heq⟩ | ⟨_, _, heq⟩
    · rw [heq]
      have hperm := reuse_perm r.used_ pre post b
      rw [← hl] at hperm
      exact aligned_blocks_perm r _ rfl hperm h
    · rw [heq]
      exact h
    · rw [heq]
      intro x hx
      rcases List.mem_cons.mp ((bump_perm r.used_ r.free_ _).mem_iff.mp hx) with rfl | hx'
      · refine ⟨hop, Nat.le_add_right _ _, ?_⟩
        show alignment ∣ r.buf_ + align_up r.off_ alignment - r.buf_
        rw [Nat.add_sub_cancel_left]
        exact align_up_dvd _ _ hop
      · exact h x hx'
  | deallocate p bytes alignment =>
    simp only [apply_op]
    rcases do_deallocate_cases r p bytes alignment with ⟨pre, b, post, hl, _, _, heq⟩ | ⟨_, heq⟩
    · rw [heq]
      have hperm := release_perm r.free_ pre post b
      rw [← hl] at hperm
      exact aligned_blocks_perm r _ rfl hperm h
    · rw [heq]
      exact h

theorem aligned_blocks_run (r : FixedResource) (ops : List Op)
    (hops : ∀ op ∈ ops, op_pow2 op = true) (h : aligned_blocks r) :
    aligned_blocks (run r ops) := by
  induction ops generalizing r with
  | nil => exact h
  | cons op ops ih =>
    exact ih (apply_op r op) (fun o ho => hops o (List.mem_cons_of_mem op ho))
      (aligned_blocks_apply_op r op (hops op (List.mem_cons_self op ops)) h)

end FixedResource

namespace FixedResource

theorem pow2_le_half {a : Nat} (h : pow2 a) : a ≤ 2 ^ 63 := by
  obtain ⟨k, hk, rfl⟩ := h
  exact Nat.pow_le_pow_right (by norm_num) (by omega)

/-- C20. Returned addresses are aligned and large enough. In every state
reached from a freshly constructed resource by calls with power-of-two
alignments, a successful `allocate(bytes, alignment)` with a power-of-two
alignment returns an address whose offset from the buffer start is a multiple
of `alignment`, and appends a record of at least `bytes` bytes for it. On the
bump path the offset is `align_up(off_, alignment)`, which for a buffer of at
most `2^63` bytes is the least multiple of `alignment` that is at least
`off_`; on the reuse path the record comes from the free list, its recorded
alignment is at least the requested one and divides its offset. -/
theorem allocate_aligned (buffer size : Nat) (own : Bool) (ops : List Op)
    (bytes alignment p : Nat) (hops : ∀ op ∈ ops, op_pow2 op = true) (hp : pow2 alignment)
    (hres : (do_allocate (run (create buffer size own) ops) bytes alignment).1 = some p) :
    buffer ≤ p ∧ alignment ∣ (p - buffer) ∧
    ∃ nb : Block,
      (do_allocate (run (create buffer size own) ops) bytes alignment).2.used_ =
        (run (create buffer size own) ops).used_ ++ [nb] ∧
      nb.p = p ∧ nb.sz ≥ bytes ∧ nb.al ≥ alignment ∧ pow2 nb.al ∧ nb.al ∣ (p - buffer) ∧
      ((∀ x ∈ (run (create buffer size own) ops).free_, ¬ (x.sz ≥ bytes ∧ x.al ≥ alignment)) →
        p - buffer = align_up (run (create buffer size own) ops).off_ alignment ∧
        nb = ⟨p, bytes, alignment⟩ ∧
        (size ≤ 2 ^ 63 →
          p - buffer = roundup (run (create buffer size own) ops).off_ alignment ∧
          (run (create buffer size own) ops).off_ ≤ p - buffer ∧
          ∀ m, alignment ∣ m → (run (create buffer size own) ops).off_ ≤ m → p - buffer ≤ m)) ∧
      ((∃ x ∈ (run (create buffer size own) ops).free_, x.sz ≥ bytes ∧ x.al ≥ alignment) →
        nb ∈ (run (create buffer size own) ops).free_) := by
  have h0 : aligned_blocks (create buffer size own) := by
    intro b hb
    simp [create] at hb
  have hal := aligned_blocks_run _ ops hops h0
  obtain ⟨hbuf, hcap⟩ := buf_cap_run (create buffer size own) ops
  have hoff := off_le_cap_run (create buffer size own) ops (Nat.zero_le _)
  rw [hcap] at hoff
  have hbuf' : (run (create buffer size own) ops).buf_ = buffer := hbuf
  have hoff' : (run (create buffer size own) ops).off_ ≤ size := hoff
  rcases do_allocate_cases (run (create buffer size own) ops) bytes alignment with
    ⟨pre, b, post, hl, _, hb, heq⟩ | ⟨_, _, heq⟩ | ⟨hall, _, heq⟩
  · rw [heq] at hres ⊢
    have hbp : b.p = p := by simpa using hres
    have hbfree : b ∈ (run (create buffer size own) ops).free_ := by rw [hl]; simp
    obtain ⟨hpb, hge, hdvd⟩ := hal b (List.mem_append_right _ hbfree)
    rw [hbuf', hbp] at hge hdvd
    obtain ⟨hsz, hbal⟩ := (fits_iff _ _ b).mp hb
    refine ⟨hge, dvd_trans (pow2_dvd_of_le hp hpb hbal) hdvd, b, rfl, hbp, hsz, hbal, hpb, hdvd,
      ?_, fun _ => hbfree⟩
    intro hnone
    exact absurd ⟨hsz, hbal⟩ (hnone b hbfree)
  · rw [heq] at hres
    simp at hres
  · rw [heq] at hres ⊢
    have hpp : (run (create buffer size own) ops).buf_ +
        align_up (run (create buffer size own) ops).off_ alignment = p := by simpa using hres
    rw [hbuf'] at hpp
    have hsub : p - buffer = align_up (run (create buffer size own) ops).off_ alignment := by
      omega
    have hdvd : alignment ∣ p - buffer := by rw [hsub]; exact align_up_dvd _ _ hp
    refine ⟨by omega, hdvd, ⟨p, bytes, alignment⟩, ?_, rfl, Nat.le_refl _, Nat.le_refl _, hp,
      hdvd, ?_, ?_⟩
    · show _ ++ [_] = _ ++ [_]
      rw [hbuf', hpp]
    · intro _
      refine ⟨hsub, rfl, ?_⟩
      intro hsize
      have hle := pow2_le_half hp
      have hround := align_up_eq_roundup (run (create buffer size own) ops).off_ alignment hp
        (by unfold SIZE_MOD; omega)
      rw [hsub, hround]
      exact ⟨rfl, roundup_ge _ _ (pow2_pos hp),
        fun m hm hle' => roundup_least _ _ m (pow2_pos hp) hm hle'⟩
    · rintro ⟨x, hx, hfit⟩
      have := hall x hx
      rw [(fits_iff _ _ x).mpr hfit] at this
      cases this

/-- C20 on a bump allocation with alignment `16` at bump offset `67`, and on
a reuse of a freed block with recorded alignment `8` for a request aligned to
`4`. -/
theorem allocate_aligned_witness :
    ((do_allocate (run (create 4096 1024 true) [.allocate 64 8, .allocate 3 1]) 16 16).1 =
        some 4176 ∧ 16 ∣ (4176 - 4096)) ∧
    ((do_allocate (run (create 4096 1024 true)
        [.allocate 64 8, .allocate 3 1, .deallocate 4096 64 8]) 32 4).1 = some 4096 ∧
      4 ∣ (4096 - 4096)) :=
  ⟨⟨by decide,
    (allocate_aligned 4096 1024 true [.allocate 64 8, .allocate 3 1] 16 16 4176
      (by decide) (by decide) (by decide)).2.1⟩,
   ⟨by decide,
    (allocate_aligned 4096 1024 true [.allocate 64 8, .allocate 3 1, .deallocate 4096 64 8]
      32 4 4096 (by decide) (by decide) (by decide)).2.1⟩⟩

end FixedResource

namespace Memory

variable {T : Type}

/-! The shared storage -/

theorem construct_same (sizeof_T : Nat) (mem : Memory T) (p : Nat) (c : Option T) :
    construct sizeof_T mem p c p = c := by
  simp [construct]

/-- Constructing at `p` leaves an object alone whose bytes do not meet
`[p, p + sizeof(T))`. -/
theorem construct_apart (sizeof_T : Nat) (mem : Memory T) (p q : Nat) (c : Option T)
    (hne : q ≠ p) (h : q + sizeof_T ≤ p ∨ p + sizeof_T ≤ q) :
    construct sizeof_T mem p c q = mem q := by
  unfold construct
  have h2 : ¬ (q < p + sizeof_T ∧ p < q + sizeof_T) := by omega
  simp [hne, h2]

theorem destroy_same (mem : Memory T) (p : Nat) : destroy mem p p = none := by
  simp [destroy]

theorem destroy_other (mem : Memory T) (p q : Nat) (hne : q ≠ p) :
    destroy mem p q = mem q := by
  simp [destroy, hne]

end Memory

namespace DynArray

variable {T : Type}

theorem mul_step (s a b : Nat) (h : a < b) : a * s + s ≤ b * s := by
  have h1 : (a + 1) * s ≤ b * s := Nat.mul_le_mul_right s h
  have h2 : (a + 1) * s = a * s + s := by ring
  omega

/-- The relocation loop between two ranges that do not meet: every visited
element arrives in the new block with its value, and an object outside both
ranges is not touched. -/
theorem relocate_spec (sizeof_T data nd : Nat) (hS : 0 < sizeof_T) (k : Nat) :
    ∀ (i : Nat) (mem : Memory T),
      (nd + (i + k) * sizeof_T ≤ data ∨ data + (i + k) * sizeof_T ≤ nd) →
      (∀ j, i ≤ j → j < i + k →
        relocate sizeof_T data nd i k mem (nd + j * sizeof_T) = mem (data + j * sizeof_T)) ∧
      (∀ q, (q + sizeof_T ≤ nd + i * sizeof_T ∨ nd + (i + k) * sizeof_T ≤ q) →
        (q < data + i * sizeof_T ∨ data + (i + k) * sizeof_T ≤ q) →
        relocate sizeof_T data nd i k mem q = mem q) := by
  induction k with
  | zero =>
    intro i mem _
    exact ⟨fun j h1 h2 => by omega, fun _ _ _ => rfl⟩
  | succ k ih =>
    intro i mem hdis
    have em : (i + 1 + k) * sizeof_T = (i + (k + 1)) * sizeof_T := by
      congr 1; omega
    have e1 : (i + 1) * sizeof_T = i * sizeof_T + sizeof_T := by ring
    have him := mul_step sizeof_T i (i + (k + 1)) (by omega)
    obtain ⟨iha, ihb⟩ := ih (i + 1)
      (Memory.destroy
        (Memory.construct sizeof_T mem (nd + i * sizeof_T) (mem (data + i * sizeof_T)))
        (data + i * sizeof_T)) (by rw [em]; exact hdis)
    rw [em] at ihb
    rw [e1] at ihb
    refine ⟨?_, ?_⟩
    · intro j hj1 hj2
      simp only [relocate]
      have hjm := mul_step sizeof_T j (i + (k + 1)) hj2
      by_cases hji : j = i
      · subst hji
        rw [ihb _ (Or.inl (by omega)) (by omega)]
        rw [Memory.destroy_other _ _ _ (by omega), Memory.construct_same]
      · have hij := mul_step sizeof_T i j (by omega)
        rw [iha j (by omega) (by omega)]
        rw [Memory.destroy_other _ _ _ (by omega),
          Memory.construct_apart _ _ _ _ _ (by omega) (by omega)]
    · intro q hq1 hq2
      simp only [relocate]
      rw [ihb q (by omega) (by omega)]
      rw [Memory.destroy_other _ _ _ (by omega),
        Memory.construct_apart _ _ _ _ _ (by omega) (by omega)]

/-- The loop of `clear()` destroys the visited cells and nothing else. -/
theorem destroy_cells_spec (sizeof_T data : Nat) (k : Nat) :
    ∀ (i : Nat) (mem : Memory T),
      (∀ j, i ≤ j → j < i + k →
        destroy_cells sizeof_T data i k mem (data + j * sizeof_T) = none) ∧
      (∀ q, (∀ j, i ≤ j → j < i + k → q ≠ data + j * sizeof_T) →
        destroy_cells sizeof_T data i k mem q = mem q) := by
  induction k with
  | zero =>
    intro i mem
    exact ⟨fun j h1 h2 => by omega, fun _ _ => rfl⟩
  | succ k ih =>
    intro i mem
    obtain ⟨iha, ihb⟩ := ih (i + 1) (Memory.destroy mem (data + i * sizeof_T))
    refine ⟨?_, ?_⟩
    · intro j hj1 hj2
      simp only [destroy_cells]
      by_cases hji : j = i
      · subst hji
        by_cases hex : ∃ j', j + 1 ≤ j' ∧ j' < j + 1 + k ∧ data + j * sizeof_T = data + j' * sizeof_T
        · obtain ⟨j', h1, h2, h3⟩ := hex
          have hh := iha j' h1 h2
          rw [← h3] at hh
          exact hh
        · rw [ihb _ (fun j' h1 h2 h3 => hex ⟨j', h1, h2, h3⟩)]
          exact Memory.destroy_same _ _
      · exact iha j (by omega) (by omega)
    · intro q hq
      simp only [destroy_cells]
      rw [ihb q (fun j h1 h2 => hq j (by omega) (by omega))]
      exact Memory.destroy_other _ _ _ (hq i (Nat.le_refl _) (by omega))

end DynArray

namespace DynArray

variable {T : Type}

/-! Reserve, growth and appending -/

theorem polymorphic_allocate_some (res : FixedResource) (sizeof_T alignof_T n nd : Nat)
    (res1 : FixedResource) (h : polymorphic_allocate res sizeof_T alignof_T n = (some nd, res1)) :
    n ≤ (SIZE_MOD - 1) / sizeof_T ∧
    res.do_allocate (umul n sizeof_T) alignof_T = (some nd, res1) := by
  unfold polymorphic_allocate at h
  by_cases hn : n > (SIZE_MOD - 1) / sizeof_T
  · simp [hn] at h
  · simp only [hn, if_false] at h
    exact ⟨Nat.le_of_not_gt hn, h⟩

/-- A request that `polymorphic_allocator::allocate` lets through has a byte
count that fits `size_t`. -/
theorem umul_eq (n sizeof_T : Nat) (hle : n ≤ (SIZE_MOD - 1) / sizeof_T) :
    umul n sizeof_T = n * sizeof_T := by
  have h1 : n * sizeof_T ≤ (SIZE_MOD - 1) / sizeof_T * sizeof_T := Nat.mul_le_mul_right _ hle
  have h2 := Nat.div_mul_le_self (SIZE_MOD - 1) sizeof_T
  unfold umul
  exact Nat.mod_eq_of_lt (by unfold SIZE_MOD at h1 h2 ⊢; omega)

/-- The result of a growing `reserve` whose allocation returned `nd`. -/
theorem reserve_eq (sizeof_T alignof_T : Nat) (res : FixedResource) (mem : Memory T)
    (a : DynArray T) (n : Nat) (hn : n > a.cap_) (nd : Nat) (res1 : FixedResource)
    (h : polymorphic_allocate res sizeof_T alignof_T n = (some nd, res1)) :
    reserve sizeof_T alignof_T res mem a n =
      ⟨true,
       if a.data_ ≠ 0 then polymorphic_deallocate res1 sizeof_T alignof_T a.data_ a.cap_
       else res1,
       relocate sizeof_T a.data_ nd 0 a.sz_ mem,
       { a with data_ := nd, cap_ := n }⟩ := by
  unfold reserve
  simp only [hn, if_true, h]

theorem reserve_skip (sizeof_T alignof_T : Nat) (res : FixedResource) (mem : Memory T)
    (a : DynArray T) (n : Nat) (hn : n ≤ a.cap_) :
    reserve sizeof_T alignof_T res mem a n = ⟨true, res, mem, a⟩ := by
  unfold reserve
  have : ¬ n > a.cap_ := Nat.not_lt.mpr hn
  simp only [this, if_false]

theorem reserve_fail (sizeof_T alignof_T : Nat) (res : FixedResource) (mem : Memory T)
    (a : DynArray T) (n : Nat) (hn : n > a.cap_) (res1 : FixedResource)
    (h : polymorphic_allocate res sizeof_T alignof_T n = (none, res1)) :
    reserve sizeof_T alignof_T res mem a n = ⟨false, res1, mem, a⟩ := by
  unfold reserve
  simp only [hn, if_true, h]

/-- A growing `reserve` that returned normally got a block from the
allocator. -/
theorem reserve_ok_alloc (sizeof_T alignof_T : Nat) (res : FixedResource) (mem : Memory T)
    (a : DynArray T) (n : Nat) (hn : n > a.cap_)
    (hok : (reserve sizeof_T alignof_T res mem a n).ok = true) :
    ∃ nd res1, polymorphic_allocate res sizeof_T alignof_T n = (some nd, res1) := by
  rcases hal : polymorphic_allocate res sizeof_T alignof_T n with ⟨ptr, res1⟩
  cases ptr with
  | none =>
    rw [reserve_fail sizeof_T alignof_T res mem a n hn res1 hal] at hok
    simp at hok
  | some nd => exact ⟨nd, res1, rfl⟩

/-- The new block of a growing `reserve` on a separated resource does not
meet the cells of an array that holds its block. -/
theorem reserve_block_apart (sizeof_T alignof_T : Nat) (res : FixedResource)
    (a : DynArray T) (n : Nat)
    (hsep : res.separated) (hown : owns sizeof_T res a)
    (hfit : res.op_ok (.allocate (umul n sizeof_T) alignof_T) = true)
    (nd : Nat) (res1 : FixedResource)
    (hal : polymorphic_allocate res sizeof_T alignof_T n = (some nd, res1)) :
    nd + n * sizeof_T ≤ a.data_ ∨ a.data_ + a.cap_ * sizeof_T ≤ nd ∨ a.cap_ = 0 := by
  obtain ⟨hle, hdo⟩ := polymorphic_allocate_some res sizeof_T alignof_T n nd res1 hal
  have hbytes := umul_eq n sizeof_T hle
  rcases hown with h0 | ⟨b, hb, hbp, hbsz⟩
  · exact Or.inr (Or.inr h0)
  · have hov := FixedResource.allocate_no_overlap res _ alignof_T nd hsep hfit
      (by rw [hdo]) b hb
    rw [hbytes, hbp] at hov
    rcases hov with h1 | h1
    · exact Or.inl h1
    · exact Or.inr (Or.inl (by omega))

/-- A growing `reserve` on a separated resource, for an array that holds its
block: every live element arrives in the new block with its value, and an
object outside the old cells and outside the new block is not touched. -/
theorem reserve_mem (sizeof_T alignof_T : Nat) (res : FixedResource) (mem : Memory T)
    (a : DynArray T) (n : Nat) (hS : 0 < sizeof_T) (hsz : a.sz_ ≤ a.cap_)
    (hsep : res.separated) (hown : owns sizeof_T res a) (hn : n > a.cap_)
    (hfit : res.op_ok (.allocate (umul n sizeof_T) alignof_T) = true)
    (nd : Nat) (res1 : FixedResource)
    (hal : polymorphic_allocate res sizeof_T alignof_T n = (some nd, res1)) :
    (∀ i, i < a.sz_ →
      (reserve sizeof_T alignof_T res mem a n).mem (nd + i * sizeof_T) =
        mem (a.data_ + i * sizeof_T)) ∧
    (∀ q, (q + sizeof_T ≤ nd ∨ nd + a.sz_ * sizeof_T ≤ q) →
      (q < a.data_ ∨ a.data_ + a.sz_ * sizeof_T ≤ q) →
      (reserve sizeof_T alignof_T res mem a n).mem q = mem q) := by
  rw [reserve_eq sizeof_T alignof_T res mem a n hn nd res1 hal]
  have hapart := reserve_block_apart sizeof_T alignof_T res a n hsep hown hfit nd res1 hal
  have h1 : a.sz_ * sizeof_T ≤ a.cap_ * sizeof_T := Nat.mul_le_mul_right _ hsz
  have h2 : a.cap_ * sizeof_T ≤ n * sizeof_T := Nat.mul_le_mul_right _ (Nat.le_of_lt hn)
  have hdis : nd + (0 + a.sz_) * sizeof_T ≤ a.data_ ∨ a.data_ + (0 + a.sz_) * sizeof_T ≤ nd := by
    rw [Nat.zero_add]
    rcases hapart with h | h | h
    · left; omega
    · right; omega
    · have : a.sz_ = 0 := by omega
      rw [this]
      omega
  obtain ⟨ha, hb⟩ := relocate_spec sizeof_T a.data_ nd hS a.sz_ 0 mem hdis
  refine ⟨fun i hi => ha i (Nat.zero_le _) (by omega), fun q hq1 hq2 => hb q ?_ ?_⟩
  · rw [Nat.zero_add, Nat.zero_mul, Nat.add_zero]; exact hq1
  · rw [Nat.zero_add, Nat.zero_mul, Nat.add_zero]; exact hq2

theorem grow_target (a : DynArray T) (hfull : a.sz_ ≥ a.cap_) (hwf : wf a) :
    (if a.cap_ = 0 then 1 else umul a.cap_ 2) = (if a.cap_ = 0 then 1 else 2 * a.cap_) ∧
    (if a.cap_ = 0 then 1 else umul a.cap_ 2) > a.cap_ := by
  obtain ⟨hsz, hsmall⟩ := hwf
  by_cases h0 : a.cap_ = 0
  · simp [h0]
  · simp only [h0, if_false]
    unfold umul
    unfold SIZE_MOD at hsmall ⊢
    omega

theorem grow_if_full_skip (sizeof_T alignof_T : Nat) (res : FixedResource) (mem : Memory T)
    (a : DynArray T) (h : a.sz_ < a.cap_) :
    grow_if_full sizeof_T alignof_T res mem a = ⟨true, res, mem, a⟩ := by
  unfold grow_if_full
  exact if_neg (Nat.not_le.mpr h)

theorem grow_if_full_grow (sizeof_T alignof_T : Nat) (res : FixedResource) (mem : Memory T)
    (a : DynArray T) (h : a.sz_ ≥ a.cap_) :
    grow_if_full sizeof_T alignof_T res mem a =
      reserve sizeof_T alignof_T res mem a (if a.cap_ = 0 then 1 else umul a.cap_ 2) := by
  unfold grow_if_full grow
  exact if_pos h

theorem push_back_ref_ok (sizeof_T alignof_T : Nat) (res : FixedResource) (mem : Memory T)
    (a : DynArray T) (src : Memory T → Option T)
    (hok : (push_back_ref sizeof_T alignof_T res mem a src).ok = true) :
    (grow_if_full sizeof_T alignof_T res mem a).ok = true := by
  unfold push_back_ref at hok
  cases h : (grow_if_full sizeof_T alignof_T res mem a).ok
  · simp [h] at hok
  · rfl

theorem push_back_ref_eq (sizeof_T alignof_T : Nat) (res : FixedResource) (mem : Memory T)
    (a : DynArray T) (src : Memory T → Option T)
    (hg : (grow_if_full sizeof_T alignof_T res mem a).ok = true) :
    push_back_ref sizeof_T alignof_T res mem a src =
      ⟨true, (grow_if_full sizeof_T alignof_T res mem a).res,
       Memory.construct sizeof_T (grow_if_full sizeof_T alignof_T res mem a).mem
         ((grow_if_full sizeof_T alignof_T res mem a).arr.data_ +
           (grow_if_full sizeof_T alignof_T res mem a).arr.sz_ * sizeof_T)
         (src (grow_if_full sizeof_T alignof_T res mem a).mem),
       { (grow_if_full sizeof_T alignof_T res mem a).arr with
         sz_ := uadd (grow_if_full sizeof_T alignof_T res mem a).arr.sz_ 1 }⟩ := by
  unfold push_back_ref
  simp only [hg, if_true]

theorem emplace_back_eq_push_back (sizeof_T alignof_T : Nat) (res : FixedResource)
    (mem : Memory T) (a : DynArray T) (v : T) :
    (emplace_back sizeof_T alignof_T res mem a v).2 = push_back sizeof_T alignof_T res mem a v ∧
    (emplace_back sizeof_T alignof_T res mem a v).1.isSome =
      (push_back sizeof_T alignof_T res mem a v).ok ∧
    ((push_back sizeof_T alignof_T res mem a v).ok = true →
      (emplace_back sizeof_T alignof_T res mem a v).1 =
        some (grow_if_full sizeof_T alignof_T res mem a).arr.sz_) := by
  unfold emplace_back push_back push_back_ref
  cases hg : (grow_if_full sizeof_T alignof_T res mem a).ok <;> simp [hg]

theorem uadd_one (s : Nat) (h : 2 * s < SIZE_MOD) : uadd s 1 = s + 1 := by
  unfold uadd
  unfold SIZE_MOD at h ⊢
  omega

/-- The effect of one appending call that returns normally, on a separated
resource and an array that holds its block: size, capacity, the new element,
the old elements. `src` reads the argument from the storage after `grow()`. -/
theorem push_back_ref_effect (sizeof_T alignof_T : Nat) (res : FixedResource) (mem : Memory T)
    (a : DynArray T) (src : Memory T → Option T) (hS : 0 < sizeof_T) (hwf : wf a)
    (hsep : res.separated) (hown : owns sizeof_T res a)
    (hfit : a.sz_ ≥ a.cap_ → res.op_ok
      (.allocate (umul (if a.cap_ = 0 then 1 else umul a.cap_ 2) sizeof_T) alignof_T) = true)
    (hok : (push_back_ref sizeof_T alignof_T res mem a src).ok = true) :
    (push_back_ref sizeof_T alignof_T res mem a src).arr.sz_ = a.sz_ + 1 ∧
    (push_back_ref sizeof_T alignof_T res mem a src).arr.alloc_ = a.alloc_ ∧
    (push_back_ref sizeof_T alignof_T res mem a src).arr.cap_ =
      (if a.sz_ < a.cap_ then a.cap_ else if a.cap_ = 0 then 1 else 2 * a.cap_) ∧
    index sizeof_T (push_back_ref sizeof_T alignof_T res mem a src).mem
      (push_back_ref sizeof_T alignof_T res mem a src).arr a.sz_ =
        src (grow_if_full sizeof_T alignof_T res mem a).mem ∧
    (∀ i, i < a.sz_ →
      index sizeof_T (push_back_ref sizeof_T alignof_T res mem a src).mem
        (push_back_ref sizeof_T alignof_T res mem a src).arr i = index sizeof_T mem a i) := by
  have hg := push_back_ref_ok sizeof_T alignof_T res mem a src hok
  rw [push_back_ref_eq sizeof_T alignof_T res mem a src hg]
  have hadd := uadd_one a.sz_ hwf.2
  by_cases hfull : a.sz_ ≥ a.cap_
  · obtain ⟨ht1, ht2⟩ := grow_target a hfull hwf
    have hgg := grow_if_full_grow sizeof_T alignof_T res mem a hfull
    rw [hgg] at hg ⊢
    obtain ⟨nd, res1, hal⟩ := reserve_ok_alloc sizeof_T alignof_T res mem a _ ht2 hg
    obtain ⟨hm1, _⟩ := reserve_mem sizeof_T alignof_T res mem a _ hS hwf.1 hsep hown ht2
      (hfit hfull) nd res1 hal
    have hnot : ¬ a.sz_ < a.cap_ := Nat.not_lt.mpr hfull
    rw [reserve_eq sizeof_T alignof_T res mem a _ ht2 nd res1 hal] at hm1 ⊢
    simp only at hm1
    refine ⟨hadd, rfl, ?_, ?_, ?_⟩
    · show (if a.cap_ = 0 then 1 else umul a.cap_ 2) = _
      rw [ht1]; simp only [hnot, if_false]
    · show Memory.construct sizeof_T _ (nd + a.sz_ * sizeof_T) _ (nd + a.sz_ * sizeof_T) = _
      exact Memory.construct_same _ _ _ _
    · intro i hi
      show Memory.construct sizeof_T _ (nd + a.sz_ * sizeof_T) _ (nd + i * sizeof_T) = _
      have hstep := mul_step sizeof_T i a.sz_ hi
      rw [Memory.construct_apart _ _ _ _ _ (by omega) (by omega)]
      exact hm1 i hi
  · have hlt : a.sz_ < a.cap_ := Nat.lt_of_not_ge hfull
    rw [grow_if_full_skip sizeof_T alignof_T res mem a hlt]
    refine ⟨hadd, rfl, ?_, ?_, ?_⟩
    · show a.cap_ = _
      simp only [hlt, if_true]
    · exact Memory.construct_same _ _ _ _
    · intro i hi
      show Memory.construct sizeof_T _ (a.data_ + a.sz_ * sizeof_T) _ (a.data_ + i * sizeof_T) = _
      have hstep := mul_step sizeof_T i a.sz_ hi
      rw [Memory.construct_apart _ _ _ _ _ (by omega) (by omega)]
      rfl

/-- Relocation into a block that meets the old one. Such a block is handed
out after the wrap-around of `do_allocate`: a client holds 4 bytes at `4096`,
the array reserves two cells at `4100` and holds `1, 2`, and a request for
`2^64 - 4` bytes sets the bump offset back to `8`. The third `push_back` then
relocates into the block at `4104`: the first round constructs `nd[0]` over
`data_[1]`, the second round copies that `1` to `nd[1]` and destroys
`data_[1]`, which is `nd[0]`. The array ends with `1` at index `1` and `3` at
index `2`; at index `0` no object lives any more (for an `int`, whose
destructor does nothing, the bytes still read `1`). -/
theorem relocate_into_overlapping_block :
    FixedResource.run (FixedResource.create 4096 1024 true)
      [.allocate 4 4, .allocate 8 4, .allocate (2 ^ 64 - 4) 4] =
        ⟨4096, 1024, 8, [⟨4096, 4, 4⟩, ⟨4100, 8, 4⟩, ⟨4108, 2 ^ 64 - 4, 4⟩], [], true⟩ ∧
    (push_back 4 4
      ⟨4096, 1024, 8, [⟨4096, 4, 4⟩, ⟨4100, 8, 4⟩, ⟨4108, 2 ^ 64 - 4, 4⟩], [], true⟩
      (fun p => if p = 4100 then some 1 else if p = 4104 then some 2 else none)
      (⟨1, 4100, 2, 2⟩ : DynArray Nat) 3).ok = true ∧
    (push_back 4 4
      ⟨4096, 1024, 8, [⟨4096, 4, 4⟩, ⟨4100, 8, 4⟩, ⟨4108, 2 ^ 64 - 4, 4⟩], [], true⟩
      (fun p => if p = 4100 then some 1 else if p = 4104 then some 2 else none)
      (⟨1, 4100, 2, 2⟩ : DynArray Nat) 3).arr = ⟨1, 4104, 3, 4⟩ ∧
    index 4 (push_back 4 4
      ⟨4096, 1024, 8, [⟨4096, 4, 4⟩, ⟨4100, 8, 4⟩, ⟨4108, 2 ^ 64 - 4, 4⟩], [], true⟩
      (fun p => if p = 4100 then some 1 else if p = 4104 then some 2 else none)
      (⟨1, 4100, 2, 2⟩ : DynArray Nat) 3).mem ⟨1, 4104, 3, 4⟩ 0 = none ∧
    index 4 (push_back 4 4
      ⟨4096, 1024, 8, [⟨4096, 4, 4⟩, ⟨4100, 8, 4⟩, ⟨4108, 2 ^ 64 - 4, 4⟩], [], true⟩
      (fun p => if p = 4100 then some 1 else if p = 4104 then some 2 else none)
      (⟨1, 4100, 2, 2⟩ : DynArray Nat) 3).mem ⟨1, 4104, 3, 4⟩ 1 = some 1 ∧
    index 4 (push_back 4 4
      ⟨4096, 1024, 8, [⟨4096, 4, 4⟩, ⟨4100, 8, 4⟩, ⟨4108, 2 ^ 64 - 4, 4⟩], [], true⟩
      (fun p => if p = 4100 then some 1 else if p = 4104 then some 2 else none)
      (⟨1, 4100, 2, 2⟩ : DynArray Nat) 3).mem ⟨1, 4104, 3, 4⟩ 2 = some 3 := by
  refine ⟨by decide, by decide, by decide, by decide, by decide, by decide⟩

end DynArray

namespace FixedResource

/-! Resources in working order -/

theorem sane_arena_ok (r : FixedResource) (h : sane r) : arena_ok r :=
  ⟨h.1, fun b hb => (h.2.2.2.1 b hb).1⟩

/-- On a resource in working order a request of at most `2^63` bytes with a
power-of-two alignment of at most `2^62` is admissible: nothing wraps. -/
theorem sane_op_ok (r : FixedResource) (bytes alignment : Nat) (h : sane r)
    (hp : pow2 alignment) (hal : alignment ≤ 2 ^ 62) (hb : bytes ≤ 2 ^ 63) :
    op_ok r (.allocate bytes alignment) = true := by
  obtain ⟨_, hoff, hcap, _⟩ := h
  have hlt := roundup_lt r.off_ alignment (pow2_pos hp)
  simp only [op_ok, Bool.and_eq_true, Bool.or_eq_true, decide_eq_true_eq]
  refine ⟨hp, Or.inr ⟨?_, ?_⟩⟩
  · unfold SIZE_MOD; omega
  · unfold SIZE_MOD; omega

theorem sane_apply_op (r : FixedResource) (op : Op) (h : sane r) (hok : op_ok r op = true) :
    sane (apply_op r op) := by
  obtain ⟨hbuf, hoff, hcap, hsep⟩ := h
  obtain ⟨e1, e2⟩ := buf_cap_apply_op r op
  refine ⟨by rw [e1]; exact hbuf, off_le_cap_apply_op r op hoff, by rw [e2]; exact hcap,
    separated_apply_op r op hok hsep⟩

/-- Every state reached from a freshly constructed resource with a non-null
buffer of at most `2^62` bytes by admissible calls is in working order. -/
theorem sane_run (buffer size : Nat) (own : Bool) (ops : List Op) (hbuf : 0 < buffer)
    (hsize : size ≤ 2 ^ 62) (hok : ops_ok (create buffer size own) ops = true) :
    sane (run (create buffer size own) ops) := by
  obtain ⟨e1, e2⟩ := buf_cap_run (create buffer size own) ops
  have h0 : separated (create buffer size own) := by
    simp [separated, create]
  refine ⟨by rw [e1]; exact hbuf, off_le_cap_run _ ops (Nat.zero_le _), by rw [e2]; exact hsize,
    separated_run _ ops hok h0⟩

end FixedResource

namespace DynArray

variable {T : Type}

/-! Arrays on a resource in working order -/

theorem polymorphic_deallocate_eq (res : FixedResource) (sizeof_T alignof_T p n : Nat) :
    polymorphic_deallocate res sizeof_T alignof_T p n =
      res.apply_op (.deallocate p (umul n sizeof_T) alignof_T) := rfl

/-- A growing `reserve` on a resource in working order, for an array that
holds its block: the resource stays in working order, the array holds the new
block, and the representation invariant is kept. -/
theorem reserve_arena (sizeof_T alignof_T : Nat) (res : FixedResource) (mem : Memory T)
    (a : DynArray T) (n : Nat) (hinv : inv a) (hs : res.sane) (hown : owns sizeof_T res a)
    (hn : n > a.cap_) (hfit : res.op_ok (.allocate (umul n sizeof_T) alignof_T) = true)
    (nd : Nat) (res1 : FixedResource)
    (hal : polymorphic_allocate res sizeof_T alignof_T n = (some nd, res1)) :
    (reserve sizeof_T alignof_T res mem a n).res.sane ∧
    owns sizeof_T (reserve sizeof_T alignof_T res mem a n).res
      (reserve sizeof_T alignof_T res mem a n).arr ∧
    inv (reserve sizeof_T alignof_T res mem a n).arr := by
  obtain ⟨hle, hdo⟩ := polymorphic_allocate_some res sizeof_T alignof_T n nd res1 hal
  have hbytes := umul_eq n sizeof_T hle
  obtain ⟨nb, hnbp, hnbsz, _, hused, _⟩ :=
    FixedResource.do_allocate_some res _ alignof_T nd res1 hdo
  have hs1 : res1.sane := by
    have := FixedResource.sane_apply_op res (.allocate (umul n sizeof_T) alignof_T) hs hfit
    simp only [FixedResource.apply_op, hdo] at this
    exact this
  have hnd : nd ≠ 0 := by
    have h3 := (FixedResource.arena_ok_allocate res (umul n sizeof_T) alignof_T
      (FixedResource.sane_arena_ok res hs)).2.2 nd (by rw [hdo])
    have := hs.1
    omega
  rw [reserve_eq sizeof_T alignof_T res mem a n hn nd res1 hal]
  have hinv' : inv ({ a with data_ := nd, cap_ := n } : DynArray T) := by
    refine ⟨?_, ?_⟩
    · show a.sz_ ≤ n
      have := hinv.1
      omega
    · show n = 0 ↔ nd = 0
      constructor
      · intro h0; omega
      · intro h0; exact absurd h0 hnd
  by_cases hd : a.data_ = 0
  · simp only [hd, ne_eq, not_true_eq_false, if_false]
    refine ⟨hs1, Or.inr ⟨nb, by rw [hused]; simp, hnbp, ?_⟩, ?_⟩
    · show n * sizeof_T ≤ nb.sz
      omega
    · simpa [hd] using hinv'
  · simp only [ne_eq, hd, not_false_eq_true, if_true]
    have hex : ∃ b ∈ res.used_, b.p = a.data_ := by
      rcases hown with h0 | ⟨b, hb, hbp, _⟩
      · exact absurd (hinv.2.mp h0) hd
      · exact ⟨b, hb, hbp⟩
    obtain ⟨pre, b, post, _, _, _, hde⟩ := FixedResource.do_deallocate_after_append res1
      res.used_ nb a.data_ (umul a.cap_ sizeof_T) alignof_T hused hex
    refine ⟨?_, Or.inr ⟨nb, ?_, hnbp, ?_⟩, hinv'⟩
    · rw [polymorphic_deallocate_eq]
      exact FixedResource.sane_apply_op res1 _ hs1 rfl
    · simp only [polymorphic_deallocate, hde]
      simp
    · show n * sizeof_T ≤ nb.sz
      omega

/-- One appending call that returns normally keeps a resource in working
order, the array's hold on its block and the representation invariant. -/
theorem push_back_ref_arena (sizeof_T alignof_T : Nat) (res : FixedResource) (mem : Memory T)
    (a : DynArray T) (src : Memory T → Option T) (hinv : inv a)
    (hsmall : 2 * a.sz_ < SIZE_MOD) (hs : res.sane) (hown : owns sizeof_T res a)
    (hfit : a.sz_ ≥ a.cap_ → res.op_ok
      (.allocate (umul (if a.cap_ = 0 then 1 else umul a.cap_ 2) sizeof_T) alignof_T) = true)
    (hok : (push_back_ref sizeof_T alignof_T res mem a src).ok = true) :
    (push_back_ref sizeof_T alignof_T res mem a src).res.sane ∧
    owns sizeof_T (push_back_ref sizeof_T alignof_T res mem a src).res
      (push_back_ref sizeof_T alignof_T res mem a src).arr ∧
    inv (push_back_ref sizeof_T alignof_T res mem a src).arr := by
  have hg := push_back_ref_ok sizeof_T alignof_T res mem a src hok
  rw [push_back_ref_eq sizeof_T alignof_T res mem a src hg]
  have hadd := uadd_one a.sz_ hsmall
  by_cases hfull : a.sz_ ≥ a.cap_
  · obtain ⟨ht1, ht2⟩ := grow_target a hfull ⟨hinv.1, hsmall⟩
    have hgg := grow_if_full_grow sizeof_T alignof_T res mem a hfull
    rw [hgg] at hg ⊢
    obtain ⟨nd, res1, hal⟩ := reserve_ok_alloc sizeof_T alignof_T res mem a _ ht2 hg
    obtain ⟨r1, r2, r3⟩ := reserve_arena sizeof_T alignof_T res mem a _ hinv hs hown ht2
      (hfit hfull) nd res1 hal
    rw [reserve_eq sizeof_T alignof_T res mem a _ ht2 nd res1 hal] at r1 r2 r3 ⊢
    refine ⟨r1, r2, ?_, r3.2⟩
    show uadd a.sz_ 1 ≤ (if a.cap_ = 0 then 1 else umul a.cap_ 2)
    have := hinv.1
    rw [hadd]
    omega
  · have hlt : a.sz_ < a.cap_ := Nat.lt_of_not_ge hfull
    rw [grow_if_full_skip sizeof_T alignof_T res mem a hlt]
    refine ⟨hs, hown, ?_, hinv.2⟩
    show uadd a.sz_ 1 ≤ a.cap_
    rw [hadd]
    omega

/-- The effect of one `push_back` that returns normally, on the raw members. -/
theorem push_back_effect (sizeof_T alignof_T : Nat) (res : FixedResource) (mem : Memory T)
    (a : DynArray T) (v : T) (hS : 0 < sizeof_T) (hwf : wf a)
    (hsep : res.separated) (hown : owns sizeof_T res a)
    (hfit : a.sz_ ≥ a.cap_ → res.op_ok
      (.allocate (umul (if a.cap_ = 0 then 1 else umul a.cap_ 2) sizeof_T) alignof_T) = true)
    (hok : (push_back sizeof_T alignof_T res mem a v).ok = true) :
    (push_back sizeof_T alignof_T res mem a v).arr.sz_ = a.sz_ + 1 ∧
    (push_back sizeof_T alignof_T res mem a v).arr.cap_ =
      (if a.sz_ < a.cap_ then a.cap_ else if a.cap_ = 0 then 1 else 2 * a.cap_) ∧
    index sizeof_T (push_back sizeof_T alignof_T res mem a v).mem
      (push_back sizeof_T alignof_T res mem a v).arr a.sz_ = some v ∧
    (∀ i, i < a.sz_ →
      index sizeof_T (push_back sizeof_T alignof_T res mem a v).mem
        (push_back sizeof_T alignof_T res mem a v).arr i = index sizeof_T mem a i) := by
  obtain ⟨e1, _, e3, e4, e5⟩ := push_back_ref_effect sizeof_T alignof_T res mem a
    (fun _ => some v) hS hwf hsep hown hfit hok
  exact ⟨e1, e3, e4, e5⟩

theorem push_back_arena (sizeof_T alignof_T : Nat) (res : FixedResource) (mem : Memory T)
    (a : DynArray T) (v : T) (hinv : inv a)
    (hsmall : 2 * a.sz_ < SIZE_MOD) (hs : res.sane) (hown : owns sizeof_T res a)
    (hfit : a.sz_ ≥ a.cap_ → res.op_ok
      (.allocate (umul (if a.cap_ = 0 then 1 else umul a.cap_ 2) sizeof_T) alignof_T) = true)
    (hok : (push_back sizeof_T alignof_T res mem a v).ok = true) :
    (push_back sizeof_T alignof_T res mem a v).res.sane ∧
    owns sizeof_T (push_back sizeof_T alignof_T res mem a v).res
      (push_back sizeof_T alignof_T res mem a v).arr ∧
    inv (push_back sizeof_T alignof_T res mem a v).arr :=
  push_back_ref_arena sizeof_T alignof_T res mem a (fun _ => some v) hinv hsmall hs hown hfit hok

theorem cap_after_spec (k : Nat) (hk : 1 ≤ k) :
    ∃ j, cap_after k = 2 ^ j ∧ k ≤ 2 ^ j ∧ 2 ^ j < 2 * k := by
  induction k with
  | zero => omega
  | succ k ih =>
    by_cases h0 : k = 0
    · subst h0
      exact ⟨0, by simp [cap_after], by simp, by simp⟩
    · obtain ⟨j, hj, hle, hlt⟩ := ih (by omega)
      by_cases hfull : k < cap_after k
      · refine ⟨j, ?_, ?_, ?_⟩
        · simp only [cap_after, hfull, if_true]
          exact hj
        · rw [hj] at hfull; omega
        · omega
      · have hne : ¬ cap_after k = 0 := by
          rw [hj]; exact Nat.pos_iff_ne_zero.mp (Nat.pos_pow_of_pos j (by norm_num))
        refine ⟨j + 1, ?_, ?_, ?_⟩
        · simp only [cap_after, hfull, hne, if_false]
          rw [hj, pow_succ]; omega
        · rw [pow_succ]; omega
        · rw [pow_succ]; rw [hj] at hfull; omega

theorem cap_after_le (k : Nat) : cap_after k ≤ 2 * k := by
  by_cases hk : 1 ≤ k
  · obtain ⟨j, hj, _, hlt⟩ := cap_after_spec k hk
    omega
  · have : k = 0 := by omega
    subst this
    simp [cap_after]

theorem pow2_least (j k : Nat) (hlt : 2 ^ j < 2 * k) (m : Nat) (hm : k ≤ 2 ^ m) :
    2 ^ j ≤ 2 ^ m := by
  by_contra hcon
  have hmj : m < j := by
    by_contra h
    exact hcon (Nat.pow_le_pow_right (by norm_num) (Nat.le_of_not_lt h))
  have : 2 ^ (m + 1) ≤ 2 ^ j := Nat.pow_le_pow_right (by norm_num) hmj
  rw [pow_succ] at this
  omega

/-- The request of `grow()` for an array whose capacity follows the growth
policy, with room for one more element within `2^62` bytes, is admissible on a
resource in working order. -/
theorem grow_fits (sizeof_T alignof_T : Nat) (res : FixedResource) (a : DynArray T)
    (hs : res.sane) (hp : FixedResource.pow2 alignof_T) (hal : alignof_T ≤ 2 ^ 62)
    (hsz : a.cap_ ≤ a.sz_) (hbound : (a.sz_ + 1) * sizeof_T ≤ 2 ^ 62) :
    res.op_ok
      (.allocate (umul (if a.cap_ = 0 then 1 else umul a.cap_ 2) sizeof_T) alignof_T) = true := by
  apply FixedResource.sane_op_ok res _ alignof_T hs hp hal
  have h1 : a.cap_ * sizeof_T ≤ a.sz_ * sizeof_T := Nat.mul_le_mul_right _ hsz
  have h2 : (a.sz_ + 1) * sizeof_T = a.sz_ * sizeof_T + sizeof_T := by ring
  have hmod : ∀ x, x % SIZE_MOD ≤ x := fun x => Nat.mod_le x SIZE_MOD
  by_cases h0 : a.cap_ = 0
  · simp only [h0, if_true, umul, Nat.one_mul]
    have := hmod sizeof_T
    omega
  · simp only [h0, if_false, umul]
    have e1 := hmod (a.cap_ * 2 % SIZE_MOD * sizeof_T)
    have e2 : a.cap_ * 2 % SIZE_MOD * sizeof_T ≤ a.cap_ * 2 * sizeof_T :=
      Nat.mul_le_mul_right _ (hmod _)
    have e3 : a.cap_ * 2 * sizeof_T = 2 * (a.cap_ * sizeof_T) := by ring
    omega

/-- What a run of pushes that all return normally leaves behind, from an array
that holds its block on a resource in working order and whose capacity follows
the growth policy. -/
theorem push_all_spec (sizeof_T alignof_T : Nat) (hS : 0 < sizeof_T)
    (hp : FixedResource.pow2 alignof_T) (hal : alignof_T ≤ 2 ^ 62) (vs : List T) :
    ∀ (res : FixedResource) (mem : Memory T) (a : DynArray T), res.sane → inv a →
      owns sizeof_T res a → a.cap_ = cap_after a.sz_ →
      (a.sz_ + vs.length) * sizeof_T ≤ 2 ^ 62 →
      (push_all sizeof_T alignof_T res mem a vs).ok = true →
      (push_all sizeof_T alignof_T res mem a vs).arr.sz_ = a.sz_ + vs.length ∧
      (push_all sizeof_T alignof_T res mem a vs).arr.cap_ = cap_after (a.sz_ + vs.length) ∧
      (∀ i, i < a.sz_ →
        index sizeof_T (push_all sizeof_T alignof_T res mem a vs).mem
          (push_all sizeof_T alignof_T res mem a vs).arr i = index sizeof_T mem a i) ∧
      (∀ i, i < vs.length →
        index sizeof_T (push_all sizeof_T alignof_T res mem a vs).mem
          (push_all sizeof_T alignof_T res mem a vs).arr (a.sz_ + i) = vs[i]?) := by
  induction vs with
  | nil =>
    intro res mem a _ _ _ hcap _ _
    have hpa : push_all sizeof_T alignof_T res mem a [] = ⟨true, res, mem, a⟩ := rfl
    rw [hpa]
    exact ⟨rfl, hcap, fun _ _ => rfl, fun i hi => absurd hi (Nat.not_lt_zero i)⟩
  | cons v vs ih =>
    intro res mem a hs hinv hown hcap hbound hok
    simp only [List.length_cons] at hbound
    have hb1 : (a.sz_ + 1) * sizeof_T ≤ (a.sz_ + (vs.length + 1)) * sizeof_T :=
      Nat.mul_le_mul_right _ (by omega)
    have hb2 : a.sz_ + 1 ≤ (a.sz_ + 1) * sizeof_T := Nat.le_mul_of_pos_right _ hS
    have hsmall : 2 * a.sz_ < SIZE_MOD := by unfold SIZE_MOD; omega
    have hwf : wf a := ⟨hinv.1, hsmall⟩
    have hfit : a.sz_ ≥ a.cap_ → res.op_ok
        (.allocate (umul (if a.cap_ = 0 then 1 else umul a.cap_ 2) sizeof_T) alignof_T) =
          true :=
      fun hfull => grow_fits sizeof_T alignof_T res a hs hp hal hfull (by omega)
    have hpb : (push_back sizeof_T alignof_T res mem a v).ok = true := by
      cases h : (push_back sizeof_T alignof_T res mem a v).ok
      · simp [push_all, h] at hok
      · rfl
    have hstep : push_all sizeof_T alignof_T res mem a (v :: vs) =
        push_all sizeof_T alignof_T (push_back sizeof_T alignof_T res mem a v).res
          (push_back sizeof_T alignof_T res mem a v).mem
          (push_back sizeof_T alignof_T res mem a v).arr vs := by
      simp [push_all, hpb]
    obtain ⟨e1, e3, e4, e5⟩ := push_back_effect sizeof_T alignof_T res mem a
      v hS hwf hs.2.2.2 hown hfit hpb
    obtain ⟨a1, a2, a3⟩ := push_back_arena sizeof_T alignof_T res mem a
      v hinv hsmall hs hown hfit hpb
    have hcap1 : (push_back sizeof_T alignof_T res mem a v).arr.cap_ =
        cap_after (push_back sizeof_T alignof_T res mem a v).arr.sz_ := by
      rw [e3, e1]
      simp only [cap_after, ← hcap]
    have hsz1 : (push_back sizeof_T alignof_T res mem a v).arr.sz_ = a.sz_ + 1 := e1
    rw [hstep] at hok ⊢
    obtain ⟨f1, f3, f5, f6⟩ := ih _ _ _ a1 a3 a2 hcap1
      (by rw [hsz1]; have : a.sz_ + 1 + vs.length = a.sz_ + (vs.length + 1) := by omega
          rw [this]; exact hbound) hok
    rw [hsz1] at f1 f3 f5 f6
    refine ⟨by rw [f1, List.length_cons]; omega,
      by rw [f3, List.length_cons]; congr 1; omega, ?_, ?_⟩
    · intro i hi
      rw [f5 i (by omega)]
      exact e5 i hi
    · intro i hi
      cases i with
      | zero =>
        rw [Nat.add_zero, f5 a.sz_ (by omega)]
        simp only [List.getElem?_cons_zero]
        exact e4
      | succ i =>
        simp only [List.length_cons] at hi
        have := f6 i (by omega)
        have hidx : a.sz_ + (i + 1) = a.sz_ + 1 + i := by omega
        rw [hidx, this]
        simp

theorem push_all_take_ok (sizeof_T alignof_T : Nat) (vs : List T) :
    ∀ (k : Nat) (res : FixedResource) (mem : Memory T) (a : DynArray T),
      (push_all sizeof_T alignof_T res mem a vs).ok = true →
      (push_all sizeof_T alignof_T res mem a (vs.take k)).ok = true := by
  induction vs with
  | nil => intro k res mem a h; simpa using h
  | cons v vs ih =>
    intro k res mem a h
    cases k with
    | zero => simp [push_all]
    | succ k =>
      have hpb : (push_back sizeof_T alignof_T res mem a v).ok = true := by
        cases h' : (push_back sizeof_T alignof_T res mem a v).ok
        · simp [push_all, h'] at h
        · rfl
      simp only [List.take_succ_cons, push_all, hpb, if_true] at h ⊢
      exact ih k _ _ _ h

theorem iterate_eq (sizeof_T : Nat) (mem : Memory T) (a : DynArray T) (vs : List T)
    (hsz : a.sz_ = vs.length)
    (h : ∀ i, i < vs.length → index sizeof_T mem a i = vs[i]?) :
    iterate sizeof_T mem a = vs.map some := by
  unfold iterate
  apply List.ext_getElem?
  intro i
  by_cases hi : i < vs.length
  · have hi' : i < a.sz_ := by omega
    simp [List.getElem?_map, List.getElem?_range, hi, hi', h i hi]
  · have hi' : ¬ i < a.sz_ := by omega
    have h1 : vs[i]? = none := List.getElem?_eq_none (by omega)
    have h2 : (List.range a.sz_)[i]? = none := List.getElem?_eq_none (by simp; omega)
    simp [List.getElem?_map, h1, h2]

theorem inv_create (alloc : Nat) : inv (create alloc : DynArray T) :=
  ⟨Nat.le_refl _, Iff.rfl⟩

/-- C11. Growth sequence. Let the resource be in working order (non-null
buffer of at most `2^62` bytes, bump offset within the capacity, separated
records), the element type have a positive size and a power-of-two alignment of
at most `2^62`, and the `n` values take at most `2^62` bytes. When they are
pushed one by one into a freshly constructed array and every push returns
normally, then after the `k`-th push the capacity is the smallest power of two
that is at least `k`, the final size is `n`, and indexing `0 .. n-1`, as well as
iterating from `begin()` to `end()`, reads the values in insertion order. For
`n = 10` the capacities after the pushes are `1, 2, 4, 4, 8, 8, 8, 8, 16, 16`,
so the growth events show `1, 2, 4, 8, 16`. -/
theorem growth_sequence (sizeof_T alignof_T : Nat) (res : FixedResource) (mem : Memory T)
    (alloc : Nat) (vs : List T) (hS : 0 < sizeof_T) (hp : FixedResource.pow2 alignof_T)
    (hal : alignof_T ≤ 2 ^ 62) (hs : res.sane) (hlen : vs.length * sizeof_T ≤ 2 ^ 62)
    (hok : (push_all sizeof_T alignof_T res mem (create alloc) vs).ok = true) :
    (∀ k, 1 ≤ k → k ≤ vs.length →
      (push_all sizeof_T alignof_T res mem (create alloc) (vs.take k)).ok = true ∧
      ∃ j, capacity (push_all sizeof_T alignof_T res mem (create alloc) (vs.take k)).arr =
          2 ^ j ∧
        k ≤ 2 ^ j ∧ ∀ m, k ≤ 2 ^ m → 2 ^ j ≤ 2 ^ m) ∧
    size (push_all sizeof_T alignof_T res mem (create alloc) vs).arr = vs.length ∧
    (∀ i, i < vs.length →
      index sizeof_T (push_all sizeof_T alignof_T res mem (create alloc) vs).mem
        (push_all sizeof_T alignof_T res mem (create alloc) vs).arr i = vs[i]?) ∧
    iterate sizeof_T (push_all sizeof_T alignof_T res mem (create alloc) vs).mem
      (push_all sizeof_T alignof_T res mem (create alloc) vs).arr = vs.map some ∧
    (vs.length = 10 →
      (List.range' 1 10).map (fun k =>
        capacity (push_all sizeof_T alignof_T res mem (create alloc) (vs.take k)).arr) =
          [1, 2, 4, 4, 8, 8, 8, 8, 16, 16] ∧
      growth_events 0 ((List.range' 1 10).map (fun k =>
        capacity (push_all sizeof_T alignof_T res mem (create alloc) (vs.take k)).arr)) =
          [1, 2, 4, 8, 16]) := by
  have hown0 : owns sizeof_T res (create alloc : DynArray T) := Or.inl rfl
  have hcaps : ∀ k, k ≤ vs.length →
      (push_all sizeof_T alignof_T res mem (create alloc) (vs.take k)).ok = true ∧
      (push_all sizeof_T alignof_T res mem (create alloc) (vs.take k)).arr.cap_ =
        cap_after k := by
    intro k hk
    have hokk := push_all_take_ok sizeof_T alignof_T vs k res mem (create alloc) hok
    have hlk : (vs.take k).length = k := by simp; omega
    have hbk : ((create alloc : DynArray T).sz_ + (vs.take k).length) * sizeof_T ≤ 2 ^ 62 := by
      rw [hlk]
      have : (0 + k) * sizeof_T ≤ vs.length * sizeof_T :=
        Nat.mul_le_mul_right _ (by omega)
      exact Nat.le_trans this hlen
    obtain ⟨_, h3, _⟩ := push_all_spec sizeof_T alignof_T hS hp hal (vs.take k) res mem
      (create alloc) hs (inv_create alloc) hown0 rfl hbk hokk
    rw [hlk] at h3
    simp only [create, Nat.zero_add] at h3
    exact ⟨hokk, h3⟩
  obtain ⟨g1, _, _, g6⟩ := push_all_spec sizeof_T alignof_T hS hp hal vs res mem
    (create alloc) hs (inv_create alloc) hown0 rfl
    (by simp only [create, Nat.zero_add]; exact hlen) hok
  have hsize : (push_all sizeof_T alignof_T res mem (create alloc) vs).arr.sz_ = vs.length := by
    rw [g1]; simp [create]
  have hidx : ∀ i, i < vs.length →
      index sizeof_T (push_all sizeof_T alignof_T res mem (create alloc) vs).mem
        (push_all sizeof_T alignof_T res mem (create alloc) vs).arr i = vs[i]? := by
    intro i hi
    have := g6 i hi
    simp only [create, Nat.zero_add] at this
    exact this
  refine ⟨?_, hsize, hidx, iterate_eq _ _ _ vs hsize hidx, ?_⟩
  · intro k hk1 hk2
    obtain ⟨hokk, hcapk⟩ := hcaps k hk2
    obtain ⟨j, hj, hle, hlt⟩ := cap_after_spec k hk1
    exact ⟨hokk, j, by simp only [capacity]; rw [hcapk, hj], hle, pow2_least j k hlt⟩
  · intro h10
    have htrace : (List.range' 1 10).map (fun k =>
        capacity (push_all sizeof_T alignof_T res mem (create alloc) (vs.take k)).arr) =
          (List.range' 1 10).map cap_after := by
      apply List.map_congr_left
      intro k hk
      have hk' : k ≤ vs.length := by
        rw [h10]
        simp [List.mem_range'] at hk
        omega
      exact (hcaps k hk').2
    rw [htrace]
    exact ⟨by decide, by decide⟩

/-- C11 on the ten squares pushed by the demonstration program into a
`DynArray<int>` on a fresh 4096-byte resource. -/
theorem growth_sequence_witness :
    size (push_all 4 4 (FixedResource.create 4096 4096 true) (fun _ => none) (create 1)
      [0, 1, 4, 9, 16, 25, 36, 49, 64, 81]).arr = 10 ∧
    iterate 4 (push_all 4 4 (FixedResource.create 4096 4096 true) (fun _ => none) (create 1)
      [0, 1, 4, 9, 16, 25, 36, 49, 64, 81]).mem
      (push_all 4 4 (FixedResource.create 4096 4096 true) (fun _ => none) (create 1)
      [0, 1, 4, 9, 16, 25, 36, 49, 64, 81]).arr =
        [0, 1, 4, 9, 16, 25, 36, 49, 64, 81].map some ∧
    growth_events 0 ((List.range' 1 10).map (fun k =>
      capacity (push_all 4 4 (FixedResource.create 4096 4096 true) (fun _ => none) (create 1)
        (([0, 1, 4, 9, 16, 25, 36, 49, 64, 81] : List Nat).take k)).arr)) =
          [1, 2, 4, 8, 16] :=
  have h := growth_sequence 4 4 (FixedResource.create 4096 4096 true) (fun _ => none) 1
    ([0, 1, 4, 9, 16, 25, 36, 49, 64, 81] : List Nat) (by decide) (by decide) (by decide)
    (by unfold FixedResource.sane FixedResource.separated FixedResource.ranges_disjoint; decide)
    (by decide) (by decide)
  ⟨h.2.1, h.2.2.2.1, (h.2.2.2.2 rfl).2⟩

end DynArray

namespace DynArray

variable {T : Type}

/-! Reserve -/

/-- C12 as stated fails. A client holds a zero-size allocation at
`4096`; the first `push_back` of an array then gets the 4-byte block at the
same address `4096`. `reserve(2)` returns normally with capacity `2`, but
`deallocate(4096)` moves the first record with that address, the zero-size
one: the array's previous block `{4096, 4, 4}` is still in the used list and
not in the free list. -/
theorem reserve_contract_counterexample :
    (push_back 4 4 ((FixedResource.create 4096 1024 true).apply_op (.allocate 0 4))
      (fun _ => none) (create 1 : DynArray Nat) 1).ok = true ∧
    (push_back 4 4 ((FixedResource.create 4096 1024 true).apply_op (.allocate 0 4))
      (fun _ => none) (create 1 : DynArray Nat) 1).arr = ⟨1, 4096, 1, 1⟩ ∧
    (push_back 4 4 ((FixedResource.create 4096 1024 true).apply_op (.allocate 0 4))
      (fun _ => none) (create 1 : DynArray Nat) 1).res =
        ⟨4096, 1024, 4, [⟨4096, 0, 4⟩, ⟨4096, 4, 4⟩], [], true⟩ ∧
    (reserve 4 4 ⟨4096, 1024, 4, [⟨4096, 0, 4⟩, ⟨4096, 4, 4⟩], [], true⟩
      (fun p => if p = 4096 then some 1 else none) (⟨1, 4096, 1, 1⟩ : DynArray Nat) 2).ok =
        true ∧
    (reserve 4 4 ⟨4096, 1024, 4, [⟨4096, 0, 4⟩, ⟨4096, 4, 4⟩], [], true⟩
      (fun p => if p = 4096 then some 1 else none) (⟨1, 4096, 1, 1⟩ : DynArray Nat) 2).arr =
        ⟨1, 4100, 1, 2⟩ ∧
    (reserve 4 4 ⟨4096, 1024, 4, [⟨4096, 0, 4⟩, ⟨4096, 4, 4⟩], [], true⟩
      (fun p => if p = 4096 then some 1 else none) (⟨1, 4096, 1, 1⟩ : DynArray Nat) 2).res =
        ⟨4096, 1024, 12, [⟨4096, 4, 4⟩, ⟨4100, 8, 4⟩], [⟨4096, 0, 4⟩], true⟩ ∧
    (⟨4096, 4, 4⟩ : FixedResource.Block) ∈
      (reserve 4 4 ⟨4096, 1024, 4, [⟨4096, 0, 4⟩, ⟨4096, 4, 4⟩], [], true⟩
        (fun p => if p = 4096 then some 1 else none) (⟨1, 4096, 1, 1⟩ : DynArray Nat) 2).res.used_ ∧
    (⟨4096, 4, 4⟩ : FixedResource.Block) ∉
      (reserve 4 4 ⟨4096, 1024, 4, [⟨4096, 0, 4⟩, ⟨4096, 4, 4⟩], [], true⟩
        (fun p => if p = 4096 then some 1 else none) (⟨1, 4096, 1, 1⟩ : DynArray Nat) 2).res.free_ := by
  refine ⟨by decide, by decide, by decide, by decide, by decide, by decide, by decide, by decide⟩

/-- C12, amended. `reserve(n)` with `n ≤ capacity` changes neither the array,
nor the resource, nor the storage. Let the array satisfy its representation
invariant and, when it has a block, let the used list of a resource with
separated records hold exactly one record at the address of that block, large
enough for the `capacity` cells. With `n > capacity` and a successful
allocation of `n` elements whose request has a power-of-two alignment and does
not wrap around, the capacity becomes exactly `n`, size and live elements are
unchanged, the array points at the newly allocated block, whose record is in
the used list, and the record of the previous block (if the array had one) has
moved from the used list to the end of the free list, so that no used record
has the old address any more; the release acts on the resource state left by
the allocation, that is, the new block is requested first. When the allocation
throws, array and storage are unchanged. -/
theorem reserve_contract (sizeof_T alignof_T : Nat) (res : FixedResource) (mem : Memory T)
    (a : DynArray T) (n : Nat) (hS : 0 < sizeof_T) (hinv : inv a) (hsep : res.separated)
    (hown : a.data_ ≠ 0 → ∃ pre b post, res.used_ = pre ++ b :: post ∧ b.p = a.data_ ∧
      a.cap_ * sizeof_T ≤ b.sz ∧ ∀ x ∈ pre ++ post, x.p ≠ a.data_)
    (hfit : n > a.cap_ → res.op_ok (.allocate (umul n sizeof_T) alignof_T) = true) :
    (n ≤ a.cap_ → reserve sizeof_T alignof_T res mem a n = ⟨true, res, mem, a⟩) ∧
    (n > a.cap_ → ∀ nd res1, polymorphic_allocate res sizeof_T alignof_T n = (some nd, res1) →
      (reserve sizeof_T alignof_T res mem a n).ok = true ∧
      capacity (reserve sizeof_T alignof_T res mem a n).arr = n ∧
      size (reserve sizeof_T alignof_T res mem a n).arr = size a ∧
      (∀ i, i < size a →
        index sizeof_T (reserve sizeof_T alignof_T res mem a n).mem
          (reserve sizeof_T alignof_T res mem a n).arr i = index sizeof_T mem a i) ∧
      (reserve sizeof_T alignof_T res mem a n).arr.data_ = nd ∧
      (reserve sizeof_T alignof_T res mem a n).arr.alloc_ = a.alloc_ ∧
      (∃ nb : FixedResource.Block, nb.p = nd ∧ n * sizeof_T ≤ nb.sz ∧
        res1.used_ = res.used_ ++ [nb] ∧
        nb ∈ (reserve sizeof_T alignof_T res mem a n).res.used_ ∧
        (a.data_ = 0 → (reserve sizeof_T alignof_T res mem a n).res = res1) ∧
        (a.data_ ≠ 0 → ∃ pre b post, res.used_ = pre ++ b :: post ∧ b.p = a.data_ ∧
          a.cap_ * sizeof_T ≤ b.sz ∧ (∀ x ∈ pre ++ post, x.p ≠ a.data_) ∧
          (reserve sizeof_T alignof_T res mem a n).res =
            { res1 with used_ := pre ++ post ++ [nb], free_ := res1.free_ ++ [b] } ∧
          ∀ x ∈ (reserve sizeof_T alignof_T res mem a n).res.used_, x.p ≠ a.data_)) ∧
      (reserve sizeof_T alignof_T res mem a n).res =
        (if a.data_ ≠ 0 then polymorphic_deallocate res1 sizeof_T alignof_T a.data_ a.cap_
         else res1)) ∧
    (n > a.cap_ → (polymorphic_allocate res sizeof_T alignof_T n).1 = none →
      (reserve sizeof_T alignof_T res mem a n).ok = false ∧
      (reserve sizeof_T alignof_T res mem a n).arr = a ∧
      (reserve sizeof_T alignof_T res mem a n).mem = mem) := by
  have hown' : owns sizeof_T res a := by
    by_cases hd : a.data_ = 0
    · exact Or.inl (hinv.2.mpr hd)
    · obtain ⟨pre, b, post, hl, hbp, hbsz, _⟩ := hown hd
      exact Or.inr ⟨b, by rw [hl]; simp, hbp, hbsz⟩
  refine ⟨fun hle => reserve_skip sizeof_T alignof_T res mem a n hle, ?_, ?_⟩
  · intro hn nd res1 halloc
    have heq := reserve_eq sizeof_T alignof_T res mem a n hn nd res1 halloc
    obtain ⟨hle, hdo⟩ := polymorphic_allocate_some res sizeof_T alignof_T n nd res1 halloc
    have hbytes := umul_eq n sizeof_T hle
    obtain ⟨nb, hnbp, hnbsz, _, hused, _⟩ :=
      FixedResource.do_allocate_some res _ alignof_T nd res1 hdo
    obtain ⟨hm1, _⟩ := reserve_mem sizeof_T alignof_T res mem a n hS hinv.1 hsep hown' hn
      (hfit hn) nd res1 halloc
    have hapart := reserve_block_apart sizeof_T alignof_T res a n hsep hown' (hfit hn)
      nd res1 halloc
    have hmoved : a.data_ ≠ 0 → ∃ pre b post, res.used_ = pre ++ b :: post ∧ b.p = a.data_ ∧
        a.cap_ * sizeof_T ≤ b.sz ∧ (∀ x ∈ pre ++ post, x.p ≠ a.data_) ∧
        res1.do_deallocate a.data_ (umul a.cap_ sizeof_T) alignof_T =
          { res1 with used_ := pre ++ post ++ [nb], free_ := res1.free_ ++ [b] } ∧
        nd ≠ a.data_ := by
      intro hd
      obtain ⟨pre, b, post, hl, hbp, hbsz, huniq⟩ := hown hd
      refine ⟨pre, b, post, hl, hbp, hbsz, huniq, ?_, ?_⟩
      · have hsplit : res1.used_ = pre ++ b :: (post ++ [nb]) := by
          rw [hused, hl]; simp
        have hpre : ∀ x ∈ pre, (fun c : FixedResource.Block => decide (c.p = a.data_)) x = false := by
          intro x hx
          simpa using huniq x (List.mem_append_left _ hx)
        unfold FixedResource.do_deallocate
        rw [hsplit, FixedResource.take_first_append _ pre (post ++ [nb]) b hpre
          (by simpa using hbp)]
        simp
      · have hcpos : 0 < a.cap_ := by
          rcases Nat.eq_zero_or_pos a.cap_ with h0 | h0
          · exact absurd (hinv.2.mp h0) hd
          · exact h0
        have h1 : 0 < a.cap_ * sizeof_T := Nat.mul_pos hcpos hS
        have h2 : a.cap_ * sizeof_T < n * sizeof_T := Nat.mul_lt_mul_of_pos_right hn hS
        rcases hapart with h | h | h <;> omega
    refine ⟨by rw [heq], by rw [heq]; rfl, by rw [heq]; rfl, ?_, by rw [heq],
      by rw [heq], ⟨nb, hnbp, by omega, hused, ?_, ?_, ?_⟩, by rw [heq]⟩
    · intro i hi
      have := hm1 i hi
      simp only [index]
      rw [heq] at this ⊢
      exact this
    · rw [heq]
      by_cases hd : a.data_ = 0
      · simp only [hd, ne_eq, not_true_eq_false, if_false, hused]
        simp
      · obtain ⟨pre, b, post, _, _, _, _, hde, _⟩ := hmoved hd
        simp only [ne_eq, hd, not_false_eq_true, if_true, polymorphic_deallocate, hde]
        simp
    · intro hd
      rw [heq]
      simp [hd]
    · intro hd
      obtain ⟨pre, b, post, hl, hbp, hbsz, huniq, hde, hne⟩ := hmoved hd
      refine ⟨pre, b, post, hl, hbp, hbsz, huniq, ?_, ?_⟩
      · rw [heq]
        simp only [ne_eq, hd, not_false_eq_true, if_true, polymorphic_deallocate, hde]
      · rw [heq]
        simp only [ne_eq, hd, not_false_eq_true, if_true, polymorphic_deallocate, hde]
        intro x hx
        rcases List.mem_append.mp hx with hx' | hx'
        · exact huniq x hx'
        · have : x = nb := by simpa using hx'
          rw [this, hnbp]
          exact hne
  · intro hn hnone
    rcases hres : polymorphic_allocate res sizeof_T alignof_T n with ⟨ptr, res1⟩
    rw [hres] at hnone
    simp only at hnone
    subst hnone
    rw [reserve_fail sizeof_T alignof_T res mem a n hn res1 hres]
    exact ⟨rfl, rfl, rfl⟩

/-- C12, amended, on a full two-element `DynArray<int>` whose block is the only used
record: `reserve(5)` takes a new 20-byte block at the bump offset, frees the old
one and keeps the elements `10`, `20`. -/
theorem reserve_contract_witness :
    (reserve 4 4 ⟨4096, 4096, 8, [⟨4096, 8, 4⟩], [], true⟩
        (fun p => if p = 4096 then some 10 else if p = 4100 then some 20 else none)
        (⟨1, 4096, 2, 2⟩ : DynArray Nat) 5).res =
      ⟨4096, 4096, 28, [⟨4104, 20, 4⟩], [⟨4096, 8, 4⟩], true⟩ ∧
    (reserve 4 4 ⟨4096, 4096, 8, [⟨4096, 8, 4⟩], [], true⟩
        (fun p => if p = 4096 then some 10 else if p = 4100 then some 20 else none)
        (⟨1, 4096, 2, 2⟩ : DynArray Nat) 5).arr = ⟨1, 4104, 2, 5⟩ ∧
    capacity (reserve 4 4 ⟨4096, 4096, 8, [⟨4096, 8, 4⟩], [], true⟩
        (fun p => if p = 4096 then some 10 else if p = 4100 then some 20 else none)
        (⟨1, 4096, 2, 2⟩ : DynArray Nat) 5).arr = 5 ∧
    index 4 (reserve 4 4 ⟨4096, 4096, 8, [⟨4096, 8, 4⟩], [], true⟩
        (fun p => if p = 4096 then some 10 else if p = 4100 then some 20 else none)
        (⟨1, 4096, 2, 2⟩ : DynArray Nat) 5).mem
      (reserve 4 4 ⟨4096, 4096, 8, [⟨4096, 8, 4⟩], [], true⟩
        (fun p => if p = 4096 then some 10 else if p = 4100 then some 20 else none)
        (⟨1, 4096, 2, 2⟩ : DynArray Nat) 5).arr 1 =
      index 4 (fun p => if p = 4096 then some 10 else if p = 4100 then some 20 else none)
        (⟨1, 4096, 2, 2⟩ : DynArray Nat) 1 :=
  have h := (reserve_contract 4 4 ⟨4096, 4096, 8, [⟨4096, 8, 4⟩], [], true⟩
      (fun p => if p = 4096 then some 10 else if p = 4100 then some 20 else none)
      (⟨1, 4096, 2, 2⟩ : DynArray Nat) 5 (by decide) (by unfold inv; decide)
      (by unfold FixedResource.separated FixedResource.ranges_disjoint; decide)
      (fun _ => ⟨[], ⟨4096, 8, 4⟩, [], rfl, rfl, by decide, by simp⟩)
      (fun _ => by decide)).2.1 (by decide) 4104
      ⟨4096, 4096, 28, [⟨4096, 8, 4⟩, ⟨4104, 20, 4⟩], [], true⟩ (by decide)
  ⟨by decide, by decide, h.2.1, h.2.2.2.1 1 (by decide)⟩

end DynArray

namespace DynArray

variable {T : Type}

/-! Clear and checked access -/

/-- C13. `clear()` retains the storage: afterwards `size()` is `0` and
`empty()` holds, every formerly live cell is destroyed, capacity, block address
and allocator are what they were, and the resource (bump offset, used list,
free list) is untouched. -/
theorem clear_retains_storage (sizeof_T alignof_T : Nat) (res : FixedResource)
    (mem : Memory T) (a : DynArray T) :
    apply_aop sizeof_T alignof_T res mem a AOp.clear =
      ⟨true, res, (clear sizeof_T mem a).1, (clear sizeof_T mem a).2⟩ ∧
    size (clear sizeof_T mem a).2 = 0 ∧ empty (clear sizeof_T mem a).2 = true ∧
    capacity (clear sizeof_T mem a).2 = capacity a ∧
    (clear sizeof_T mem a).2.data_ = a.data_ ∧
    (clear sizeof_T mem a).2.alloc_ = a.alloc_ ∧
    (∀ i, i < size a →
      index sizeof_T (clear sizeof_T mem a).1 (clear sizeof_T mem a).2 i = none) ∧
    (apply_aop sizeof_T alignof_T res mem a AOp.clear).res.off_ = res.off_ ∧
    (apply_aop sizeof_T alignof_T res mem a AOp.clear).res.used_ = res.used_ ∧
    (apply_aop sizeof_T alignof_T res mem a AOp.clear).res.free_ = res.free_ := by
  refine ⟨rfl, rfl, rfl, rfl, rfl, rfl, ?_, rfl, rfl, rfl⟩
  intro i hi
  show destroy_cells sizeof_T a.data_ 0 a.sz_ mem (a.data_ + i * sizeof_T) = none
  exact (destroy_cells_spec sizeof_T a.data_ a.sz_ 0 mem).1 i (Nat.zero_le _)
    (by simpa [size] using hi)

/-- C14. Bounds-checked access: `at(i)` throws exactly when `i ≥ size()`,
otherwise it yields the element `data_[i]`; array and storage are the same
afterwards in both cases; an index in `[size, capacity)` throws although
storage exists there. -/
theorem at_bounds (sizeof_T : Nat) (mem : Memory T) (a : DynArray T) (i : Nat) :
    ((at_ sizeof_T mem a i).1 = none ↔ i ≥ size a) ∧
    (i < size a → (at_ sizeof_T mem a i).1 = some (index sizeof_T mem a i)) ∧
    (at_ sizeof_T mem a i).2 = (mem, a) ∧
    (size a ≤ i → i < capacity a → (at_ sizeof_T mem a i).1 = none) := by
  have hthrow : i ≥ a.sz_ → at_ sizeof_T mem a i = (none, mem, a) := by
    intro h; unfold at_; simp only [h, if_true]
  have hget : i < a.sz_ → at_ sizeof_T mem a i = (some (index sizeof_T mem a i), mem, a) := by
    intro h
    have : ¬ i ≥ a.sz_ := Nat.not_le.mpr h
    unfold at_; simp only [this, if_false]
  refine ⟨⟨?_, fun h => by rw [hthrow h]⟩, fun h => by rw [hget h], ?_,
    fun h _ => by rw [hthrow h]⟩
  · intro h
    by_contra hlt
    rw [hget (Nat.lt_of_not_ge hlt)] at h
    simp at h
  · by_cases h : i ≥ a.sz_
    · rw [hthrow h]
    · rw [hget (Nat.lt_of_not_ge h)]

/-- C14 on the array of the test `At`: one element `42`, capacity `1`;
`at(0)` yields it, `at(1)` throws. A second array has size `1` in a block of
capacity `2`: `at(1)` throws inside the block. -/
theorem at_bounds_witness :
    (at_ 4 (push_back 4 4 (FixedResource.create 4096 4096 true) (fun _ => none)
        (create 1 : DynArray Nat) 42).mem
      (push_back 4 4 (FixedResource.create 4096 4096 true) (fun _ => none)
        (create 1 : DynArray Nat) 42).arr 0).1 =
      some (index 4 (push_back 4 4 (FixedResource.create 4096 4096 true) (fun _ => none)
        (create 1 : DynArray Nat) 42).mem
      (push_back 4 4 (FixedResource.create 4096 4096 true) (fun _ => none)
        (create 1 : DynArray Nat) 42).arr 0) ∧
    index 4 (push_back 4 4 (FixedResource.create 4096 4096 true) (fun _ => none)
        (create 1 : DynArray Nat) 42).mem
      (push_back 4 4 (FixedResource.create 4096 4096 true) (fun _ => none)
        (create 1 : DynArray Nat) 42).arr 0 = some 42 ∧
    (at_ 4 (push_back 4 4 (FixedResource.create 4096 4096 true) (fun _ => none)
        (create 1 : DynArray Nat) 42).mem
      (push_back 4 4 (FixedResource.create 4096 4096 true) (fun _ => none)
        (create 1 : DynArray Nat) 42).arr 1).1 = none ∧
    (at_ 4 (fun p => if p = 4100 then some 7 else none) (⟨1, 4100, 1, 2⟩ : DynArray Nat) 1).1 =
      none :=
  ⟨(at_bounds 4 (push_back 4 4 (FixedResource.create 4096 4096 true) (fun _ => none)
        (create 1 : DynArray Nat) 42).mem
      (push_back 4 4 (FixedResource.create 4096 4096 true) (fun _ => none)
        (create 1 : DynArray Nat) 42).arr 0).2.1 (by decide),
   by decide,
   (at_bounds 4 (push_back 4 4 (FixedResource.create 4096 4096 true) (fun _ => none)
        (create 1 : DynArray Nat) 42).mem
      (push_back 4 4 (FixedResource.create 4096 4096 true) (fun _ => none)
        (create 1 : DynArray Nat) 42).arr 1).1.mpr (by decide),
   (at_bounds 4 (fun p => if p = 4100 then some 7 else none)
      (⟨1, 4100, 1, 2⟩ : DynArray Nat) 1).2.2.2 (by decide) (by decide)⟩

end DynArray

namespace DynArray

variable {T : Type}

/-! Copying -/

theorem push_back_ref_no_grow (sizeof_T alignof_T : Nat) (res : FixedResource)
    (mem : Memory T) (a : DynArray T) (src : Memory T → Option T) (h : a.sz_ < a.cap_) :
    push_back_ref sizeof_T alignof_T res mem a src =
      ⟨true, res, Memory.construct sizeof_T mem (a.data_ + a.sz_ * sizeof_T) (src mem),
       { a with sz_ := uadd a.sz_ 1 }⟩ := by
  unfold push_back_ref
  rw [grow_if_full_skip sizeof_T alignof_T res mem a h]
  simp

/-- The copy loop into a block with room for all its rounds that does not
meet the cells of the source: it returns normally, leaves the resource alone,
fills the cells `i .. i + k - 1` with the objects of the same cells of `o`, and
touches no object outside these cells. -/
theorem copy_elems_spec (sizeof_T alignof_T : Nat) (hS : 0 < sizeof_T) (o : DynArray T)
    (k : Nat) :
    ∀ (i : Nat) (res : FixedResource) (mem : Memory T) (a : DynArray T), a.sz_ = i →
      i + k ≤ a.cap_ → i + k < SIZE_MOD →
      (a.data_ + (i + k) * sizeof_T ≤ o.data_ ∨ o.data_ + (i + k) * sizeof_T ≤ a.data_) →
      (copy_elems sizeof_T alignof_T o i k res mem a).ok = true ∧
      (copy_elems sizeof_T alignof_T o i k res mem a).res = res ∧
      (copy_elems sizeof_T alignof_T o i k res mem a).arr = { a with sz_ := i + k } ∧
      (∀ j, i ≤ j → j < i + k →
        (copy_elems sizeof_T alignof_T o i k res mem a).mem (a.data_ + j * sizeof_T) =
          mem (o.data_ + j * sizeof_T)) ∧
      (∀ q, (q + sizeof_T ≤ a.data_ + i * sizeof_T ∨ a.data_ + (i + k) * sizeof_T ≤ q) →
        (copy_elems sizeof_T alignof_T o i k res mem a).mem q = mem q) := by
  induction k with
  | zero =>
    intro i res mem a hsz _ _ _
    refine ⟨rfl, rfl, ?_, fun j h1 h2 => by omega, fun _ _ => rfl⟩
    show a = { a with sz_ := i + 0 }
    rw [Nat.add_zero, ← hsz]
  | succ k ih =>
    intro i res mem a hsz hcap hbound hdis
    have hpb := push_back_ref_no_grow sizeof_T alignof_T res mem a
      (fun m => m (o.data_ + i * sizeof_T)) (by omega)
    have hadd : uadd a.sz_ 1 = i + 1 := by
      unfold uadd
      unfold SIZE_MOD at hbound ⊢
      omega
    rw [hadd, hsz] at hpb
    have em : (i + 1 + k) * sizeof_T = (i + (k + 1)) * sizeof_T := by
      congr 1; omega
    have e1 : (i + 1) * sizeof_T = i * sizeof_T + sizeof_T := by ring
    have him := mul_step sizeof_T i (i + (k + 1)) (by omega)
    obtain ⟨h0, h1, h2, h3, h4⟩ := ih (i + 1) res
      (Memory.construct sizeof_T mem (a.data_ + i * sizeof_T) (mem (o.data_ + i * sizeof_T)))
      { a with sz_ := i + 1 } rfl (by simp only; omega) (by omega) (by rw [em]; exact hdis)
    simp only at h3 h4
    rw [em] at h4
    rw [e1] at h4
    have hstep : copy_elems sizeof_T alignof_T o i (k + 1) res mem a =
        copy_elems sizeof_T alignof_T o (i + 1) k res
          (Memory.construct sizeof_T mem (a.data_ + i * sizeof_T)
            (mem (o.data_ + i * sizeof_T)))
          { a with sz_ := i + 1 } := by
      simp only [copy_elems, hpb, if_true]
    rw [hstep]
    refine ⟨h0, h1, ?_, ?_, ?_⟩
    · rw [h2]
      show ({ a with sz_ := i + 1 + k } : DynArray T) = { a with sz_ := i + (k + 1) }
      have : i + 1 + k = i + (k + 1) := by omega
      rw [this]
    · intro j hj1 hj2
      have hjm := mul_step sizeof_T j (i + (k + 1)) hj2
      by_cases hji : j = i
      · subst hji
        rw [h4 _ (Or.inl (by omega))]
        exact Memory.construct_same _ _ _ _
      · have hij := mul_step sizeof_T i j (by omega)
        rw [h3 j (by omega) (by omega)]
        exact Memory.construct_apart _ _ _ _ _ (by omega) (by omega)
    · intro q hq
      rw [h4 q (by omega)]
      exact Memory.construct_apart _ _ _ _ _ (by omega) (by omega)

/-- C15 as stated fails. A client takes and returns a zero-size
allocation twice around the first `push_back` of an array; all five calls on
the resource are admissible and nothing wraps. The second `deallocate(4096)`
moves the first record with that address, which is the record of the array's
block. The copy constructor then is handed that very block: its `data_` is
`4096`, the address of the source's block. -/
theorem copy_is_deep_counterexample :
    (push_back 4 4 ((FixedResource.create 4096 1024 true).apply_op (.allocate 0 4))
      (fun _ => none) (create 1 : DynArray Nat) 7).ok = true ∧
    (push_back 4 4 ((FixedResource.create 4096 1024 true).apply_op (.allocate 0 4))
      (fun _ => none) (create 1 : DynArray Nat) 7).arr = ⟨1, 4096, 1, 1⟩ ∧
    (push_back 4 4 ((FixedResource.create 4096 1024 true).apply_op (.allocate 0 4))
      (fun _ => none) (create 1 : DynArray Nat) 7).res =
        (FixedResource.create 4096 1024 true).run [.allocate 0 4, .allocate 4 4] ∧
    FixedResource.ops_ok (FixedResource.create 4096 1024 true)
      [.allocate 0 4, .allocate 4 4, .deallocate 4096 0 4, .allocate 0 4,
       .deallocate 4096 0 4] = true ∧
    (FixedResource.create 4096 1024 true).run
      [.allocate 0 4, .allocate 4 4, .deallocate 4096 0 4, .allocate 0 4,
       .deallocate 4096 0 4] =
        ⟨4096, 1024, 4, [⟨4096, 0, 4⟩], [⟨4096, 4, 4⟩], true⟩ ∧
    (copy_construct 4 4 ⟨4096, 1024, 4, [⟨4096, 0, 4⟩], [⟨4096, 4, 4⟩], true⟩
      (fun p => if p = 4096 then some 7 else none) (⟨1, 4096, 1, 1⟩ : DynArray Nat)).ok =
        true ∧
    size (⟨1, 4096, 1, 1⟩ : DynArray Nat) > 0 ∧
    (copy_construct 4 4 ⟨4096, 1024, 4, [⟨4096, 0, 4⟩], [⟨4096, 4, 4⟩], true⟩
      (fun p => if p = 4096 then some 7 else none) (⟨1, 4096, 1, 1⟩ : DynArray Nat)).arr.data_ =
        (⟨1, 4096, 1, 1⟩ : DynArray Nat).data_ := by
  refine ⟨by decide, by decide, by decide, by decide, by decide, by decide, by decide,
    by decide⟩

/-- C15, amended. Copy construction is a deep copy into independent storage
when the source holds its block: the resource has separated records, its used
list has a record at the address of the source's block that covers the `s`
live elements, and the request for `s` elements has a power-of-two alignment
and does not wrap around. If the allocation of `s` elements succeeds, the copy
constructor returns normally with size `s`, capacity exactly `s`, the same
element at every index, and the allocator of the source; the elements of the
source are what they were. For `s = 0` no storage is taken. For `s > 0` the
copy points at a block whose record is appended to the used list (all earlier
records, the source's included, stay where they were), whose address differs
from the address of the source's block and whose cells do not meet the
source's record. -/
theorem copy_is_deep (sizeof_T alignof_T : Nat) (res : FixedResource) (mem : Memory T)
    (o : DynArray T) (hS : 0 < sizeof_T) (hsep : res.separated)
    (hown : o.sz_ > 0 → ∃ b ∈ res.used_, b.p = o.data_ ∧ o.sz_ * sizeof_T ≤ b.sz)
    (hfit : o.sz_ > 0 → res.op_ok (.allocate (umul o.sz_ sizeof_T) alignof_T) = true)
    (halloc : o.sz_ > 0 → (polymorphic_allocate res sizeof_T alignof_T o.sz_).1 ≠ none) :
    (copy_construct sizeof_T alignof_T res mem o).ok = true ∧
    size (copy_construct sizeof_T alignof_T res mem o).arr = size o ∧
    capacity (copy_construct sizeof_T alignof_T res mem o).arr = size o ∧
    (∀ i, i < size o →
      index sizeof_T (copy_construct sizeof_T alignof_T res mem o).mem
        (copy_construct sizeof_T alignof_T res mem o).arr i = index sizeof_T mem o i) ∧
    (copy_construct sizeof_T alignof_T res mem o).arr.alloc_ = o.alloc_ ∧
    (∀ i, i < size o →
      index sizeof_T (copy_construct sizeof_T alignof_T res mem o).mem o i =
        index sizeof_T mem o i) ∧
    (size o = 0 → (copy_construct sizeof_T alignof_T res mem o).res = res ∧
      (copy_construct sizeof_T alignof_T res mem o).mem = mem ∧
      (copy_construct sizeof_T alignof_T res mem o).arr.data_ = 0) ∧
    (size o > 0 → ∃ nb : FixedResource.Block,
      nb.p = (copy_construct sizeof_T alignof_T res mem o).arr.data_ ∧
      nb.sz ≥ o.sz_ * sizeof_T ∧
      (copy_construct sizeof_T alignof_T res mem o).res.used_ = res.used_ ++ [nb] ∧
      (copy_construct sizeof_T alignof_T res mem o).arr.data_ ≠ o.data_ ∧
      ∀ b ∈ res.used_, b.p = o.data_ →
        (copy_construct sizeof_T alignof_T res mem o).arr.data_ + o.sz_ * sizeof_T ≤ b.p ∨
        b.p + b.sz ≤ (copy_construct sizeof_T alignof_T res mem o).arr.data_) := by
  by_cases hs : o.sz_ = 0
  · have hr : reserve sizeof_T alignof_T res mem
        ({ alloc_ := o.alloc_, data_ := 0, sz_ := 0, cap_ := 0 } : DynArray T) o.sz_ =
        ⟨true, res, mem, { alloc_ := o.alloc_, data_ := 0, sz_ := 0, cap_ := 0 }⟩ :=
      reserve_skip sizeof_T alignof_T res mem _ _ (by simp [hs])
    have hc : copy_construct sizeof_T alignof_T res mem o =
        ⟨true, res, mem, { alloc_ := o.alloc_, data_ := 0, sz_ := 0, cap_ := 0 }⟩ := by
      unfold copy_construct
      rw [hr]
      simp only [if_true, hs, copy_elems]
    rw [hc]
    refine ⟨rfl, by simp [size, hs], by simp [size, capacity, hs], ?_, rfl, fun _ _ => rfl,
      fun _ => ⟨rfl, rfl, rfl⟩, ?_⟩
    · intro i hi
      simp [size, hs] at hi
    · intro hpos
      simp [size, hs] at hpos
  · have hpos : o.sz_ > 0 := Nat.pos_of_ne_zero hs
    rcases hres : polymorphic_allocate res sizeof_T alignof_T o.sz_ with ⟨ptr, res1⟩
    cases ptr with
    | none => exact absurd (by rw [hres]) (halloc hpos)
    | some nd =>
      obtain ⟨hle, hdo⟩ := polymorphic_allocate_some res sizeof_T alignof_T o.sz_ nd res1 hres
      have hbytes := umul_eq o.sz_ sizeof_T hle
      obtain ⟨nb, hnbp, hnbsz, _, hused, _⟩ :=
        FixedResource.do_allocate_some res _ alignof_T nd res1 hdo
      have hov := FixedResource.allocate_no_overlap res _ alignof_T nd hsep (hfit hpos)
        (by rw [hdo])
      rw [hbytes] at hov hnbsz
      obtain ⟨b, hb, hbp, hbsz⟩ := hown hpos
      have hbytes_pos : 0 < o.sz_ * sizeof_T := Nat.mul_pos hpos hS
      have hdis : nd + o.sz_ * sizeof_T ≤ o.data_ ∨ o.data_ + o.sz_ * sizeof_T ≤ nd := by
        have := hov b hb
        rw [hbp] at this
        omega
      have hbound : o.sz_ < SIZE_MOD := by
        have := Nat.div_le_self (SIZE_MOD - 1) sizeof_T
        unfold SIZE_MOD at this hle ⊢
        omega
      have hr : reserve sizeof_T alignof_T res mem
          ({ alloc_ := o.alloc_, data_ := 0, sz_ := 0, cap_ := 0 } : DynArray T) o.sz_ =
          ⟨true, res1, mem, { alloc_ := o.alloc_, data_ := nd, sz_ := 0, cap_ := o.sz_ }⟩ := by
        rw [reserve_eq sizeof_T alignof_T res mem _ o.sz_ hpos nd res1 hres]
        simp [relocate]
      obtain ⟨c0, c1, c2, c3, c4⟩ := copy_elems_spec sizeof_T alignof_T hS o o.sz_ 0 res1 mem
        { alloc_ := o.alloc_, data_ := nd, sz_ := 0, cap_ := o.sz_ } rfl (by simp)
        (by omega) (by simp only [Nat.zero_add]; exact hdis)
      simp only [Nat.zero_add, Nat.zero_mul, Nat.add_zero] at c2 c3 c4
      have hc : copy_construct sizeof_T alignof_T res mem o =
          copy_elems sizeof_T alignof_T o 0 o.sz_ res1 mem
            { alloc_ := o.alloc_, data_ := nd, sz_ := 0, cap_ := o.sz_ } := by
        unfold copy_construct
        rw [hr]
        simp only [if_true]
      rw [hc, c2]
      refine ⟨c0, rfl, rfl, ?_, rfl, ?_, fun h => absurd h hs, fun _ =>
        ⟨nb, hnbp, hnbsz, by rw [c1]; exact hused, ?_, ?_⟩⟩
      · intro i hi
        exact c3 i (Nat.zero_le _) hi
      · intro i hi
        have hi' : i < o.sz_ := hi
        have hstep := mul_step sizeof_T i o.sz_ hi'
        exact c4 _ (by omega)
      · show nd ≠ o.data_
        omega
      · intro b' hb' hbp'
        show nd + o.sz_ * sizeof_T ≤ b'.p ∨ b'.p + b'.sz ≤ nd
        exact hov b' hb'

/-- C15, amended, on the two-element array of the test `CopyConstructor`: the copy has
size and capacity `2`, the elements `1` and `2`, and a block at another
address. -/
theorem copy_is_deep_witness :
    (copy_construct 4 4 ⟨4096, 4096, 8, [⟨4096, 8, 4⟩], [], true⟩
        (fun p => if p = 4096 then some 1 else if p = 4100 then some 2 else none)
        (⟨1, 4096, 2, 2⟩ : DynArray Nat)).arr = ⟨1, 4104, 2, 2⟩ ∧
    (copy_construct 4 4 ⟨4096, 4096, 8, [⟨4096, 8, 4⟩], [], true⟩
        (fun p => if p = 4096 then some 1 else if p = 4100 then some 2 else none)
        (⟨1, 4096, 2, 2⟩ : DynArray Nat)).res =
      ⟨4096, 4096, 16, [⟨4096, 8, 4⟩, ⟨4104, 8, 4⟩], [], true⟩ ∧
    index 4 (copy_construct 4 4 ⟨4096, 4096, 8, [⟨4096, 8, 4⟩], [], true⟩
        (fun p => if p = 4096 then some 1 else if p = 4100 then some 2 else none)
        (⟨1, 4096, 2, 2⟩ : DynArray Nat)).mem
      (copy_construct 4 4 ⟨4096, 4096, 8, [⟨4096, 8, 4⟩], [], true⟩
        (fun p => if p = 4096 then some 1 else if p = 4100 then some 2 else none)
        (⟨1, 4096, 2, 2⟩ : DynArray Nat)).arr 1 =
      index 4 (fun p => if p = 4096 then some 1 else if p = 4100 then some 2 else none)
        (⟨1, 4096, 2, 2⟩ : DynArray Nat) 1 ∧
    index 4 (copy_construct 4 4 ⟨4096, 4096, 8, [⟨4096, 8, 4⟩], [], true⟩
        (fun p => if p = 4096 then some 1 else if p = 4100 then some 2 else none)
        (⟨1, 4096, 2, 2⟩ : DynArray Nat)).mem
      (copy_construct 4 4 ⟨4096, 4096, 8, [⟨4096, 8, 4⟩], [], true⟩
        (fun p => if p = 4096 then some 1 else if p = 4100 then some 2 else none)
        (⟨1, 4096, 2, 2⟩ : DynArray Nat)).arr 1 = some 2 :=
  have h := copy_is_deep 4 4 ⟨4096, 4096, 8, [⟨4096, 8, 4⟩], [], true⟩
      (fun p => if p = 4096 then some 1 else if p = 4100 then some 2 else none)
      (⟨1, 4096, 2, 2⟩ : DynArray Nat) (by decide)
      (by unfold FixedResource.separated FixedResource.ranges_disjoint; decide)
      (fun _ => ⟨⟨4096, 8, 4⟩, by decide, rfl, by decide⟩) (fun _ => by decide)
      (fun _ => by decide)
  ⟨by decide, by decide, h.2.2.2.1 1 (by decide), by decide⟩

end DynArray

namespace DynArray

variable {T : Type}

/-! Moving -/

/-- C16, the move constructor. It gives the new array the block address,
size, capacity and allocator of the source, and with the block its elements;
it leaves the source with size `0`, capacity `0` and a null pointer; resource
and storage are handed back untouched: no allocate, no deallocate, no element
constructed or destroyed. The move assignment of the claim has no theorem: the
operator cannot be instantiated, because its statement `alloc_ = o.alloc_`
needs the copy assignment of `std::pmr::polymorphic_allocator`, which is
deleted. -/
theorem move_transfers (sizeof_T : Nat) (res : FixedResource) (mem : Memory T)
    (o : DynArray T) :
    (move_construct res mem o).1 = res ∧
    (move_construct res mem o).2.1 = mem ∧
    (move_construct res mem o).2.2.1 = o ∧
    ((move_construct res mem o).2.2.1.data_ = o.data_ ∧
      size (move_construct res mem o).2.2.1 = size o ∧
      capacity (move_construct res mem o).2.2.1 = capacity o ∧
      (move_construct res mem o).2.2.1.alloc_ = o.alloc_ ∧
      ∀ i, index sizeof_T (move_construct res mem o).2.1 (move_construct res mem o).2.2.1 i =
        index sizeof_T mem o i) ∧
    (size (move_construct res mem o).2.2.2 = 0 ∧ capacity (move_construct res mem o).2.2.2 = 0 ∧
      (move_construct res mem o).2.2.2.data_ = 0 ∧
      (move_construct res mem o).2.2.2.alloc_ = o.alloc_) :=
  ⟨rfl, rfl, rfl, ⟨rfl, rfl, rfl, rfl, fun _ => rfl⟩, ⟨rfl, rfl, rfl, rfl⟩⟩

end DynArray

namespace DynArray

variable {T : Type}

/-! The representation invariant -/

theorem polymorphic_allocate_ok (res : FixedResource) (sizeof_T alignof_T n : Nat)
    (h : res.arena_ok) :
    (polymorphic_allocate res sizeof_T alignof_T n).2.arena_ok ∧
    ∀ nd, (polymorphic_allocate res sizeof_T alignof_T n).1 = some nd → nd ≠ 0 := by
  unfold polymorphic_allocate
  by_cases hn : n > (SIZE_MOD - 1) / sizeof_T
  · simp only [hn, if_true]
    exact ⟨h, fun nd hnd => by simp at hnd⟩
  · simp only [hn, if_false]
    obtain ⟨h1, _, h3⟩ := FixedResource.arena_ok_allocate res (umul n sizeof_T) alignof_T h
    refine ⟨h1, fun nd hnd => ?_⟩
    have := h3 nd hnd
    have := h.1
    omega

theorem reserve_inv (sizeof_T alignof_T : Nat) (res : FixedResource) (mem : Memory T)
    (a : DynArray T) (n : Nat) (hinv : inv a) (hres : res.arena_ok) :
    (reserve sizeof_T alignof_T res mem a n).res.arena_ok ∧
    ((reserve sizeof_T alignof_T res mem a n).ok = true →
      inv (reserve sizeof_T alignof_T res mem a n).arr ∧
      (reserve sizeof_T alignof_T res mem a n).arr.sz_ = a.sz_ ∧
      a.cap_ ≤ (reserve sizeof_T alignof_T res mem a n).arr.cap_ ∧
      n ≤ (reserve sizeof_T alignof_T res mem a n).arr.cap_) := by
  obtain ⟨hsz, hnull⟩ := hinv
  by_cases hn : n > a.cap_
  · obtain ⟨hok1, hnn⟩ := polymorphic_allocate_ok res sizeof_T alignof_T n hres
    rcases hal : polymorphic_allocate res sizeof_T alignof_T n with ⟨ptr, res1⟩
    rw [hal] at hok1 hnn
    cases ptr with
    | none =>
      rw [reserve_fail sizeof_T alignof_T res mem a n hn res1 hal]
      exact ⟨hok1, fun h => by simp at h⟩
    | some nd =>
      rw [reserve_eq sizeof_T alignof_T res mem a n hn nd res1 hal]
      refine ⟨?_, fun _ => ⟨⟨?_, ?_⟩, rfl, ?_, ?_⟩⟩
      · by_cases hd : a.data_ = 0
        · simp only [hd, ne_eq, not_true_eq_false, if_false]
          exact hok1
        · simp only [ne_eq, hd, not_false_eq_true, if_true, polymorphic_deallocate]
          exact FixedResource.arena_ok_deallocate _ _ _ _ hok1
      · show a.sz_ ≤ n
        omega
      · show n = 0 ↔ nd = 0
        have := hnn nd rfl
        constructor
        · intro h0; omega
        · intro h0; exact absurd h0 this
      · show a.cap_ ≤ n
        omega
      · exact Nat.le_refl n
  · rw [reserve_skip sizeof_T alignof_T res mem a n (Nat.le_of_not_gt hn)]
    exact ⟨hres, fun _ => ⟨⟨hsz, hnull⟩, rfl, Nat.le_refl _, Nat.le_of_not_gt hn⟩⟩

theorem push_back_ref_inv (sizeof_T alignof_T : Nat) (res : FixedResource) (mem : Memory T)
    (a : DynArray T) (src : Memory T → Option T) (hinv : inv a)
    (hsmall : 2 * a.sz_ < SIZE_MOD) (hres : res.arena_ok) :
    (push_back_ref sizeof_T alignof_T res mem a src).res.arena_ok ∧
    ((push_back_ref sizeof_T alignof_T res mem a src).ok = true →
      inv (push_back_ref sizeof_T alignof_T res mem a src).arr ∧
      (push_back_ref sizeof_T alignof_T res mem a src).arr.sz_ = a.sz_ + 1 ∧
      a.cap_ ≤ (push_back_ref sizeof_T alignof_T res mem a src).arr.cap_ ∧
      0 < (push_back_ref sizeof_T alignof_T res mem a src).arr.cap_) := by
  have hadd := uadd_one a.sz_ hsmall
  by_cases hfull : a.sz_ ≥ a.cap_
  · obtain ⟨_, htarget⟩ := grow_target a hfull ⟨hinv.1, hsmall⟩
    have hgg := grow_if_full_grow sizeof_T alignof_T res mem a hfull
    obtain ⟨hr1, hr2⟩ := reserve_inv sizeof_T alignof_T res mem a
      (if a.cap_ = 0 then 1 else umul a.cap_ 2) hinv hres
    cases hok : (reserve sizeof_T alignof_T res mem a
        (if a.cap_ = 0 then 1 else umul a.cap_ 2)).ok with
    | false =>
      have hp : push_back_ref sizeof_T alignof_T res mem a src =
          reserve sizeof_T alignof_T res mem a (if a.cap_ = 0 then 1 else umul a.cap_ 2) := by
        unfold push_back_ref
        rw [hgg]
        simp [hok]
      rw [hp]
      exact ⟨hr1, fun h => by rw [hok] at h; simp at h⟩
    | true =>
      obtain ⟨⟨i1, i3⟩, hsz', hc', hn'⟩ := hr2 hok
      rw [push_back_ref_eq sizeof_T alignof_T res mem a src (by rw [hgg]; exact hok), hgg]
      refine ⟨hr1, fun _ => ⟨⟨?_, i3⟩, ?_, hc', ?_⟩⟩
      · show uadd (reserve sizeof_T alignof_T res mem a _).arr.sz_ 1 ≤
          (reserve sizeof_T alignof_T res mem a _).arr.cap_
        have hsc : a.sz_ ≤ a.cap_ := hinv.1
        rw [hsz', hadd]
        omega
      · show uadd (reserve sizeof_T alignof_T res mem a _).arr.sz_ 1 = a.sz_ + 1
        rw [hsz', hadd]
      · show 0 < (reserve sizeof_T alignof_T res mem a _).arr.cap_
        omega
  · have hlt : a.sz_ < a.cap_ := Nat.lt_of_not_ge hfull
    rw [push_back_ref_no_grow sizeof_T alignof_T res mem a src hlt]
    refine ⟨hres, fun _ => ⟨⟨?_, hinv.2⟩, hadd, Nat.le_refl _, ?_⟩⟩
    · show uadd a.sz_ 1 ≤ a.cap_
      rw [hadd]; omega
    · show 0 < a.cap_
      omega

theorem push_back_inv (sizeof_T alignof_T : Nat) (res : FixedResource) (mem : Memory T)
    (a : DynArray T) (v : T) (hinv : inv a)
    (hsmall : 2 * a.sz_ < SIZE_MOD) (hres : res.arena_ok) :
    (push_back sizeof_T alignof_T res mem a v).res.arena_ok ∧
    ((push_back sizeof_T alignof_T res mem a v).ok = true →
      inv (push_back sizeof_T alignof_T res mem a v).arr ∧
      (push_back sizeof_T alignof_T res mem a v).arr.sz_ = a.sz_ + 1) := by
  obtain ⟨h1, h2⟩ := push_back_ref_inv sizeof_T alignof_T res mem a (fun _ => some v) hinv
    hsmall hres
  exact ⟨h1, fun h => ⟨(h2 h).1, (h2 h).2.1⟩⟩

theorem push_all_inv (sizeof_T alignof_T : Nat) (vs : List T) :
    ∀ (res : FixedResource) (mem : Memory T) (a : DynArray T), inv a →
      a.sz_ + vs.length ≤ 2 ^ 63 →
      res.arena_ok → (push_all sizeof_T alignof_T res mem a vs).ok = true →
      inv (push_all sizeof_T alignof_T res mem a vs).arr ∧
      (push_all sizeof_T alignof_T res mem a vs).arr.sz_ = a.sz_ + vs.length := by
  induction vs with
  | nil =>
    intro res mem a hinv _ _ _
    exact ⟨hinv, rfl⟩
  | cons v vs ih =>
    intro res mem a hinv hbound hres hok
    simp only [List.length_cons] at hbound
    obtain ⟨h1, h2⟩ := push_back_inv sizeof_T alignof_T res mem a v hinv
      (by unfold SIZE_MOD; omega) hres
    cases hpb : (push_back sizeof_T alignof_T res mem a v).ok
    · simp [push_all, hpb] at hok
    · obtain ⟨i1, i2⟩ := h2 hpb
      simp only [push_all, hpb, if_true] at hok ⊢
      obtain ⟨j1, j2⟩ := ih _ _ _ i1 (by rw [i2]; omega) h1 hok
      exact ⟨j1, by rw [j2, i2, List.length_cons]; omega⟩

theorem copy_elems_inv (sizeof_T alignof_T : Nat) (o : DynArray T) (k : Nat) :
    ∀ (i : Nat) (res : FixedResource) (mem : Memory T) (a : DynArray T), inv a →
      a.sz_ + k ≤ 2 ^ 63 →
      res.arena_ok → (copy_elems sizeof_T alignof_T o i k res mem a).ok = true →
      inv (copy_elems sizeof_T alignof_T o i k res mem a).arr ∧
      (copy_elems sizeof_T alignof_T o i k res mem a).arr.sz_ = a.sz_ + k := by
  induction k with
  | zero =>
    intro i res mem a hinv _ _ _
    exact ⟨hinv, rfl⟩
  | succ k ih =>
    intro i res mem a hinv hbound hres hok
    obtain ⟨h1, h2⟩ := push_back_ref_inv sizeof_T alignof_T res mem a
      (fun m => m (o.data_ + i * sizeof_T)) hinv (by unfold SIZE_MOD; omega) hres
    rcases hr : push_back_ref sizeof_T alignof_T res mem a
        (fun m => m (o.data_ + i * sizeof_T)) with ⟨ok, res1, mem1, a1⟩
    rw [hr] at h1 h2
    cases ok with
    | false => simp [copy_elems, hr] at hok
    | true =>
      obtain ⟨i1, i2, _, _⟩ := h2 rfl
      simp only at i1 i2 h1
      simp only [copy_elems, hr, if_true] at hok ⊢
      obtain ⟨j1, j2⟩ := ih (i + 1) res1 mem1 a1 i1 (by omega) h1 hok
      exact ⟨j1, by rw [j2, i2]; omega⟩

theorem inv_empty (alloc : Nat) :
    inv ({ alloc_ := alloc, data_ := 0, sz_ := 0, cap_ := 0 } : DynArray T) :=
  ⟨Nat.le_refl _, Iff.rfl⟩

theorem copy_construct_inv (sizeof_T alignof_T : Nat) (res : FixedResource) (mem : Memory T)
    (o : DynArray T) (ho : o.sz_ ≤ 2 ^ 63) (hres : res.arena_ok)
    (hok : (copy_construct sizeof_T alignof_T res mem o).ok = true) :
    inv (copy_construct sizeof_T alignof_T res mem o).arr ∧
    (copy_construct sizeof_T alignof_T res mem o).arr.sz_ = o.sz_ := by
  obtain ⟨h1, h2⟩ := reserve_inv sizeof_T alignof_T res mem
    ({ alloc_ := o.alloc_, data_ := 0, sz_ := 0, cap_ := 0 } : DynArray T) o.sz_
    (inv_empty o.alloc_) hres
  unfold copy_construct at hok ⊢
  cases hr : (reserve sizeof_T alignof_T res mem
    ({ alloc_ := o.alloc_, data_ := 0, sz_ := 0, cap_ := 0 } : DynArray T) o.sz_).ok
  · simp [hr] at hok
  · obtain ⟨i1, i2, _, _⟩ := h2 hr
    simp only [hr, if_true] at hok ⊢
    obtain ⟨j1, j2⟩ := copy_elems_inv sizeof_T alignof_T o o.sz_ 0 _ _ _ i1
      (by rw [i2]; simp only [Nat.zero_add]; exact ho) h1 hok
    exact ⟨j1, by rw [j2, i2]; simp⟩

/-- After `clear(); dealloc();` an array that satisfies the representation
invariant is in the state the constructor `DynArray(alloc)` gives. -/
theorem released_eq (sizeof_T alignof_T : Nat) (res : FixedResource) (mem : Memory T)
    (a : DynArray T) (hinv : inv a) :
    (dealloc sizeof_T alignof_T res (clear sizeof_T mem a).2).2 = create a.alloc_ := by
  unfold dealloc
  by_cases hd : a.data_ = 0
  · have hc : a.cap_ = 0 := hinv.2.mpr hd
    simp only [clear, hd, ne_eq, not_true_eq_false, if_false, create]
    cases a
    simp_all
  · simp [clear, hd, create]

theorem clear_inv (sizeof_T : Nat) (mem : Memory T) (a : DynArray T) (h : inv a) :
    inv (clear sizeof_T mem a).2 :=
  ⟨Nat.zero_le _, h.2⟩

theorem pop_back_eq (sizeof_T : Nat) (mem : Memory T) (a : DynArray T) :
    (a.sz_ = 0 → pop_back sizeof_T mem a = (mem, a)) ∧
    (a.sz_ > 0 → pop_back sizeof_T mem a =
      (Memory.destroy mem (a.data_ + (a.sz_ - 1) * sizeof_T), { a with sz_ := a.sz_ - 1 })) := by
  unfold pop_back
  refine ⟨fun h => ?_, fun h => ?_⟩
  · have : ¬ a.sz_ > 0 := by omega
    simp only [this, if_false]
  · simp only [h, if_true]

theorem pop_back_inv (sizeof_T : Nat) (mem : Memory T) (a : DynArray T) (h : inv a) :
    inv (pop_back sizeof_T mem a).2 ∧ (pop_back sizeof_T mem a).2.sz_ ≤ a.sz_ := by
  by_cases hpos : a.sz_ > 0
  · rw [(pop_back_eq sizeof_T mem a).2 hpos]
    exact ⟨⟨by show a.sz_ - 1 ≤ a.cap_; have := h.1; omega, h.2⟩,
      by show a.sz_ - 1 ≤ a.sz_; omega⟩
  · rw [(pop_back_eq sizeof_T mem a).1 (by omega)]
    exact ⟨h, Nat.le_refl _⟩

/-- Every reachable array state satisfies the representation invariant and
holds at most `2^63` elements. -/
theorem reachable_inv (sizeof_T alignof_T : Nat) (a : DynArray T)
    (h : Reachable sizeof_T alignof_T a) : inv a ∧ a.sz_ ≤ 2 ^ 63 := by
  induction h with
  | create alloc => exact ⟨inv_empty alloc, Nat.zero_le _⟩
  | construct_n res mem alloc n d hres hn hok =>
    have h12 := reserve_inv sizeof_T alignof_T res mem (create alloc : DynArray T) n
      (inv_empty alloc) hres
    unfold construct_n at hok ⊢
    cases hr : (reserve sizeof_T alignof_T res mem (create alloc : DynArray T) n).ok
    · simp [hr] at hok
    · obtain ⟨h1, h2⟩ := h12
      obtain ⟨i1, i2, _, _⟩ := h2 hr
      simp only [hr, if_true] at hok ⊢
      have hz : (reserve sizeof_T alignof_T res mem (create alloc : DynArray T) n).arr.sz_ = 0 :=
        i2
      obtain ⟨j1, j2⟩ := push_all_inv sizeof_T alignof_T (List.replicate n d) _ _ _ i1
        (by rw [hz]; simp; exact hn) h1 hok
      exact ⟨j1, by rw [j2, hz]; simp; exact hn⟩
  | push_back res mem a v _ hres hsmall hok ih =>
    obtain ⟨i1, i2⟩ := (push_back_inv sizeof_T alignof_T res mem a v ih.1 hsmall hres).2 hok
    exact ⟨i1, by rw [i2]; unfold SIZE_MOD at hsmall; omega⟩
  | emplace_back res mem a v _ hres hsmall hok ih =>
    obtain ⟨e1, e2, _⟩ := emplace_back_eq_push_back sizeof_T alignof_T res mem a v
    rw [e2] at hok
    obtain ⟨i1, i2⟩ := (push_back_inv sizeof_T alignof_T res mem a v ih.1 hsmall hres).2 hok
    rw [e1]
    exact ⟨i1, by rw [i2]; unfold SIZE_MOD at hsmall; omega⟩
  | pop_back mem a _ ih =>
    obtain ⟨p1, p2⟩ := pop_back_inv sizeof_T mem a ih.1
    exact ⟨p1, Nat.le_trans p2 ih.2⟩
  | clear mem a _ ih => exact ⟨clear_inv sizeof_T mem a ih.1, Nat.zero_le _⟩
  | reserve res mem a n _ hres hok ih =>
    obtain ⟨i1, i2, _, _⟩ := (reserve_inv sizeof_T alignof_T res mem a n ih.1 hres).2 hok
    exact ⟨i1, by rw [i2]; exact ih.2⟩
  | copy_construct res mem o _ hres hok ih =>
    obtain ⟨i1, i2⟩ := copy_construct_inv sizeof_T alignof_T res mem o ih.2 hres hok
    exact ⟨i1, by rw [i2]; exact ih.2⟩
  | move_construct_new res mem o _ ih => exact ih
  | move_construct_old res mem o _ _ => exact ⟨inv_empty o.alloc_, Nat.zero_le _⟩

/-- C17. Every array state reached from a constructor by `push_back`,
`emplace_back`, `pop_back`, `clear`, `reserve` and copy and move construction,
all returning normally, has `0 ≤ size ≤ capacity` and has capacity `0` exactly
when its block pointer is null; the copy and move assignment operators cannot
be instantiated and reach no further state. On such a state `pop_back` changes
nothing when the size is `0`, and otherwise lowers the size by one and keeps
capacity, block and the elements below the removed one. -/
theorem size_capacity_invariant (sizeof_T alignof_T : Nat) (mem : Memory T) (a : DynArray T)
    (hS : 0 < sizeof_T) (h : Reachable sizeof_T alignof_T a) :
    (0 ≤ size a ∧ size a ≤ capacity a) ∧
    (capacity a = 0 ↔ a.data_ = 0) ∧
    (size a = 0 → pop_back sizeof_T mem a = (mem, a)) ∧
    (size a > 0 → size (pop_back sizeof_T mem a).2 = size a - 1 ∧
      capacity (pop_back sizeof_T mem a).2 = capacity a ∧
      (pop_back sizeof_T mem a).2.data_ = a.data_ ∧
      ∀ i, i < size a - 1 →
        index sizeof_T (pop_back sizeof_T mem a).1 (pop_back sizeof_T mem a).2 i =
          index sizeof_T mem a i) := by
  obtain ⟨⟨h1, h3⟩, _⟩ := reachable_inv sizeof_T alignof_T a h
  refine ⟨⟨Nat.zero_le _, h1⟩, h3, (pop_back_eq sizeof_T mem a).1, ?_⟩
  intro hpos
  rw [(pop_back_eq sizeof_T mem a).2 hpos]
  refine ⟨rfl, rfl, rfl, ?_⟩
  intro i hi
  have hi' : i < a.sz_ - 1 := hi
  have hstep := mul_step sizeof_T i (a.sz_ - 1) hi'
  show Memory.destroy mem (a.data_ + (a.sz_ - 1) * sizeof_T) (a.data_ + i * sizeof_T) = _
  rw [Memory.destroy_other _ _ _ (by omega)]
  rfl

/-- C17 on the array of the test `PopBack` after its two pushes. -/
theorem size_capacity_invariant_witness :
    size (pop_back 4
      (push_back 4 4 (push_back 4 4 (FixedResource.create 4096 4096 true) (fun _ => none)
        (create 1) 1).res (push_back 4 4 (FixedResource.create 4096 4096 true) (fun _ => none)
        (create 1) 1).mem (push_back 4 4 (FixedResource.create 4096 4096 true) (fun _ => none)
        (create 1 : DynArray Nat) 1).arr 2).mem
      (push_back 4 4 (push_back 4 4 (FixedResource.create 4096 4096 true) (fun _ => none)
        (create 1) 1).res (push_back 4 4 (FixedResource.create 4096 4096 true) (fun _ => none)
        (create 1) 1).mem (push_back 4 4 (FixedResource.create 4096 4096 true) (fun _ => none)
        (create 1 : DynArray Nat) 1).arr 2).arr).2 = 2 - 1 :=
  ((size_capacity_invariant 4 4
    (push_back 4 4 (push_back 4 4 (FixedResource.create 4096 4096 true) (fun _ => none)
        (create 1) 1).res (push_back 4 4 (FixedResource.create 4096 4096 true) (fun _ => none)
        (create 1) 1).mem (push_back 4 4 (FixedResource.create 4096 4096 true) (fun _ => none)
        (create 1 : DynArray Nat) 1).arr 2).mem
    (push_back 4 4 (push_back 4 4 (FixedResource.create 4096 4096 true) (fun _ => none)
        (create 1) 1).res (push_back 4 4 (FixedResource.create 4096 4096 true) (fun _ => none)
        (create 1) 1).mem (push_back 4 4 (FixedResource.create 4096 4096 true) (fun _ => none)
        (create 1 : DynArray Nat) 1).arr 2).arr
    (by decide)
    (Reachable.push_back _ _ _ 2
      (Reachable.push_back (FixedResource.create 4096 4096 true) (fun _ => none) (create 1) 1
        (Reachable.create 1) (by unfold FixedResource.arena_ok; decide) (by decide)
        (by decide))
      (by unfold FixedResource.arena_ok; decide) (by decide) (by decide))).2.2.2
    (by decide)).1

end DynArray

namespace DynArray

variable {T : Type}

/-! Storage accounting -/

theorem reserve_backed (sizeof_T alignof_T : Nat) (res : FixedResource) (mem : Memory T)
    (a : DynArray T) (n u0 : Nat) (hb : backed u0 res a)
    (hok : (reserve sizeof_T alignof_T res mem a n).ok = true) :
    backed u0 (reserve sizeof_T alignof_T res mem a n).res
      (reserve sizeof_T alignof_T res mem a n).arr ∧
    a.cap_ ≤ (reserve sizeof_T alignof_T res mem a n).arr.cap_ ∧
    n ≤ (reserve sizeof_T alignof_T res mem a n).arr.cap_ := by
  by_cases hn : n > a.cap_
  · obtain ⟨hok1, hnn⟩ := polymorphic_allocate_ok res sizeof_T alignof_T n hb.1
    obtain ⟨nd, res1, hal⟩ := reserve_ok_alloc sizeof_T alignof_T res mem a n hn hok
    rw [hal] at hok1 hnn
    obtain ⟨_, hdo⟩ := polymorphic_allocate_some res sizeof_T alignof_T n nd res1 hal
    obtain ⟨nb, hnbp, _, _, hused, _⟩ :=
      FixedResource.do_allocate_some res _ alignof_T nd res1 hdo
    rw [reserve_eq sizeof_T alignof_T res mem a n hn nd res1 hal]
    refine ⟨?_, by show a.cap_ ≤ n; omega, Nat.le_refl n⟩
    rcases hb.2 with ⟨hc, hd, hcount⟩ | ⟨hc, hd, hex, hcount⟩
    · simp only [hd, ne_eq, not_true_eq_false, if_false]
      refine ⟨hok1, Or.inr ⟨by show 0 < n; omega, hnn nd rfl, ⟨nb, by rw [hused]; simp, hnbp⟩, ?_⟩⟩
      unfold FixedResource.used_count at hcount ⊢
      rw [hused]
      simp [hcount]
    · obtain ⟨pre, b, post, hl, _, _, hde⟩ := FixedResource.do_deallocate_after_append res1
        res.used_ nb a.data_ (umul a.cap_ sizeof_T) alignof_T hused hex
      simp only [ne_eq, hd, not_false_eq_true, if_true, polymorphic_deallocate]
      refine ⟨FixedResource.arena_ok_deallocate _ _ _ _ hok1,
        Or.inr ⟨by show 0 < n; omega, hnn nd rfl, ?_, ?_⟩⟩
      · rw [hde]
        exact ⟨nb, by simp, hnbp⟩
      · rw [hde]
        unfold FixedResource.used_count at hcount ⊢
        rw [hl] at hcount
        simp at hcount ⊢
        omega
  · rw [reserve_skip sizeof_T alignof_T res mem a n (Nat.le_of_not_gt hn)]
    exact ⟨hb, Nat.le_refl _, Nat.le_of_not_gt hn⟩

theorem backed_fields (u0 : Nat) (res : FixedResource) (a a' : DynArray T)
    (hc : a'.cap_ = a.cap_) (hd : a'.data_ = a.data_) (h : backed u0 res a) :
    backed u0 res a' := by
  unfold backed at h ⊢
  rw [hc, hd]
  exact h

/-- A `push_back` that returns normally keeps the accounting, never lowers the
capacity, and leaves the array with a positive capacity. -/
theorem push_back_backed (sizeof_T alignof_T : Nat) (res : FixedResource) (mem : Memory T)
    (a : DynArray T) (v : T) (u0 : Nat) (hb : backed u0 res a)
    (hok : (push_back sizeof_T alignof_T res mem a v).ok = true) :
    backed u0 (push_back sizeof_T alignof_T res mem a v).res
      (push_back sizeof_T alignof_T res mem a v).arr ∧
    a.cap_ ≤ (push_back sizeof_T alignof_T res mem a v).arr.cap_ ∧
    0 < (push_back sizeof_T alignof_T res mem a v).arr.cap_ := by
  have hg := push_back_ref_ok sizeof_T alignof_T res mem a _ hok
  have hp : push_back sizeof_T alignof_T res mem a v =
      push_back_ref sizeof_T alignof_T res mem a (fun _ => some v) := rfl
  rw [hp, push_back_ref_eq sizeof_T alignof_T res mem a _ hg]
  have hgb : backed u0 (grow_if_full sizeof_T alignof_T res mem a).res
      (grow_if_full sizeof_T alignof_T res mem a).arr ∧
      a.cap_ ≤ (grow_if_full sizeof_T alignof_T res mem a).arr.cap_ ∧
      0 < (grow_if_full sizeof_T alignof_T res mem a).arr.cap_ := by
    by_cases hfull : a.sz_ ≥ a.cap_
    · rw [grow_if_full_grow sizeof_T alignof_T res mem a hfull] at hg ⊢
      obtain ⟨h1, h2, h3⟩ := reserve_backed sizeof_T alignof_T res mem a _ u0 hb hg
      refine ⟨h1, h2, ?_⟩
      by_cases h0 : a.cap_ = 0
      · simp only [h0, if_true] at h3
        simp only [h0, if_true]
        omega
      · omega
    · have hlt : a.sz_ < a.cap_ := Nat.lt_of_not_ge hfull
      rw [grow_if_full_skip sizeof_T alignof_T res mem a hlt]
      exact ⟨hb, Nat.le_refl _, by show 0 < a.cap_; omega⟩
  exact ⟨backed_fields u0 _ _ _ rfl rfl hgb.1, hgb.2.1, hgb.2.2⟩

theorem apply_aop_backed (sizeof_T alignof_T : Nat) (res : FixedResource) (mem : Memory T)
    (a : DynArray T) (op : AOp T) (u0 : Nat) (hb : backed u0 res a)
    (hok : (apply_aop sizeof_T alignof_T res mem a op).ok = true) :
    backed u0 (apply_aop sizeof_T alignof_T res mem a op).res
      (apply_aop sizeof_T alignof_T res mem a op).arr ∧
    a.cap_ ≤ (apply_aop sizeof_T alignof_T res mem a op).arr.cap_ ∧
    (op.takes_storage = true → 0 < (apply_aop sizeof_T alignof_T res mem a op).arr.cap_) := by
  cases op with
  | push_back v =>
    obtain ⟨h1, h2, h3⟩ := push_back_backed sizeof_T alignof_T res mem a v u0 hb hok
    exact ⟨h1, h2, fun _ => h3⟩
  | emplace_back v =>
    obtain ⟨e1, e2, _⟩ := emplace_back_eq_push_back sizeof_T alignof_T res mem a v
    simp only [apply_aop] at hok ⊢
    rw [e2] at hok
    rw [e1]
    obtain ⟨h1, h2, h3⟩ := push_back_backed sizeof_T alignof_T res mem a v u0 hb hok
    exact ⟨h1, h2, fun _ => h3⟩
  | pop_back =>
    have hc : (pop_back sizeof_T mem a).2.cap_ = a.cap_ := by
      unfold pop_back; split <;> rfl
    have hd : (pop_back sizeof_T mem a).2.data_ = a.data_ := by
      unfold pop_back; split <;> rfl
    exact ⟨backed_fields u0 res a _ hc hd hb, Nat.le_of_eq hc.symm,
      fun h => by simp [AOp.takes_storage] at h⟩
  | clear =>
    exact ⟨backed_fields u0 res a _ rfl rfl hb, Nat.le_refl _,
      fun h => by simp [AOp.takes_storage] at h⟩
  | reserve n =>
    obtain ⟨h1, h2, h3⟩ := reserve_backed sizeof_T alignof_T res mem a n u0 hb hok
    refine ⟨h1, h2, fun h => ?_⟩
    have hn : 0 < n := by simpa [AOp.takes_storage] using h
    exact Nat.lt_of_lt_of_le hn h3

theorem run_array_backed (sizeof_T alignof_T : Nat) (ops : List (AOp T)) (u0 : Nat) :
    ∀ (res : FixedResource) (mem : Memory T) (a : DynArray T), backed u0 res a →
      (run_array sizeof_T alignof_T res mem a ops).ok = true →
      backed u0 (run_array sizeof_T alignof_T res mem a ops).res
        (run_array sizeof_T alignof_T res mem a ops).arr ∧
      a.cap_ ≤ (run_array sizeof_T alignof_T res mem a ops).arr.cap_ ∧
      ((∃ op ∈ ops, op.takes_storage = true) →
        0 < (run_array sizeof_T alignof_T res mem a ops).arr.cap_) := by
  induction ops with
  | nil =>
    intro res mem a hb _
    exact ⟨hb, Nat.le_refl _, fun ⟨_, h, _⟩ => by simp at h⟩
  | cons op ops ih =>
    intro res mem a hb hok
    rcases hr : apply_aop sizeof_T alignof_T res mem a op with ⟨ok, res1, mem1, a1⟩
    have hstep := apply_aop_backed sizeof_T alignof_T res mem a op u0 hb
    rw [hr] at hstep
    simp only [run_array, hr] at hok ⊢
    cases ok with
    | false => simp at hok
    | true =>
      simp only [if_true] at hok ⊢
      obtain ⟨h1, h2, h3⟩ := hstep rfl
      simp only at h1 h2 h3
      obtain ⟨j1, j2, j3⟩ := ih res1 mem1 a1 h1 hok
      refine ⟨j1, Nat.le_trans h2 j2, ?_⟩
      rintro ⟨x, hx, hxs⟩
      rcases List.mem_cons.mp hx with rfl | hx'
      · exact Nat.lt_of_lt_of_le (h3 hxs) j2
      · exact j3 ⟨x, hx', hxs⟩

theorem run_array_take (sizeof_T alignof_T : Nat) (ops : List (AOp T)) :
    ∀ (k : Nat) (res : FixedResource) (mem : Memory T) (a : DynArray T),
      (run_array sizeof_T alignof_T res mem a ops).ok = true →
      (run_array sizeof_T alignof_T res mem a (ops.take k)).ok = true ∧
      run_array sizeof_T alignof_T res mem a ops =
        run_array sizeof_T alignof_T (run_array sizeof_T alignof_T res mem a (ops.take k)).res
          (run_array sizeof_T alignof_T res mem a (ops.take k)).mem
          (run_array sizeof_T alignof_T res mem a (ops.take k)).arr (ops.drop k) := by
  induction ops with
  | nil => intro k res mem a h; simp [run_array]
  | cons op ops ih =>
    intro k res mem a h
    cases k with
    | zero => simp [run_array]
    | succ k =>
      rcases hr : apply_aop sizeof_T alignof_T res mem a op with ⟨ok, res1, mem1, a1⟩
      simp only [run_array, hr, List.take_succ_cons, List.drop_succ_cons] at h ⊢
      cases ok with
      | false => simp at h
      | true =>
        simp only [if_true] at h ⊢
        exact ih k res1 mem1 a1 h

theorem destroy_backed (sizeof_T alignof_T : Nat) (res : FixedResource) (mem : Memory T)
    (a : DynArray T) (u0 : Nat) (hb : backed u0 res a) :
    (destroy sizeof_T alignof_T res mem a).1.used_count = u0 ∧
    (0 < a.cap_ →
      (destroy sizeof_T alignof_T res mem a).1.free_count = res.free_count + 1) := by
  rcases hb.2 with ⟨hc, hd, hcount⟩ | ⟨hc, hd, ⟨b, hbm, hbp⟩, hcount⟩
  · have hdes : (destroy sizeof_T alignof_T res mem a).1 = res := by
      simp [destroy, dealloc, clear, hd]
    rw [hdes]
    exact ⟨hcount, fun h => by omega⟩
  · have hdes : (destroy sizeof_T alignof_T res mem a).1 =
        res.do_deallocate a.data_ (umul a.cap_ sizeof_T) alignof_T := by
      simp [destroy, dealloc, clear, hd, polymorphic_deallocate]
    rw [hdes]
    rcases FixedResource.do_deallocate_cases res a.data_ (umul a.cap_ sizeof_T) alignof_T with
      ⟨pre, c, post, hl, _, _, heq⟩ | ⟨hnone, _⟩
    · rw [heq]
      unfold FixedResource.used_count FixedResource.free_count at *
      rw [hl] at hcount
      simp at hcount ⊢
      omega
    · exact absurd hbp (hnone b hbm)

/-- C18. An array returns all its storage. Let the array be constructed on a
resource with a non-null buffer and let any sequence of `push_back`,
`emplace_back`, `pop_back`, `clear` and `reserve` calls return normally, with
no other client of the resource. After every prefix of the sequence, when the
capacity is positive `used_count()` is exactly one more than before the array
was constructed, and when it is zero it is the same. After the destructor
`used_count()` is back at its value before construction. If the sequence has a
`push_back`, an `emplace_back` or a `reserve(n)` with `n > 0`, the array has
obtained storage: at the end its capacity is positive, `used_count()` is one
more than before construction, and after the destructor `free_count()` is
positive; the same holds for `free_count()` whenever the capacity was positive
after some prefix. -/
theorem storage_returned (sizeof_T alignof_T : Nat) (res0 : FixedResource) (mem : Memory T)
    (alloc : Nat) (ops : List (AOp T)) (hres : res0.arena_ok)
    (hok : (run_array sizeof_T alignof_T res0 mem (create alloc) ops).ok = true) :
    (∀ k, (run_array sizeof_T alignof_T res0 mem (create alloc) (ops.take k)).ok = true ∧
      (capacity (run_array sizeof_T alignof_T res0 mem (create alloc) (ops.take k)).arr > 0 →
        (run_array sizeof_T alignof_T res0 mem (create alloc) (ops.take k)).res.used_count =
          res0.used_count + 1) ∧
      (capacity (run_array sizeof_T alignof_T res0 mem (create alloc) (ops.take k)).arr = 0 →
        (run_array sizeof_T alignof_T res0 mem (create alloc) (ops.take k)).res.used_count =
          res0.used_count)) ∧
    (capacity (run_array sizeof_T alignof_T res0 mem (create alloc) ops).arr > 0 →
      (run_array sizeof_T alignof_T res0 mem (create alloc) ops).res.used_count =
        res0.used_count + 1) ∧
    (destroy sizeof_T alignof_T (run_array sizeof_T alignof_T res0 mem (create alloc) ops).res
      (run_array sizeof_T alignof_T res0 mem (create alloc) ops).mem
      (run_array sizeof_T alignof_T res0 mem (create alloc) ops).arr).1.used_count =
        res0.used_count ∧
    ((∃ op ∈ ops, op.takes_storage = true) →
      capacity (run_array sizeof_T alignof_T res0 mem (create alloc) ops).arr > 0 ∧
      (run_array sizeof_T alignof_T res0 mem (create alloc) ops).res.used_count =
        res0.used_count + 1 ∧
      (destroy sizeof_T alignof_T (run_array sizeof_T alignof_T res0 mem (create alloc) ops).res
        (run_array sizeof_T alignof_T res0 mem (create alloc) ops).mem
        (run_array sizeof_T alignof_T res0 mem (create alloc) ops).arr).1.free_count > 0) ∧
    ((∃ k, capacity (run_array sizeof_T alignof_T res0 mem (create alloc) (ops.take k)).arr >
        0) →
      (destroy sizeof_T alignof_T (run_array sizeof_T alignof_T res0 mem (create alloc) ops).res
        (run_array sizeof_T alignof_T res0 mem (create alloc) ops).mem
        (run_array sizeof_T alignof_T res0 mem (create alloc) ops).arr).1.free_count > 0) := by
  have h0 : backed res0.used_count res0 (create alloc : DynArray T) :=
    ⟨hres, Or.inl ⟨rfl, rfl, rfl⟩⟩
  have hcount : ∀ (res : FixedResource) (a : DynArray T), backed res0.used_count res a →
      (capacity a > 0 → res.used_count = res0.used_count + 1) ∧
      (capacity a = 0 → res.used_count = res0.used_count) := by
    intro res a hb
    rcases hb.2 with ⟨hc, _, hcnt⟩ | ⟨hc, _, _, hcnt⟩
    · exact ⟨fun h => by simp only [capacity] at h; omega, fun _ => hcnt⟩
    · exact ⟨fun _ => hcnt, fun h => by simp only [capacity] at h; omega⟩
  obtain ⟨hfin, _, htakes⟩ := run_array_backed sizeof_T alignof_T ops res0.used_count res0 mem
    (create alloc) h0 hok
  obtain ⟨hd1, hd2⟩ := destroy_backed sizeof_T alignof_T _
    (run_array sizeof_T alignof_T res0 mem (create alloc) ops).mem _ res0.used_count hfin
  refine ⟨?_, (hcount _ _ hfin).1, hd1, ?_, ?_⟩
  · intro k
    obtain ⟨hk, _⟩ := run_array_take sizeof_T alignof_T ops k res0 mem (create alloc) hok
    obtain ⟨hbk, _⟩ := run_array_backed sizeof_T alignof_T (ops.take k) res0.used_count res0
      mem (create alloc) h0 hk
    exact ⟨hk, hcount _ _ hbk⟩
  · intro hex
    have hpos := htakes hex
    refine ⟨hpos, (hcount _ _ hfin).1 hpos, ?_⟩
    rw [hd2 hpos]
    exact Nat.succ_pos _
  · rintro ⟨k, hk⟩
    obtain ⟨hkok, hsplit⟩ := run_array_take sizeof_T alignof_T ops k res0 mem (create alloc) hok
    obtain ⟨hbk, _⟩ := run_array_backed sizeof_T alignof_T (ops.take k) res0.used_count res0
      mem (create alloc) h0 hkok
    have hrest := run_array_backed sizeof_T alignof_T (ops.drop k) res0.used_count _ _ _ hbk
      (by rw [← hsplit]; exact hok)
    rw [← hsplit] at hrest
    have hpos : 0 < (run_array sizeof_T alignof_T res0 mem (create alloc) ops).arr.cap_ := by
      have : 0 < (run_array sizeof_T alignof_T res0 mem (create alloc) (ops.take k)).arr.cap_ :=
        hk
      exact Nat.lt_of_lt_of_le this hrest.2.1
    rw [hd2 hpos]
    exact Nat.succ_pos _

/-- C18 on the test `FullCycle`: ten pushes on a fresh 512-byte resource,
then destruction; while the array lives one block is in use, afterwards no
block stays in use and a freed block exists. -/
theorem storage_returned_witness :
    (run_array 4 4 (FixedResource.create 4096 512 true) (fun _ => none) (create 1 : DynArray Nat)
      ([0, 1, 2, 3, 4, 5, 6, 7, 8, 9].map AOp.push_back)).res.used_count =
      (FixedResource.create 4096 512 true).used_count + 1 ∧
    (destroy 4 4
      (run_array 4 4 (FixedResource.create 4096 512 true) (fun _ => none) (create 1)
        ([0, 1, 2, 3, 4, 5, 6, 7, 8, 9].map AOp.push_back)).res
      (run_array 4 4 (FixedResource.create 4096 512 true) (fun _ => none) (create 1)
        ([0, 1, 2, 3, 4, 5, 6, 7, 8, 9].map AOp.push_back)).mem
      (run_array 4 4 (FixedResource.create 4096 512 true) (fun _ => none) (create 1 : DynArray Nat)
        ([0, 1, 2, 3, 4, 5, 6, 7, 8, 9].map AOp.push_back)).arr).1.used_count =
      (FixedResource.create 4096 512 true).used_count ∧
    (destroy 4 4
      (run_array 4 4 (FixedResource.create 4096 512 true) (fun _ => none) (create 1)
        ([0, 1, 2, 3, 4, 5, 6, 7, 8, 9].map AOp.push_back)).res
      (run_array 4 4 (FixedResource.create 4096 512 true) (fun _ => none) (create 1)
        ([0, 1, 2, 3, 4, 5, 6, 7, 8, 9].map AOp.push_back)).mem
      (run_array 4 4 (FixedResource.create 4096 512 true) (fun _ => none) (create 1 : DynArray Nat)
        ([0, 1, 2, 3, 4, 5, 6, 7, 8, 9].map AOp.push_back)).arr).1.free_count > 0 :=
  have h := storage_returned 4 4 (FixedResource.create 4096 512 true) (fun _ => none) 1
    (([0, 1, 2, 3, 4, 5, 6, 7, 8, 9] : List Nat).map AOp.push_back)
    (by unfold FixedResource.arena_ok; decide) (by decide)
  ⟨(h.2.2.2.1 ⟨AOp.push_back 0, by simp, rfl⟩).2.1, h.2.2.1,
    (h.2.2.2.1 ⟨AOp.push_back 0, by simp, rfl⟩).2.2⟩

end DynArray

namespace DynArray

variable {T : Type}

/-! Arrays keep their block -/

theorem reserve_fits (sizeof_T alignof_T : Nat) (res : FixedResource) (n : Nat)
    (hs : res.sane) (hp : FixedResource.pow2 alignof_T) (hal : alignof_T ≤ 2 ^ 62)
    (hn : n * sizeof_T ≤ 2 ^ 63) :
    res.op_ok (.allocate (umul n sizeof_T) alignof_T) = true := by
  apply FixedResource.sane_op_ok res _ alignof_T hs hp hal
  have := Nat.mod_le (n * sizeof_T) SIZE_MOD
  unfold umul
  omega

/-- One call on an array that holds its block, on a resource in working
order: the resource stays in working order, the representation invariant is
kept and the array holds its block afterwards. -/
theorem apply_aop_owns (sizeof_T alignof_T : Nat) (hp : FixedResource.pow2 alignof_T)
    (hal : alignof_T ≤ 2 ^ 62) (res : FixedResource) (mem : Memory T) (a : DynArray T)
    (op : AOp T) (hs : res.sane) (hinv : inv a) (hown : owns sizeof_T res a)
    (hbound : (a.sz_ + 1) * sizeof_T ≤ 2 ^ 62) (hS : 0 < sizeof_T)
    (hres : ∀ n, op = AOp.reserve n → n * sizeof_T ≤ 2 ^ 63)
    (hok : (apply_aop sizeof_T alignof_T res mem a op).ok = true) :
    (apply_aop sizeof_T alignof_T res mem a op).res.sane ∧
    inv (apply_aop sizeof_T alignof_T res mem a op).arr ∧
    owns sizeof_T (apply_aop sizeof_T alignof_T res mem a op).res
      (apply_aop sizeof_T alignof_T res mem a op).arr ∧
    (apply_aop sizeof_T alignof_T res mem a op).arr.sz_ ≤ a.sz_ + 1 := by
  have hb2 : a.sz_ + 1 ≤ (a.sz_ + 1) * sizeof_T := Nat.le_mul_of_pos_right _ hS
  have hsmall : 2 * a.sz_ < SIZE_MOD := by unfold SIZE_MOD; omega
  have hfit : a.sz_ ≥ a.cap_ → res.op_ok
      (.allocate (umul (if a.cap_ = 0 then 1 else umul a.cap_ 2) sizeof_T) alignof_T) = true :=
    fun hfull => grow_fits sizeof_T alignof_T res a hs hp hal hfull hbound
  have hpush : ∀ v, (push_back sizeof_T alignof_T res mem a v).ok = true →
      (push_back sizeof_T alignof_T res mem a v).res.sane ∧
      inv (push_back sizeof_T alignof_T res mem a v).arr ∧
      owns sizeof_T (push_back sizeof_T alignof_T res mem a v).res
        (push_back sizeof_T alignof_T res mem a v).arr ∧
      (push_back sizeof_T alignof_T res mem a v).arr.sz_ ≤ a.sz_ + 1 := by
    intro v hv
    obtain ⟨a1, a2, a3⟩ := push_back_arena sizeof_T alignof_T res mem a v hinv hsmall hs hown
      hfit hv
    have hsz := ((push_back_inv sizeof_T alignof_T res mem a v hinv hsmall
      (FixedResource.sane_arena_ok res hs)).2 hv).2
    exact ⟨a1, a3, a2, Nat.le_of_eq hsz⟩
  cases op with
  | push_back v => exact hpush v hok
  | emplace_back v =>
    obtain ⟨e1, e2, _⟩ := emplace_back_eq_push_back sizeof_T alignof_T res mem a v
    simp only [apply_aop] at hok ⊢
    rw [e2] at hok
    rw [e1]
    exact hpush v hok
  | pop_back =>
    obtain ⟨p1, p2⟩ := pop_back_inv sizeof_T mem a hinv
    have hc : (pop_back sizeof_T mem a).2.cap_ = a.cap_ := by
      unfold pop_back; split <;> rfl
    have hd : (pop_back sizeof_T mem a).2.data_ = a.data_ := by
      unfold pop_back; split <;> rfl
    refine ⟨hs, p1, ?_, Nat.le_trans p2 (Nat.le_succ _)⟩
    show owns sizeof_T res (pop_back sizeof_T mem a).2
    unfold owns at hown ⊢
    rw [hc, hd]
    exact hown
  | clear =>
    exact ⟨hs, clear_inv sizeof_T mem a hinv, hown, Nat.zero_le _⟩
  | reserve n =>
    by_cases hn : n > a.cap_
    · obtain ⟨nd, res1, hal'⟩ := reserve_ok_alloc sizeof_T alignof_T res mem a n hn hok
      obtain ⟨r1, r2, r3⟩ := reserve_arena sizeof_T alignof_T res mem a n hinv hs hown hn
        (reserve_fits sizeof_T alignof_T res n hs hp hal (hres n rfl)) nd res1 hal'
      refine ⟨r1, r3, r2, ?_⟩
      show (reserve sizeof_T alignof_T res mem a n).arr.sz_ ≤ a.sz_ + 1
      rw [reserve_eq sizeof_T alignof_T res mem a n hn nd res1 hal']
      exact Nat.le_succ _
    · simp only [apply_aop]
      rw [reserve_skip sizeof_T alignof_T res mem a n (Nat.le_of_not_gt hn)]
      exact ⟨hs, hinv, hown, Nat.le_succ _⟩

/-- An array keeps its block. On a resource in working order with no other
client, every sequence of calls that returns normally, with sizes inside the
bounds of a real program, leaves the resource in working order and the array
holding its block: a record at `data_` in the used list covers the `capacity`
cells. The hypotheses on the array in the theorems about appending and about
`reserve` therefore hold of every array in such a program. -/
theorem run_array_owns (sizeof_T alignof_T : Nat) (hS : 0 < sizeof_T)
    (hp : FixedResource.pow2 alignof_T) (hal : alignof_T ≤ 2 ^ 62) (ops : List (AOp T)) :
    ∀ (res : FixedResource) (mem : Memory T) (a : DynArray T), res.sane → inv a →
      owns sizeof_T res a → (a.sz_ + ops.length) * sizeof_T ≤ 2 ^ 62 →
      (∀ n, AOp.reserve n ∈ ops → n * sizeof_T ≤ 2 ^ 63) →
      (run_array sizeof_T alignof_T res mem a ops).ok = true →
      (run_array sizeof_T alignof_T res mem a ops).res.sane ∧
      inv (run_array sizeof_T alignof_T res mem a ops).arr ∧
      owns sizeof_T (run_array sizeof_T alignof_T res mem a ops).res
        (run_array sizeof_T alignof_T res mem a ops).arr := by
  induction ops with
  | nil =>
    intro res mem a hs hinv hown _ _ _
    exact ⟨hs, hinv, hown⟩
  | cons op ops ih =>
    intro res mem a hs hinv hown hbound hres hok
    simp only [List.length_cons] at hbound
    have hb1 : (a.sz_ + 1) * sizeof_T ≤ (a.sz_ + (ops.length + 1)) * sizeof_T :=
      Nat.mul_le_mul_right _ (by omega)
    rcases hr : apply_aop sizeof_T alignof_T res mem a op with ⟨ok, res1, mem1, a1⟩
    have hstep := apply_aop_owns sizeof_T alignof_T hp hal res mem a op hs hinv hown
      (by omega) hS (fun n hn => hres n (by rw [hn]; simp))
    rw [hr] at hstep
    simp only [run_array, hr] at hok ⊢
    cases ok with
    | false => simp at hok
    | true =>
      simp only [if_true] at hok ⊢
      obtain ⟨h1, h2, h3, h4⟩ := hstep rfl
      simp only at h1 h2 h3 h4
      have hb2 : (a1.sz_ + ops.length) * sizeof_T ≤ (a.sz_ + (ops.length + 1)) * sizeof_T :=
        Nat.mul_le_mul_right _ (by omega)
      exact ih res1 mem1 a1 h1 h2 h3 (by omega)
        (fun n hn => hres n (List.mem_cons_of_mem _ hn)) hok

end DynArray
